import Mathlib

/-!
Verification of the libgfapi-python wrapper layer (gluster/gfapi/gfapi.py and
gluster/gfapi/utils.py).

The Python code is a thin foreign-function façade: each method forwards one or
more libgfapi calls and translates failure sentinels (negative return codes, or
NULL for handle-returning calls) into exceptions.  We embed the wrappers
shallowly: every foreign call's outcome (return value and the thread-local
errno observed via ctypes.get_errno) is a parameter of the embedded function,
and stateful methods thread an explicit record of the Python object's
attributes.  Where proofs must show that a method performs "no foreign call",
the embedding additionally returns the list of foreign functions invoked.

The semantics of the native library itself (glfs_mkdir, glfs_unlink, readdir,
symlink resolution, ...) is not part of this repository; for the claims about
the authored algorithms (makedirs, rmtree, copytree) it is modelled explicitly
from the spec as a finite map from paths to filesystem nodes.
-/

namespace Gfapi

/-- OS-style error as raised by `raise OSError(err, os.strerror(err))`:
the foreign last-error code together with its textual description. -/
structure OSErr where
  errno : Nat
  msg : String
deriving DecidableEq, Repr

/-- Modelled from the spec: `os.strerror`, the platform's textual description
of an errno value.  The wrapper only ever passes the errno it just read
through this function, so an injective placeholder is a faithful model. -/
def strerror (e : Nat) : String := "errno " ++ toString e

/-- Build the `OSError(err, os.strerror(err))` value used by every wrapper. -/
def osError (e : Nat) : OSErr := ⟨e, strerror e⟩

/-- errno constant EBADF (bad file descriptor). -/
def EBADF : Nat := 9

/-- errno constant EEXIST. -/
def EEXIST : Nat := 17

/-- errno constant ENOENT. -/
def ENOENT : Nat := 2

/-- errno constant EISDIR. -/
def EISDIR : Nat := 21

/-- errno constant ENOTDIR. -/
def ENOTDIR : Nat := 20

/-- errno constant ENOTEMPTY. -/
def ENOTEMPTY : Nat := 39

/-- errno constant ELOOP. -/
def ELOOP : Nat := 40

/-- errno constant EINVAL. -/
def EINVAL : Nat := 22

/-- Outcome of one int-returning foreign call: the return value `ret` and the
thread-local errno that `ctypes.get_errno()` would observe right after it. -/
structure CRet where
  ret : Int
  errno : Nat
deriving DecidableEq, Repr

/-- Outcome of one handle-returning foreign call (glfs_open, glfs_creat,
glfs_opendir, glfs_dup, glfs_new): `none` models a NULL handle. -/
structure HRet where
  handle : Option Nat
  errno : Nat
deriving DecidableEq, Repr

/-! ## Wrapper-level embeddings (the errno-translation contract, claims C1/C10)

Each function mirrors one Python method's body, with the foreign call's
outcome passed in as a `CRet`/`HRet` parameter. -/

namespace Wrap

/-- Embeds `Volume.unlink`: `ret = glfs_unlink(...)`; `if ret < 0: raise
OSError(err, strerror(err))`; otherwise Python returns None. -/
def unlink (c : CRet) : Except OSErr Unit :=
  if c.ret < 0 then .error (osError c.errno) else .ok ()

/-- Embeds `Volume.mkdir`: negative return raises OSError, else returns None. -/
def mkdir (c : CRet) : Except OSErr Unit :=
  if c.ret < 0 then .error (osError c.errno) else .ok ()

/-- Embeds `Volume.rmdir`. -/
def rmdir (c : CRet) : Except OSErr Unit :=
  if c.ret < 0 then .error (osError c.errno) else .ok ()

/-- Embeds `Volume.chmod`. -/
def chmod (c : CRet) : Except OSErr Unit :=
  if c.ret < 0 then .error (osError c.errno) else .ok ()

/-- Embeds `Volume.chown`. -/
def chown (c : CRet) : Except OSErr Unit :=
  if c.ret < 0 then .error (osError c.errno) else .ok ()

/-- Embeds `Volume.rename`. -/
def rename (c : CRet) : Except OSErr Unit :=
  if c.ret < 0 then .error (osError c.errno) else .ok ()

/-- Embeds `Volume.link`. -/
def link (c : CRet) : Except OSErr Unit :=
  if c.ret < 0 then .error (osError c.errno) else .ok ()

/-- Embeds `Volume.symlink`. -/
def symlink (c : CRet) : Except OSErr Unit :=
  if c.ret < 0 then .error (osError c.errno) else .ok ()

/-- Embeds `Volume.removexattr`. -/
def removexattr (c : CRet) : Except OSErr Unit :=
  if c.ret < 0 then .error (osError c.errno) else .ok ()

/-- Embeds `Volume.setxattr`. -/
def setxattr (c : CRet) : Except OSErr Unit :=
  if c.ret < 0 then .error (osError c.errno) else .ok ()

/-- Embeds `Volume.access`: `ret = glfs_access(...)`; `if ret == 0: return
True else: return False`.  Note: this method never raises; a negative
return is mapped to `False`. -/
def access (c : CRet) : Except OSErr Bool :=
  if c.ret = 0 then .ok true else .ok false

/-- Embeds `Volume.open` after the flags type-check: a NULL glfd raises
OSError, a non-NULL glfd is returned to the caller unchanged. -/
def openRaw (h : HRet) : Except OSErr Nat :=
  match h.handle with
  | none => .error (osError h.errno)
  | some fd => .ok fd

/-- Embeds `Volume.opendir`'s glfs_opendir call: NULL raises OSError, else the
fd is passed through (wrapped into the `Dir` object). -/
def opendirRaw (h : HRet) : Except OSErr Nat :=
  match h.handle with
  | none => .error (osError h.errno)
  | some fd => .ok fd

end Wrap

/-! ## File objects (claims C2, C10)

`File.__init__` stores the glfd in `self.fd`; `close()` resets it to None.
`validate_glfd` guards every I/O method: `if self.fd:` is Python truthiness,
false for both None and 0.  Methods additionally return the list of foreign
functions they invoked, so that "no foreign call is made" is provable. -/

/-- The attributes of a Python `File` object that the wrappers consult:
`self.fd` is `none` once `close()` has run (and `some n` otherwise). -/
structure FileSt where
  fd : Option Int
deriving DecidableEq, Repr

/-- Python truthiness of `self.fd` (an int or None): `None` and `0` are
falsy, every other int is truthy. -/
def truthyFd : Option Int → Bool
  | none => false
  | some n => n != 0

/-- Result of an embedded `File` method: the Python outcome together with the
names of the foreign functions that were invoked. -/
def GRes (α : Type) : Type := Except OSErr α × List String

/-- Embeds the decorator `utils.validate_glfd`: if `self.fd` is truthy the
wrapped body runs, otherwise `OSError(EBADF, strerror(EBADF))` is raised
without invoking any foreign function. -/
def validate_glfd {α : Type} (body : FileSt → GRes α) (f : FileSt) : GRes α :=
  if truthyFd f.fd then body f else (.error (osError EBADF), [])

namespace FileM

/-- Embeds `File.close`: glfs_close, negative raises, success sets fd := None. -/
def close (c : CRet) (f : FileSt) : Except OSErr FileSt × List String :=
  validate_glfd (fun _ =>
    if c.ret < 0 then (.error (osError c.errno), ["glfs_close"])
    else (.ok ⟨none⟩, ["glfs_close"])) f

/-- Embeds `File.discard`. -/
def discard (c : CRet) (f : FileSt) : GRes Unit :=
  validate_glfd (fun _ =>
    if c.ret < 0 then (.error (osError c.errno), ["glfs_discard"])
    else (.ok (), ["glfs_discard"])) f

/-- Embeds `File.dup`: NULL duplicate glfd raises, else a new File wrapping
the duplicate fd is returned. -/
def dup (h : HRet) (f : FileSt) : GRes FileSt :=
  validate_glfd (fun _ =>
    match h.handle with
    | none => (.error (osError h.errno), ["glfs_dup"])
    | some fd => (.ok ⟨some (Int.ofNat fd)⟩, ["glfs_dup"])) f

/-- Embeds `File.fallocate`. -/
def fallocate (c : CRet) (f : FileSt) : GRes Unit :=
  validate_glfd (fun _ =>
    if c.ret < 0 then (.error (osError c.errno), ["glfs_fallocate"])
    else (.ok (), ["glfs_fallocate"])) f

/-- Embeds `File.fchmod`. -/
def fchmod (c : CRet) (f : FileSt) : GRes Unit :=
  validate_glfd (fun _ =>
    if c.ret < 0 then (.error (osError c.errno), ["glfs_fchmod"])
    else (.ok (), ["glfs_fchmod"])) f

/-- Embeds `File.fchown`. -/
def fchown (c : CRet) (f : FileSt) : GRes Unit :=
  validate_glfd (fun _ =>
    if c.ret < 0 then (.error (osError c.errno), ["glfs_fchown"])
    else (.ok (), ["glfs_fchown"])) f

/-- Embeds `File.fdatasync`. -/
def fdatasync (c : CRet) (f : FileSt) : GRes Unit :=
  validate_glfd (fun _ =>
    if c.ret < 0 then (.error (osError c.errno), ["glfs_fdatasync"])
    else (.ok (), ["glfs_fdatasync"])) f

/-- Embeds `File.fsync`. -/
def fsync (c : CRet) (f : FileSt) : GRes Unit :=
  validate_glfd (fun _ =>
    if c.ret < 0 then (.error (osError c.errno), ["glfs_fsync"])
    else (.ok (), ["glfs_fsync"])) f

/-- Embeds `File.ftruncate`. -/
def ftruncate (c : CRet) (f : FileSt) : GRes Unit :=
  validate_glfd (fun _ =>
    if c.ret < 0 then (.error (osError c.errno), ["glfs_ftruncate"])
    else (.ok (), ["glfs_ftruncate"])) f

/-- Embeds `File.lseek`: negative raises, otherwise the new offset is
returned unchanged. -/
def lseek (c : CRet) (f : FileSt) : GRes Int :=
  validate_glfd (fun _ =>
    if c.ret < 0 then (.error (osError c.errno), ["glfs_lseek"])
    else (.ok c.ret, ["glfs_lseek"])) f

/-- Embeds `File.zerofill`. -/
def zerofill (c : CRet) (f : FileSt) : GRes Unit :=
  validate_glfd (fun _ =>
    if c.ret < 0 then (.error (osError c.errno), ["glfs_zerofill"])
    else (.ok (), ["glfs_zerofill"])) f

/-- Embeds `File.fchmod`-style stat record: the fields of `api.Stat` that the
wrapper itself reads. -/
structure StatRec where
  st_mode : Nat
  st_ino : Nat
  st_size : Nat
deriving DecidableEq, Repr

/-- Embeds `File.fstat`: glfs_fstat fills a Stat buffer `s`; negative return
raises, else the record is returned. -/
def fstat (c : CRet) (s : StatRec) (f : FileSt) : GRes StatRec :=
  validate_glfd (fun _ =>
    if c.ret < 0 then (.error (osError c.errno), ["glfs_fstat"])
    else (.ok s, ["glfs_fstat"])) f

/-- Embeds `File.fgetsize`: `return self.fstat().st_size`. -/
def fgetsize (c : CRet) (s : StatRec) (f : FileSt) : GRes Nat :=
  validate_glfd (fun f' =>
    match fstat c s f' with
    | (.error e, t) => (.error e, t)
    | (.ok st, t) => (.ok st.st_size, t)) f

/-- Embeds `File.fsetxattr`. -/
def fsetxattr (c : CRet) (f : FileSt) : GRes Unit :=
  validate_glfd (fun _ =>
    if c.ret < 0 then (.error (osError c.errno), ["glfs_fsetxattr"])
    else (.ok (), ["glfs_fsetxattr"])) f

/-- Embeds `File.fremovexattr`. -/
def fremovexattr (c : CRet) (f : FileSt) : GRes Unit :=
  validate_glfd (fun _ =>
    if c.ret < 0 then (.error (osError c.errno), ["glfs_fremovexattr"])
    else (.ok (), ["glfs_fremovexattr"])) f

/-- Embeds `File.fgetxattr` for a caller-supplied positive size: a negative
return from the fetching glfs_fgetxattr call raises, otherwise the first
`rc` bytes of the buffer are returned (decoded to a string). -/
def fgetxattr (size : Nat) (sizeQuery : CRet) (c : CRet) (buf : String)
    (f : FileSt) : GRes String :=
  validate_glfd (fun _ =>
    if size = 0 then
      if sizeQuery.ret < 0 then
        (.error (osError sizeQuery.errno), ["glfs_fgetxattr"])
      else if c.ret < 0 then
        (.error (osError c.errno), ["glfs_fgetxattr", "glfs_fgetxattr"])
      else
        (.ok (buf.take c.ret.toNat), ["glfs_fgetxattr", "glfs_fgetxattr"])
    else
      if c.ret < 0 then (.error (osError c.errno), ["glfs_fgetxattr"])
      else (.ok (buf.take c.ret.toNat), ["glfs_fgetxattr"])) f

/-- The character-by-character scan of `File.flistxattr`/`Volume.listxattr`:
characters of the current run accumulate in `cur` (in reverse); a NUL
terminates the run and appends it; a run not terminated by NUL is dropped
(the inner `while` ends without reaching `append`). -/
def parseXattrsGo (cur : List Char) : List Char → List String
  | [] => []
  | ch :: rest =>
    if ch = Char.ofNat 0 then String.mk cur.reverse :: parseXattrsGo [] rest
    else parseXattrsGo (ch :: cur) rest

/-- The NUL-separated buffer parse loop of `flistxattr`/`listxattr`:
NUL-terminated runs become attribute names, in buffer order. -/
def parseXattrs (cs : List Char) : List String := parseXattrsGo [] cs

/-- Python's `list.sort()` on strings: stable ascending sort (modelled with
insertion sort over the decidable lexicographic order). -/
def insertSorted (s : String) : List String → List String
  | [] => [s]
  | x :: xs => if s ≤ x then s :: x :: xs else x :: insertSorted s xs

/-- Ascending sort, as performed by `xattrs.sort()`. -/
def sortStrings : List String → List String
  | [] => []
  | x :: xs => insertSorted x (sortStrings xs)

/-- Embeds `File.flistxattr` for a caller-supplied positive size: negative
return raises; otherwise the first `rc` buffer bytes are split on NUL and
the resulting names are sorted. -/
def flistxattr (size : Nat) (sizeQuery : CRet) (c : CRet) (buf : List Char)
    (f : FileSt) : GRes (List String) :=
  validate_glfd (fun _ =>
    if size = 0 then
      if sizeQuery.ret < 0 then
        (.error (osError sizeQuery.errno), ["glfs_flistxattr"])
      else if c.ret < 0 then
        (.error (osError c.errno), ["glfs_flistxattr", "glfs_flistxattr"])
      else
        (.ok (sortStrings (parseXattrs (buf.take c.ret.toNat))),
          ["glfs_flistxattr", "glfs_flistxattr"])
    else
      if c.ret < 0 then (.error (osError c.errno), ["glfs_flistxattr"])
      else
        (.ok (sortStrings (parseXattrs (buf.take c.ret.toNat))),
          ["glfs_flistxattr"])) f

/-- Embeds `File.write`: negative raises, else the byte count written is
returned unchanged. -/
def write (c : CRet) (f : FileSt) : GRes Int :=
  validate_glfd (fun _ =>
    if c.ret < 0 then (.error (osError c.errno), ["glfs_write"])
    else (.ok c.ret, ["glfs_write"])) f

/-- Embeds `File.readinto`: negative raises, else the byte count read is
returned (0 at EOF). -/
def readinto (c : CRet) (f : FileSt) : GRes Int :=
  validate_glfd (fun _ =>
    if c.ret < 0 then (.error (osError c.errno), ["glfs_read"])
    else (.ok c.ret, ["glfs_read"])) f

/-- Embeds `File.read`.  `size < 0` first determines the size via
`fgetsize()` (outcome `fstatC`/`fstatS`).  Then glfs_read returns `c.ret`
having filled the buffer with `data`:  `ret > 0` returns the first `ret`
bytes, `ret < 0` raises, and `ret == 0` falls off the function body, i.e.
Python returns `None`. -/
def read (size : Int) (fstatC : CRet) (fstatS : StatRec) (c : CRet)
    (data : List Nat) (f : FileSt) : GRes (Option (List Nat)) :=
  validate_glfd (fun f' =>
    let sized : GRes Int :=
      if size < 0 then
        match fgetsize fstatC fstatS f' with
        | (.error e, t) => (.error e, t)
        | (.ok n, t) => (.ok (Int.ofNat n), t)
      else (.ok size, [])
    match sized with
    | (.error e, t) => (.error e, t)
    | (.ok _, t) =>
      if c.ret > 0 then (.ok (some (data.take c.ret.toNat)), t ++ ["glfs_read"])
      else if c.ret < 0 then (.error (osError c.errno), t ++ ["glfs_read"])
      else (.ok none, t ++ ["glfs_read"])) f

end FileM

/-! ## The remaining Volume path-operation wrappers (claim C1)

These mirror the Volume methods that return a value built from the foreign
call's output buffer or a filled record, with the same negative-return
errno translation as the unit-returning wrappers above. -/

/-- The members of `api.Statvfs` named by `Volume.statvfs`'s docstring; the
wrapper itself returns the filled record unchanged. -/
structure StatvfsRec where
  f_bsize : Nat
  f_frsize : Nat
  f_blocks : Nat
  f_bfree : Nat
  f_bavail : Nat
  f_files : Nat
  f_ffree : Nat
  f_favail : Nat
  f_fsid : Nat
  f_flag : Nat
  f_namemax : Nat
deriving DecidableEq, Repr

namespace Wrap

/-- Embeds `Volume.stat`: glfs_stat fills the Stat record `s`; `rc < 0`
raises OSError(err, strerror(err)), else the record is returned. -/
def stat (c : CRet) (s : FileM.StatRec) : Except OSErr FileM.StatRec :=
  if c.ret < 0 then .error (osError c.errno) else .ok s

/-- Embeds `Volume.lstat`: same contract as `stat` over glfs_lstat. -/
def lstat (c : CRet) (s : FileM.StatRec) : Except OSErr FileM.StatRec :=
  if c.ret < 0 then .error (osError c.errno) else .ok s

/-- Embeds `Volume.statvfs`: glfs_statvfs fills the Statvfs record;
negative return raises, else the record is returned. -/
def statvfs (c : CRet) (s : StatvfsRec) : Except OSErr StatvfsRec :=
  if c.ret < 0 then .error (osError c.errno) else .ok s

/-- Embeds `Volume.readlink`: glfs_readlink fills `buf` and returns the
length; negative raises, else `buf.value[:ret]` is returned. -/
def readlink (c : CRet) (buf : String) : Except OSErr String :=
  if c.ret < 0 then .error (osError c.errno) else .ok (buf.take c.ret.toNat)

/-- Embeds `Volume.chdir`: negative glfs_chdir return raises, else Python
returns None. -/
def chdir (c : CRet) : Except OSErr Unit :=
  if c.ret < 0 then .error (osError c.errno) else .ok ()

/-- Embeds `Volume.utime` after the times-tuple check and timespec
marshaling (which only build the call's arguments): a negative
glfs_utimens return raises, else Python returns None. -/
def utime (c : CRet) : Except OSErr Unit :=
  if c.ret < 0 then .error (osError c.errno) else .ok ()

/-- Embeds `Volume.getxattr`: with `size == 0` a size-probing glfs_getxattr
call (outcome `sizeQuery`) runs first and a negative probe raises; then the
fetching call's negative return raises, else `buf.value[:rc]` is
returned. -/
def getxattr (size : Nat) (sizeQuery : CRet) (c : CRet) (buf : String) :
    Except OSErr String :=
  if size = 0 then
    if sizeQuery.ret < 0 then .error (osError sizeQuery.errno)
    else if c.ret < 0 then .error (osError c.errno)
    else .ok (buf.take c.ret.toNat)
  else
    if c.ret < 0 then .error (osError c.errno)
    else .ok (buf.take c.ret.toNat)

/-- Embeds `Volume.listxattr`: the same two-phase size/fetch structure as
`getxattr`; on success the first `rc` buffer bytes are split on NUL and the
names sorted, exactly as in `File.flistxattr`. -/
def listxattr (size : Nat) (sizeQuery : CRet) (c : CRet) (buf : List Char) :
    Except OSErr (List String) :=
  if size = 0 then
    if sizeQuery.ret < 0 then .error (osError sizeQuery.errno)
    else if c.ret < 0 then .error (osError c.errno)
    else .ok (FileM.sortStrings (FileM.parseXattrs (buf.take c.ret.toNat)))
  else
    if c.ret < 0 then .error (osError c.errno)
    else .ok (FileM.sortStrings (FileM.parseXattrs (buf.take c.ret.toNat)))

/-- Embeds `Volume.getcwd`: glfs_getcwd returns a char pointer; a falsy
(NULL) return raises OSError with the HARDCODED code errno.ENOENT — not
the foreign last-error value — else `buf.value` is returned. -/
def getcwd (h : HRet) (buf : String) : Except OSErr String :=
  match h.handle with
  | none => .error (osError ENOENT)
  | some _ => .ok buf

end Wrap

/-! ## Volume mount state machine (claims C3, C4) -/

/-- The domain exception `LibgfapiException` raised by the volume lifecycle
methods. -/
inductive VolErr
  | libgfapi (msg : String)
deriving DecidableEq, Repr

/-- The attributes of a Python `Volume` object consulted by
mount/umount/set_logging. -/
structure VolSt where
  fs : Option Nat
  mounted : Bool
  volname : String
  host : String
  protocol : String
  port : Nat
  log_file : String
  log_level : Nat
deriving DecidableEq, Repr

/-- Outcomes of the four foreign calls `Volume.mount` can make, with the
errno observed after each. -/
structure MountApi where
  glfs_new : Option Nat
  new_errno : Nat
  set_volfile_server : Int
  svs_errno : Nat
  glfs_set_logging : Int
  slog_errno : Nat
  glfs_init : Int
  init_errno : Nat
deriving DecidableEq, Repr

namespace VolumeM

/-- Embeds `Volume.set_logging`: the glfs_set_logging call happens only when
`self.fs` is set; a negative return raises LibgfapiException; on the
non-raising paths the log attributes are recorded. -/
def set_logging (c : CRet) (lf : String) (ll : Nat) (v : VolSt) :
    Except VolErr VolSt × List String :=
  if v.fs.isSome then
    if c.ret < 0 then
      (.error (.libgfapi ("glfs_set_logging(" ++ lf ++ ", " ++ toString ll ++
        ") failed: " ++ strerror c.errno)), ["glfs_set_logging"])
    else
      (.ok { v with log_file := lf, log_level := ll }, ["glfs_set_logging"])
  else
    (.ok { v with log_file := lf, log_level := ll }, [])

/-- Embeds `Volume.mount`: already-mounted volumes return immediately;
otherwise glfs_new, glfs_set_volfile_server, set_logging and glfs_init run
in order, each failure raising LibgfapiException; `_mounted` becomes True
only after a successful glfs_init. -/
def mount (a : MountApi) (v : VolSt) : Except VolErr Unit × VolSt × List String :=
  if v.fs.isSome && v.mounted then (.ok (), v, [])
  else
    match a.glfs_new with
    | none =>
      (.error (.libgfapi ("glfs_new(" ++ v.volname ++ ") failed: " ++
        strerror a.new_errno)), { v with fs := none }, ["glfs_new"])
    | some h =>
      let v1 := { v with fs := some h }
      if a.set_volfile_server < 0 then
        (.error (.libgfapi ("glfs_set_volfile_server(" ++ toString h ++ ", " ++
          v.protocol ++ ", " ++ v.host ++ ", " ++ toString v.port ++
          ") failed: " ++ strerror a.svs_errno)), v1,
          ["glfs_new", "glfs_set_volfile_server"])
      else
        match set_logging ⟨a.glfs_set_logging, a.slog_errno⟩ v1.log_file v1.log_level v1 with
        | (.error e, t) =>
          (.error e, v1, ["glfs_new", "glfs_set_volfile_server"] ++ t)
        | (.ok v2, t) =>
          if v2.fs.isSome && !v2.mounted then
            if a.glfs_init < 0 then
              (.error (.libgfapi ("glfs_init(" ++ toString h ++ ") failed: " ++
                strerror a.init_errno)), v2,
                ["glfs_new", "glfs_set_volfile_server"] ++ t ++ ["glfs_init"])
            else
              (.ok (), { v2 with mounted := true },
                ["glfs_new", "glfs_set_volfile_server"] ++ t ++ ["glfs_init"])
          else
            (.ok (), v2, ["glfs_new", "glfs_set_volfile_server"] ++ t)

/-- Embeds `Volume.umount`: a volume without a handle returns immediately
(no foreign call); glfs_fini failure raises and leaves the state unchanged;
success clears both `_mounted` and `fs`. -/
def umount (c : CRet) (v : VolSt) : Except VolErr Unit × VolSt × List String :=
  if v.fs.isSome then
    if c.ret < 0 then
      (.error (.libgfapi ("glfs_fini failed: " ++ strerror c.errno)), v, ["glfs_fini"])
    else
      (.ok (), { v with mounted := false, fs := none }, ["glfs_fini"])
  else
    (.ok (), v, [])

end VolumeM

/-! ## DirEntry (claim C9) -/

/-- The S_IFMT format mask from the `stat` module. -/
def S_IFMT : Nat := 0xF000

/-- stat.S_ISLNK. -/
def S_ISLNK (m : Nat) : Bool := Nat.land m S_IFMT == 0xA000

/-- stat.S_ISDIR. -/
def S_ISDIR (m : Nat) : Bool := Nat.land m S_IFMT == 0x4000

/-- stat.S_ISREG. -/
def S_ISREG (m : Nat) : Bool := Nat.land m S_IFMT == 0x8000

/-- os.path.join for the non-absolute second component, as used by
`DirEntry.__init__`. -/
def pathJoin (p n : String) : String :=
  if p = "" then n
  else if p.endsWith "/" then p ++ n
  else p ++ "/" ++ n

/-- The slots of a Python `DirEntry` object: `_name`, `_path`, the cached
`_lstat` record from readdirplus, and the lazily-filled `_stat` cache. -/
structure DirEntrySt where
  name : String
  path : String
  lstat : FileM.StatRec
  statC : Option FileM.StatRec
deriving DecidableEq, Repr

namespace DirEntryM

/-- DirEntry.is_symlink: `stat.S_ISLNK(self._lstat.st_mode)`. -/
def is_symlink (e : DirEntrySt) : Bool := S_ISLNK e.lstat.st_mode

/-- Embeds `DirEntry.stat(follow_symlinks)`.  `volStat` is the outcome
`Volume.stat(self.path)` would produce; the returned trace records whether
that foreign stat was invoked.  Returns the produced record together with
the updated entry (the `_stat` cache may be filled in). -/
def stat (volStat : String → Except OSErr FileM.StatRec) (e : DirEntrySt)
    (follow_symlinks : Bool) :
    Except OSErr (FileM.StatRec × DirEntrySt) × List String :=
  if follow_symlinks then
    match e.statC with
    | some s => (.ok (s, e), [])
    | none =>
      if is_symlink e then
        match volStat e.path with
        | .ok s => (.ok (s, { e with statC := some s }), ["glfs_stat"])
        | .error err => (.error err, ["glfs_stat"])
      else
        (.ok (e.lstat, { e with statC := some e.lstat }), [])
  else
    (.ok (e.lstat, e), [])

end DirEntryM

/-! ## Directory iteration (claim C7)

`Dir.__next__` makes one glfs_readdir_r (or glfs_readdirplus_r) call.  The
foreign cursor is modelled as the list of outcomes of successive calls: an
`.ok` element is a successfully filled dirent, an `.error e` element is a
nonzero return with observed errno `e`, and the end of the list is the call
that leaves the cursor NULL (end of stream). -/

/-- The `api.Dirent` fields the wrapper reads (`d_name` sliced to
`d_reclen`). -/
structure Dirent where
  d_name : String
deriving DecidableEq, Repr

/-- What one `Dir.__next__` call produces. -/
inductive NextRes
  | entry (d : Dirent)
  | stopIteration
  | oserror (e : OSErr)
deriving DecidableEq, Repr

namespace DirM

/-- Embeds `Dir.__next__` (readdir mode): a nonzero return raises OSError;
a NULL cursor raises StopIteration; otherwise the entry is yielded and the
cursor advances. -/
def nextEntry : List (Except Nat Dirent) → NextRes × List (Except Nat Dirent)
  | [] => (.stopIteration, [])
  | .error e :: rest => (.oserror (osError e), rest)
  | .ok d :: rest => (.entry d, rest)

end DirM

namespace VolumeM

/-- Embeds the loop body of `Volume.listdir` over the directory stream:
every yielded entry's name is collected unless it is "." or ".."; an
OSError from the iterator propagates. -/
def listdirGo : List (Except Nat Dirent) → Except OSErr (List String)
  | [] => .ok []
  | .error e :: _ => .error (osError e)
  | .ok d :: rest =>
    match listdirGo rest with
    | .error e => .error e
    | .ok names =>
      .ok (if d.d_name = "." ∨ d.d_name = ".." then names else d.d_name :: names)

/-- Embeds the loop of `Volume.listdir_with_stat` over the readdirplus
stream. -/
def listdirWithStatGo :
    List (Except Nat (Dirent × FileM.StatRec)) →
    Except OSErr (List (String × FileM.StatRec))
  | [] => .ok []
  | .error e :: _ => .error (osError e)
  | .ok (d, st) :: rest =>
    match listdirWithStatGo rest with
    | .error e => .error e
    | .ok es =>
      .ok (if d.d_name = "." ∨ d.d_name = ".." then es else (d.d_name, st) :: es)

/-- Embeds the generator `Volume.scandir` over the readdirplus stream:
"." and ".." are skipped, every other entry is wrapped into a DirEntry
whose `_lstat` is the stat produced by readdirplus and whose `_stat` cache
starts empty. -/
def scandirGo :
    String → List (Except Nat (Dirent × FileM.StatRec)) →
    Except OSErr (List DirEntrySt)
  | _, [] => .ok []
  | _, .error e :: _ => .error (osError e)
  | p, .ok (d, st) :: rest =>
    match scandirGo p rest with
    | .error e => .error e
    | .ok es =>
      .ok (if d.d_name = "." ∨ d.d_name = ".." then es
           else ⟨d.d_name, pathJoin p d.d_name, st, none⟩ :: es)

end VolumeM

/-! ## Modelled filesystem (claims C5, C6, C8)

The semantics of the native library's path operations (glfs_stat, glfs_mkdir,
glfs_unlink, glfs_rmdir, glfs_opendir/readdir, glfs_symlink, glfs_readlink,
glfs_open/creat/read/write) is not part of this repository.  It is modelled
from the spec: a volume is a finite map from absolute paths (component lists)
to nodes; `stat` and `open` follow symbolic links, `lstat`/`unlink`/`rmdir`/
`readlink`/`symlink` resolve only the parent directory; directory listings
enumerate the children of the resolved directory (the "." and ".." entries,
which every consumer of the listings filters out, are left implicit).
File metadata (times, permission bits) is not modelled: `chmod`/`utime`
succeed exactly when their path exists and change nothing the claims
mention. -/

/-- An absolute path, as a list of name components. -/
abbrev Path := List String

/-- A filesystem node: regular file with its byte content, directory, or
symbolic link with its target path. -/
inductive Node
  | file (content : List Nat)
  | dir
  | symlink (target : Path)
deriving DecidableEq, Repr

/-- A volume's contents: a finite association of paths to nodes.  The root
`[]` is an implicit directory and has no entry. -/
structure FS where
  entries : List (Path × Node)
deriving DecidableEq, Repr

/-- First-match association lookup over the entry list. -/
def lookupL : List (Path × Node) → Path → Option Node
  | [], _ => none
  | e :: t, q => if e.1 = q then some e.2 else lookupL t q

namespace FS

/-- Look up the node stored at a path (no symlink resolution). -/
def lookup (fs : FS) (p : Path) : Option Node :=
  lookupL fs.entries p

/-- Well-formedness: paths are distinct and nonempty, and each entry's
parent is the root or an existing directory. -/
def wf (fs : FS) : Prop :=
  (fs.entries.map (fun e => e.1)).Nodup ∧
  ∀ e ∈ fs.entries, e.1 ≠ [] ∧
    (e.1.dropLast = [] ∨ fs.lookup e.1.dropLast = some Node.dir)

/-- The children of a directory path: name and node of every entry directly
below it. -/
def children (fs : FS) (p : Path) : List (String × Node) :=
  fs.entries.filterMap (fun e =>
    if e.1 ≠ [] ∧ e.1.dropLast = p then some (e.1.getLastD "", e.2) else none)

/-- Follow symbolic links at a path until a non-symlink (or absent) node is
reached; `none` models too many levels of symbolic links (ELOOP). -/
def chase (fs : FS) : Nat → Path → Option Path
  | 0, _ => none
  | fuel + 1, p =>
    match fs.lookup p with
    | some (Node.symlink t) => chase fs fuel t
    | _ => some p

/-- Resolve a path component by component starting below `base` (which is
already fully resolved): every component is chased through symlinks, and
intermediate components must be existing directories. -/
def realizeGo (fs : FS) (fuel : Nat) : Path → Path → Option Path
  | base, [] => some base
  | base, c :: rest =>
    match chase fs fuel (base ++ [c]) with
    | none => none
    | some q =>
      match rest with
      | [] => some q
      | _ =>
        if q = [] then realizeGo fs fuel [] rest
        else
          match fs.lookup q with
          | some Node.dir => realizeGo fs fuel q rest
          | _ => none

/-- Fully resolve a path (including symlinks in the final component).  The
result need not exist in the map (creation targets the resolved path). -/
def realize (fs : FS) (fuel : Nat) (p : Path) : Option Path :=
  realizeGo fs fuel [] p

/-- Resolve a path and require the result to be an existing directory (the
root counts). -/
def realizeDir (fs : FS) (fuel : Nat) (p : Path) : Option Path :=
  match realize fs fuel p with
  | none => none
  | some q =>
    if q = [] then some []
    else
      match fs.lookup q with
      | some Node.dir => some q
      | _ => none

/-- Resolve only the parent of a path, keeping the final component as is
(the view used by lstat/unlink/rmdir/readlink/symlink/mkdir). -/
def lpath (fs : FS) (fuel : Nat) (p : Path) : Option Path :=
  match p with
  | [] => some []
  | _ =>
    match realizeDir fs fuel p.dropLast with
    | none => none
    | some q => some (q ++ [p.getLastD ""])

/-- glfs_stat: resolve fully, then report the node (the root is a
directory). -/
def statN (fs : FS) (fuel : Nat) (p : Path) : Except Nat Node :=
  match realize fs fuel p with
  | none => .error ENOENT
  | some q =>
    if q = [] then .ok Node.dir
    else
      match fs.lookup q with
      | some n => .ok n
      | none => .error ENOENT

/-- glfs_lstat: resolve the parent only, then report the raw node. -/
def lstatN (fs : FS) (fuel : Nat) (p : Path) : Except Nat Node :=
  match lpath fs fuel p with
  | none => .error ENOENT
  | some q =>
    if q = [] then .ok Node.dir
    else
      match fs.lookup q with
      | some n => .ok n
      | none => .error ENOENT

/-- glfs_mkdir: the parent must resolve to a directory, the leaf must not
already exist. -/
def mkdirOp (fs : FS) (fuel : Nat) (p : Path) : Except Nat FS :=
  match p with
  | [] => .error EEXIST
  | _ =>
    match lpath fs fuel p with
    | none => .error ENOENT
    | some q =>
      match fs.lookup q with
      | some _ => .error EEXIST
      | none => .ok ⟨(q, Node.dir) :: fs.entries⟩

/-- glfs_unlink: removes a non-directory entry. -/
def unlinkOp (fs : FS) (fuel : Nat) (p : Path) : Except Nat FS :=
  match lpath fs fuel p with
  | none => .error ENOENT
  | some q =>
    if q = [] then .error EISDIR
    else
      match fs.lookup q with
      | none => .error ENOENT
      | some Node.dir => .error EISDIR
      | some _ => .ok ⟨fs.entries.filter (fun e => e.1 != q)⟩

/-- glfs_rmdir: removes an empty directory. -/
def rmdirOp (fs : FS) (fuel : Nat) (p : Path) : Except Nat FS :=
  match lpath fs fuel p with
  | none => .error ENOENT
  | some q =>
    if q = [] then .error EINVAL
    else
      match fs.lookup q with
      | none => .error ENOENT
      | some Node.dir =>
        if fs.children q = [] then .ok ⟨fs.entries.filter (fun e => e.1 != q)⟩
        else .error ENOTEMPTY
      | some _ => .error ENOTDIR

/-- glfs_readlink: the raw node must be a symlink; its target is returned. -/
def readlinkOp (fs : FS) (fuel : Nat) (p : Path) : Except Nat Path :=
  match lpath fs fuel p with
  | none => .error ENOENT
  | some q =>
    match fs.lookup q with
    | some (Node.symlink t) => .ok t
    | some _ => .error EINVAL
    | none => .error ENOENT

/-- glfs_symlink source link_name: creates a symlink node at link_name. -/
def symlinkOp (fs : FS) (fuel : Nat) (source linkName : Path) : Except Nat FS :=
  match linkName with
  | [] => .error EEXIST
  | _ =>
    match lpath fs fuel linkName with
    | none => .error ENOENT
    | some q =>
      match fs.lookup q with
      | some _ => .error EEXIST
      | none => .ok ⟨(q, Node.symlink source) :: fs.entries⟩

/-- glfs_opendir followed by a full readdir(plus) sweep: the resolved path
must be a directory; its children (name and lstat node) are listed. -/
def readdirOp (fs : FS) (fuel : Nat) (p : Path) : Except Nat (List (String × Node)) :=
  match realize fs fuel p with
  | none => .error ENOENT
  | some q =>
    if q = [] then .ok (fs.children [])
    else
      match fs.lookup q with
      | some Node.dir => .ok (fs.children q)
      | some _ => .error ENOTDIR
      | none => .error ENOENT

/-- Replace the content of the file entry at (already resolved) path `q`. -/
def setFile (fs : FS) (q : Path) (c : List Nat) : FS :=
  ⟨fs.entries.map (fun e => if e.1 == q then (e.1, Node.file c) else e)⟩

/-- An open file handle: the resolved path of the file and the I/O offset. -/
structure FHandle where
  path : Path
  pos : Nat
deriving DecidableEq, Repr

/-- glfs_open with O_RDONLY (`fopen(path, 'rb')`): the resolved node must be
a regular file. -/
def fopenR (fs : FS) (fuel : Nat) (p : Path) : Except Nat FHandle :=
  match realize fs fuel p with
  | none => .error ENOENT
  | some q =>
    match fs.lookup q with
    | some (Node.file _) => .ok ⟨q, 0⟩
    | some Node.dir => .error EISDIR
    | some (Node.symlink _) => .error ELOOP
    | none => .error ENOENT

/-- glfs_creat with O_WRONLY|O_CREAT|O_TRUNC (`fopen(path, 'wb')`): an
existing regular file is truncated, a missing one is created below an
existing parent directory. -/
def fopenW (fs : FS) (fuel : Nat) (p : Path) : Except Nat (FS × FHandle) :=
  match realize fs fuel p with
  | none => .error ENOENT
  | some q =>
    if q = [] then .error EISDIR
    else
      match fs.lookup q with
      | some (Node.file _) => .ok (setFile fs q [], ⟨q, 0⟩)
      | some Node.dir => .error EISDIR
      | some (Node.symlink _) => .error ELOOP
      | none =>
        if q.dropLast = [] ∨ fs.lookup q.dropLast = some Node.dir then
          .ok (⟨(q, Node.file []) :: fs.entries⟩, ⟨q, 0⟩)
        else .error ENOENT

/-- glfs_read into a buffer of size `n` at the handle's offset
(`File.readinto`): returns the bytes read and the advanced handle. -/
def readN (fs : FS) (h : FHandle) (n : Nat) : Except Nat (List Nat × FHandle) :=
  match fs.lookup h.path with
  | some (Node.file c) =>
    let bytes := (c.drop h.pos).take n
    .ok (bytes, ⟨h.path, h.pos + bytes.length⟩)
  | _ => .error EBADF

/-- glfs_write at the handle's offset (`File.write`). -/
def writeN (fs : FS) (h : FHandle) (data : List Nat) : Except Nat (FS × FHandle) :=
  match fs.lookup h.path with
  | some (Node.file c) =>
    let c2 := c.take h.pos ++ data ++ c.drop (h.pos + data.length)
    .ok (setFile fs h.path c2, ⟨h.path, h.pos + data.length⟩)
  | _ => .error EBADF

/-- Embeds `Volume.copyfileobj`: repeatedly `readinto` a buffer of size
`length` from the source handle and write what was read (the full buffer
when it was filled, the first `nread` bytes otherwise — either way exactly
the bytes read) until a read returns 0.  The outer `none` is exhausted
fuel, the inner value is the Python outcome. -/
def copyfileobj : Nat → FS → FHandle → FHandle → Nat →
    Option (Except Nat (FS × FHandle × FHandle))
  | 0, _, _, _, _ => none
  | fuel + 1, fs, hsrc, hdst, length =>
    match readN fs hsrc length with
    | .error e => some (.error e)
    | .ok (bytes, hsrc2) =>
      if bytes.length = 0 then some (.ok (fs, hsrc2, hdst))
      else
        match writeN fs hdst bytes with
        | .error e => some (.error e)
        | .ok (fs2, hdst2) => copyfileobj fuel fs2 hsrc2 hdst2 length

end FS

/-! ## The authored recursive algorithms over the modelled filesystem -/

/-- The buffer size `128 * 1024` used by `copyfileobj`'s default argument. -/
def COPYBUF : Nat := 131072

/-- Distinguished error value modelling the errno-less
`OSError("Cannot call rmtree on a symbolic link")`. -/
def RMTREE_LINK_ERR : Nat := 10000

/-- Distinguished error value modelling a child `copytree` call that raised
`Error(errors)`; the parent appends it to its own error list. -/
def CT_CHILD_ERR : Nat := 10001

namespace VolFS

/-- Embeds `Volume.exists`: stat, catching OSError as False. -/
def existsP (fs : FS) (fuel : Nat) (p : Path) : Bool :=
  match FS.statN fs fuel p with
  | .ok _ => true
  | .error _ => false

/-- Embeds `Volume.isdir`: stat, S_ISDIR, catching OSError as False. -/
def isdir (fs : FS) (fuel : Nat) (p : Path) : Bool :=
  match FS.statN fs fuel p with
  | .ok Node.dir => true
  | _ => false

/-- Embeds `Volume.islink`: lstat, S_ISLNK, catching OSError as False. -/
def islink (fs : FS) (fuel : Nat) (p : Path) : Bool :=
  match FS.lstatN fs fuel p with
  | .ok (Node.symlink _) => true
  | _ => false

/-- Embeds `Volume.mkdir` with the raised OSError represented as a value
(the state is unchanged when the foreign call fails). -/
def mkdirM (fs : FS) (fuel : Nat) (p : Path) : FS × Option Nat :=
  match FS.mkdirOp fs fuel p with
  | .ok fs2 => (fs2, none)
  | .error e => (fs, some e)

/-- Embeds `Volume.makedirs` for component paths.  `os.path.split` yields
(dropLast, last); component paths never have an empty last component, so
the `if not tail` renormalisation branch is not taken.  A missing parent is
created recursively, suppressing only EEXIST; then the leaf `mkdir` runs
(unless the tail is os.curdir, which cannot occur for component paths
either but is kept faithful). -/
def makedirs (fs : FS) (fuel : Nat) (path : Path) : FS × Option Nat :=
  if h : path.dropLast ≠ [] ∧ path.getLastD "" ≠ "" ∧
      ¬ existsP fs fuel path.dropLast then
    match makedirs fs fuel path.dropLast with
    | (fs1, some e) =>
      if e ≠ EEXIST then (fs1, some e)
      else if path.getLastD "" = "." then (fs1, none)
      else mkdirM fs1 fuel path
    | (fs1, none) =>
      if path.getLastD "" = "." then (fs1, none)
      else mkdirM fs1 fuel path
  else mkdirM fs fuel path
termination_by path.length
decreasing_by
  all_goals
    have hne : path ≠ [] := by
      intro hnil
      exact h.1 (show path.dropLast = [] by rw [hnil, List.dropLast_nil])
    have hpos : 0 < path.length := List.length_pos.mpr hne
    have hdl : path.dropLast.length = path.length - 1 := List.length_dropLast path
    omega

/-- Embeds `Volume.scandir`'s snapshot over the modelled filesystem: the
name and cached lstat record of each child of the directory ("." and ".."
filtered out).  Also the body of `Volume.listdir_with_stat`. -/
def scandirSnap (fs : FS) (fuel : Nat) (p : Path) :
    Except Nat (List (String × Node)) :=
  FS.readdirOp fs fuel p

/-- Embeds `DirEntry.is_dir(follow_symlinks=False)` on a snapshot entry:
S_ISDIR of the cached lstat record. -/
def entryIsDir : Node → Bool
  | Node.dir => true
  | _ => false

/-- Embeds S_ISLNK of a snapshot entry's cached lstat record. -/
def entryIsLink : Node → Bool
  | Node.symlink _ => true
  | _ => false

mutual

/-- Embeds `Volume.rmtree` with default arguments (so the default `onerror`
re-raises and the first error aborts): refuse symlinks, iterate over the
scandir snapshot — recursing into entries whose cached lstat is a directory
and unlinking every other entry — then rmdir the root.  The outer `none` is
exhausted recursion fuel; the inner pair is the final state and the raised
error, if any. -/
def rmtreeGo : Nat → Nat → FS → Path → Option (FS × Option Nat)
  | 0, _, _, _ => none
  | fuel + 1, rfuel, fs, path =>
    if islink fs rfuel path then some (fs, some RMTREE_LINK_ERR)
    else
      match scandirSnap fs rfuel path with
      | .error e => some (fs, some e)
      | .ok entries =>
        match rmtreeFold fuel rfuel fs path entries with
        | none => none
        | some (fs1, some e) => some (fs1, some e)
        | some (fs1, none) =>
          match FS.rmdirOp fs1 rfuel path with
          | .error e => some (fs1, some e)
          | .ok fs2 => some (fs2, none)
termination_by fuel _ _ _ => (fuel, 0)

/-- The `for entry in self.scandir(path)` loop of `rmtree`. -/
def rmtreeFold : Nat → Nat → FS → Path → List (String × Node) →
    Option (FS × Option Nat)
  | _, _, fs, _, [] => some (fs, none)
  | fuel, rfuel, fs, path, (name, nd) :: rest =>
    let full := path ++ [name]
    if entryIsDir nd then
      match rmtreeGo fuel rfuel fs full with
      | none => none
      | some (fs1, some e) => some (fs1, some e)
      | some (fs1, none) => rmtreeFold fuel rfuel fs1 path rest
    else
      match FS.unlinkOp fs rfuel full with
      | .error e => some (fs, some e)
      | .ok fs1 => rmtreeFold fuel rfuel fs1 path rest
termination_by fuel _ _ _ es => (fuel, es.length + 1)

end

/-- Embeds `Volume.utime`: succeeds exactly when the path stats (times are
not modelled). -/
def utimeM (fs : FS) (fuel : Nat) (p : Path) : Option Nat :=
  match FS.statN fs fuel p with
  | .ok _ => none
  | .error e => some e

/-- Embeds `Volume.chmod` at the model's granularity: succeeds exactly when
the path stats (permission bits are not modelled). -/
def chmodM (fs : FS) (fuel : Nat) (p : Path) : Option Nat :=
  match FS.statN fs fuel p with
  | .ok _ => none
  | .error e => some e

/-- Embeds `Volume.copystat`: stat the source, then utime and chmod the
destination. -/
def copystat (fs : FS) (fuel : Nat) (src dst : Path) : Option Nat :=
  match FS.statN fs fuel src with
  | .error e => some e
  | .ok _ =>
    match utimeM fs fuel dst with
    | some e => some e
    | none => chmodM fs fuel dst

/-- The size of the regular file at an (already resolved) path; used to
bound the `copyfileobj` loop, which reads a positive number of bytes on
every iteration before the read returning 0 ends it. -/
def srcFileSize (fs : FS) (p : Path) : Nat :=
  match fs.lookup p with
  | some (Node.file c) => c.length
  | _ => 0

/-- Embeds the file-copy arm of `copytree`'s loop: fopen src 'rb', fopen
dst 'wb', copyfileobj (whose while loop is bounded by the source size),
then utime and chmod the destination. -/
def copyFileInto (fs : FS) (rfuel : Nat) (srcp dstp : Path) : Except Nat FS :=
  match FS.fopenR fs rfuel srcp with
  | .error e => .error e
  | .ok hs =>
    match FS.fopenW fs rfuel dstp with
    | .error e => .error e
    | .ok (fs1, hd) =>
      match FS.copyfileobj (srcFileSize fs1 hs.path + 2) fs1 hs hd COPYBUF with
      | none => .error EINVAL
      | some (.error e) => .error e
      | some (.ok (fs2, _, _)) =>
        match utimeM fs2 rfuel dstp with
        | some e => .error e
        | none =>
          match chmodM fs2 rfuel dstp with
          | some e => .error e
          | none => .ok fs2

/-- Embeds the local helper `_isdir(path, statinfo, follow_symlinks)` of
`copytree`. -/
def ctIsdir (fs : FS) (rfuel : Nat) (p : Path) (st : Node) (follow : Bool) : Bool :=
  if entryIsDir st then true
  else if follow && entryIsLink st then isdir fs rfuel p
  else false

mutual

/-- Embeds `Volume.copytree(src, dst, symlinks)` (with `ignore=None`, as in
every recursive call): list the source with stats, makedirs the destination
(failures there raise OSError out of the call), process every entry —
recreating symlinks when `symlinks` is set, recursing into (possibly
dereferenced) directories, copying file contents otherwise — collecting
per-entry exceptions, run copystat, and raise `Error(errors)` if any
accumulated.  The outer `none` is exhausted recursion fuel. -/
def copytree : Nat → Nat → FS → Path → Path → Bool →
    Option (FS × Option (Except Nat (List Nat)))
  | 0, _, _, _, _, _ => none
  | cfuel + 1, rfuel, fs, src, dst, symlinks =>
    match scandirSnap fs rfuel src with
    | .error e => some (fs, some (.error e))
    | .ok names_with_stat =>
      match makedirs fs rfuel dst with
      | (fs1, some e) => some (fs1, some (.error e))
      | (fs1, none) =>
        match copytreeFold cfuel rfuel fs1 src dst symlinks names_with_stat with
        | none => none
        | some (fs2, errors) =>
          let errors2 :=
            match copystat fs2 rfuel src dst with
            | some e => errors ++ [e]
            | none => errors
          if errors2 = [] then some (fs2, none)
          else some (fs2, some (.ok errors2))
termination_by cfuel _ _ _ _ _ => (cfuel, 0)

/-- The per-entry loop of `copytree`: each entry's exception is caught and
appended to the error list, and the loop continues. -/
def copytreeFold : Nat → Nat → FS → Path → Path → Bool →
    List (String × Node) → Option (FS × List Nat)
  | _, _, fs, _, _, _, [] => some (fs, [])
  | cfuel, rfuel, fs, src, dst, symlinks, (name, st) :: rest =>
    let srcpath := src ++ [name]
    let dstpath := dst ++ [name]
    if symlinks && entryIsLink st then
      match FS.readlinkOp fs rfuel srcpath with
      | .error e =>
        match copytreeFold cfuel rfuel fs src dst symlinks rest with
        | none => none
        | some (fs2, errs) => some (fs2, e :: errs)
      | .ok linkto =>
        match FS.symlinkOp fs rfuel linkto dstpath with
        | .error e =>
          match copytreeFold cfuel rfuel fs src dst symlinks rest with
          | none => none
          | some (fs2, errs) => some (fs2, e :: errs)
        | .ok fs1 =>
          match copytreeFold cfuel rfuel fs1 src dst symlinks rest with
          | none => none
          | some (fs2, errs) => some (fs2, errs)
    else if ctIsdir fs rfuel srcpath st (!symlinks) then
      match copytree cfuel rfuel fs srcpath dstpath symlinks with
      | none => none
      | some (fs1, none) =>
        match copytreeFold cfuel rfuel fs1 src dst symlinks rest with
        | none => none
        | some (fs2, errs) => some (fs2, errs)
      | some (fs1, some _) =>
        match copytreeFold cfuel rfuel fs1 src dst symlinks rest with
        | none => none
        | some (fs2, errs) => some (fs2, CT_CHILD_ERR :: errs)
    else
      match copyFileInto fs rfuel srcpath dstpath with
      | .error e =>
        match copytreeFold cfuel rfuel fs src dst symlinks rest with
        | none => none
        | some (fs2, errs) => some (fs2, e :: errs)
      | .ok fs1 =>
        match copytreeFold cfuel rfuel fs1 src dst symlinks rest with
        | none => none
        | some (fs2, errs) => some (fs2, errs)
termination_by cfuel _ _ _ _ _ es => (cfuel, es.length + 1)

end

end VolFS

/-- Every proper nonempty prefix of `p` is an existing directory (so path
resolution walks plainly down to `p`'s parent). -/
def dirChain (fs : FS) (p : Path) : Prop :=
  ∀ i : Nat, 0 < i → i < p.length → fs.lookup (p.take i) = some Node.dir

/-- Every nonempty prefix of `p` (including `p` itself) is either absent or
an existing directory: nothing on the way is a file or a symlink. -/
def pfxFree (fs : FS) (p : Path) : Prop :=
  ∀ i : Nat, 0 < i → i ≤ p.length →
    fs.lookup (p.take i) = none ∨ fs.lookup (p.take i) = some Node.dir

/-- A canonical relative path: nonempty, and no component is empty, "." or
"..". -/
def compOK (p : Path) : Prop :=
  p ≠ [] ∧ ∀ c ∈ p, c ≠ "" ∧ c ≠ "." ∧ c ≠ ".."

/-- `q` lies at or below `p` (i.e. `p` is a weak prefix of `q`). -/
def underB (q p : Path) : Bool := q.take p.length == p

/-- `q` lies strictly below `p`. -/
def strictUnderB (q p : Path) : Bool := underB q p && decide (p.length < q.length)

/-- The number of entries strictly below `p`: an upper bound for the
recursion depth of `rmtree`/`copytree` below `p`. -/
def descCount (fs : FS) (p : Path) : Nat :=
  (fs.entries.filter (fun e => strictUnderB e.1 p)).length

/-- The fully dereferenced view of the subtree below `base`: the node seen
at relative path `r` when every symbolic link met along the way (including
one in the final component) is followed.  This is the view that
`copytree` without `symlinks` reproduces below the destination. -/
def derefView (fs : FS) : Path → Path → Option Node
  | base, [] => fs.lookup base
  | base, c :: rest =>
    match fs.lookup (base ++ [c]) with
    | some (Node.symlink t) => derefView fs t rest
    | _ => derefView fs (base ++ [c]) rest

/-- The source-side symlink discipline assumed for the dereferencing run of
`copytree`: every symbolic link strictly below `root` points at an existing
non-symlink node, no further symbolic link lives below any such target, and
the targets are unrelated to the destination `dst` (the copy never writes
into a region it still has to read). -/
def srcLinksOK (fs : FS) (root dst : Path) : Prop :=
  ∀ e ∈ fs.entries, strictUnderB e.1 root = true →
    ∀ t : Path, e.2 = Node.symlink t →
      (∃ n : Node, fs.lookup t = some n ∧ VolFS.entryIsLink n = false) ∧
      (∀ e2 ∈ fs.entries, strictUnderB e2.1 t = true →
        VolFS.entryIsLink e2.2 = false) ∧
      underB t dst = false ∧ underB dst t = false

/-- How a source path handed to `copytree` resolves: either it is a plain
chain of directories, or it crosses exactly one symbolic link (at its
`A ++ [a]` prefix, pointing to `t`) and descends plainly below the target —
the only two shapes arising when symlink targets have symlink-free
subtrees. -/
def srcShape (fs : FS) (src rsrc : Path) : Prop :=
  (rsrc = src ∧ dirChain fs src) ∨
  (∃ A : Path, ∃ a : String, ∃ B t : Path,
    src = (A ++ [a]) ++ B ∧ dirChain fs (A ++ [a]) ∧
    fs.lookup (A ++ [a]) = some (Node.symlink t) ∧ rsrc = t ++ B ∧
    (∀ i : Nat, i < B.length → fs.lookup (t ++ B.take i) = some Node.dir))

/-! ## Theorems -/

/-! ### Basic lemmas about the modelled filesystem -/

theorem lookup_cons (q r : Path) (n : Node) (l : List (Path × Node)) :
    FS.lookup ⟨(q, n) :: l⟩ r = if q = r then some n else FS.lookup ⟨l⟩ r := rfl

theorem mem_of_lookup_eq_some :
    ∀ {l : List (Path × Node)} {q : Path} {n : Node},
      FS.lookup ⟨l⟩ q = some n → (q, n) ∈ l := by
  intro l
  induction l with
  | nil => intro q n h; cases h
  | cons e t ih =>
    intro q n h
    obtain ⟨e1, e2⟩ := e
    rw [show FS.lookup ⟨(e1, e2) :: t⟩ q = if e1 = q then some e2 else FS.lookup ⟨t⟩ q
      from rfl] at h
    by_cases he : e1 = q
    · rw [if_pos he] at h
      subst he
      cases h
      exact List.mem_cons_self _ _
    · rw [if_neg he] at h
      exact List.mem_cons_of_mem _ (ih h)

theorem not_mem_of_lookup_eq_none :
    ∀ {l : List (Path × Node)} {q : Path}, FS.lookup ⟨l⟩ q = none →
      ∀ n, (q, n) ∉ l := by
  intro l
  induction l with
  | nil => intro q _ n hmem; cases hmem
  | cons e t ih =>
    intro q h n hmem
    obtain ⟨e1, e2⟩ := e
    rw [show FS.lookup ⟨(e1, e2) :: t⟩ q = if e1 = q then some e2 else FS.lookup ⟨t⟩ q
      from rfl] at h
    by_cases he : e1 = q
    · rw [if_pos he] at h
      cases h
    · rw [if_neg he] at h
      rcases List.mem_cons.mp hmem with hh | ht
      · exact he (congrArg Prod.fst hh.symm)
      · exact ih h n ht

theorem lookup_eq_some_of_mem :
    ∀ {l : List (Path × Node)}, (l.map (fun e => e.1)).Nodup →
      ∀ {q : Path} {n : Node}, (q, n) ∈ l → FS.lookup ⟨l⟩ q = some n := by
  intro l
  induction l with
  | nil => intro _ q n hmem; cases hmem
  | cons e t ih =>
    intro hnd q n hmem
    obtain ⟨e1, e2⟩ := e
    simp only [List.map_cons, List.nodup_cons] at hnd
    rw [show FS.lookup ⟨(e1, e2) :: t⟩ q = if e1 = q then some e2 else FS.lookup ⟨t⟩ q
      from rfl]
    rcases List.mem_cons.mp hmem with he | ht
    · cases he
      rw [if_pos rfl]
    · have hq : q ∈ t.map (fun e => e.1) := List.mem_map_of_mem _ ht
      by_cases he : e1 = q
      · exact absurd (he ▸ hq) hnd.1
      · rw [if_neg he]
        exact ih hnd.2 ht

theorem getLastD_cons_of_ne (a : String) (l : Path) (h : l ≠ []) (d : String) :
    (a :: l).getLastD d = l.getLastD d := by
  cases l with
  | nil => exact absurd rfl h
  | cons b m => rfl

theorem dropLast_append_getLastD : ∀ (p : Path), p ≠ [] → p.dropLast ++ [p.getLastD ""] = p := by
  intro p
  induction p with
  | nil => intro h; exact absurd rfl h
  | cons a l ih =>
    intro _
    cases hl : l with
    | nil => simp
    | cons b m =>
      subst hl
      have ihh := ih (by simp)
      calc (a :: b :: m).dropLast ++ [(a :: b :: m).getLastD ""]
          = a :: ((b :: m).dropLast ++ [(b :: m).getLastD ""]) := by
            rw [getLastD_cons_of_ne a (b :: m) (by simp) ""]
            rfl
        _ = a :: b :: m := by rw [ihh]

theorem getLastD_mem (p : Path) (h : p ≠ []) : p.getLastD "" ∈ p := by
  have he := dropLast_append_getLastD p h
  have hm : p.getLastD "" ∈ p.dropLast ++ [p.getLastD ""] :=
    List.mem_append_right _ (List.mem_singleton_self _)
  rwa [he] at hm

theorem take_dropLast (p : Path) (i : Nat) (h : i ≤ p.length - 1) :
    p.dropLast.take i = p.take i := by
  rw [List.dropLast_eq_take, List.take_take]
  congr 1
  omega

theorem chase_not_symlink (fs : FS) (fuel : Nat) (p : Path) (hf : 1 ≤ fuel)
    (h : ∀ t, fs.lookup p ≠ some (Node.symlink t)) :
    FS.chase fs fuel p = some p := by
  cases fuel with
  | zero => omega
  | succ f =>
    cases hl : fs.lookup p with
    | none => simp [FS.chase, hl]
    | some n =>
      cases n with
      | file c => simp [FS.chase, hl]
      | dir => simp [FS.chase, hl]
      | symlink t => exact absurd hl (h t)

theorem realizeGo_chain (fs : FS) (fuel : Nat) (hf : 1 ≤ fuel) :
    ∀ (rest base : Path),
      (∀ j : Nat, 0 < j → j < rest.length →
        fs.lookup (base ++ rest.take j) = some Node.dir) →
      (rest ≠ [] → ∀ t, fs.lookup (base ++ rest) ≠ some (Node.symlink t)) →
      FS.realizeGo fs fuel base rest = some (base ++ rest) := by
  intro rest
  induction rest with
  | nil => intro base _ _; simp [FS.realizeGo]
  | cons c rest2 ih =>
    intro base hmid hlast
    simp only [FS.realizeGo]
    cases rest2 with
    | nil =>
      have hns : ∀ t, fs.lookup (base ++ [c]) ≠ some (Node.symlink t) := by
        intro t
        have := hlast (by simp) t
        simpa using this
      rw [chase_not_symlink fs fuel (base ++ [c]) hf hns]
    | cons d m =>
      have h1 : fs.lookup (base ++ [c]) = some Node.dir := by
        have := hmid 1 (by omega) (by simp)
        simpa using this
      have hns : ∀ t, fs.lookup (base ++ [c]) ≠ some (Node.symlink t) := by
        intro t hcontra
        rw [h1] at hcontra
        cases hcontra
      rw [chase_not_symlink fs fuel (base ++ [c]) hf hns]
      have hne : ¬ (base ++ [c] = []) := by simp
      show (if base ++ [c] = [] then FS.realizeGo fs fuel [] (d :: m)
        else match fs.lookup (base ++ [c]) with
          | some Node.dir => FS.realizeGo fs fuel (base ++ [c]) (d :: m)
          | _ => none) = some (base ++ c :: d :: m)
      rw [if_neg hne, h1]
      show FS.realizeGo fs fuel (base ++ [c]) (d :: m) = some (base ++ c :: d :: m)
      have ihh := ih (base ++ [c])
        (by
          intro j hj0 hjl
          have := hmid (j + 1) (by omega) (by simpa using Nat.succ_lt_succ hjl)
          simpa [List.append_assoc] using this)
        (by
          intro _ t
          have := hlast (by simp) t
          simpa [List.append_assoc] using this)
      rw [ihh]
      simp

theorem realizeGo_blocked (fs : FS) (fuel : Nat) (hf : 1 ≤ fuel) :
    ∀ (rest base : Path) (j : Nat), 0 < j → j < rest.length →
      (∀ i : Nat, 0 < i → i < j → fs.lookup (base ++ rest.take i) = some Node.dir) →
      (fs.lookup (base ++ rest.take j) = none ∨
        ∃ cont, fs.lookup (base ++ rest.take j) = some (Node.file cont)) →
      FS.realizeGo fs fuel base rest = none := by
  intro rest
  induction rest with
  | nil =>
    intro base j hj0 hjl _ _
    simp at hjl
  | cons c rest2 ih =>
    intro base j hj0 hjl hmid hblock
    simp only [FS.realizeGo]
    by_cases hj1 : j = 1
    · subst hj1
      have hb : fs.lookup (base ++ [c]) = none ∨
          ∃ cont, fs.lookup (base ++ [c]) = some (Node.file cont) := by
        simpa using hblock
      have hns : ∀ t, fs.lookup (base ++ [c]) ≠ some (Node.symlink t) := by
        intro t ht
        rcases hb with hb | ⟨cont, hb⟩ <;> rw [hb] at ht <;> cases ht
      rw [chase_not_symlink fs fuel (base ++ [c]) hf hns]
      cases rest2 with
      | nil => simp at hjl
      | cons d m =>
        have hne : ¬ (base ++ [c] = []) := by simp
        show (if base ++ [c] = [] then FS.realizeGo fs fuel [] (d :: m)
          else match fs.lookup (base ++ [c]) with
            | some Node.dir => FS.realizeGo fs fuel (base ++ [c]) (d :: m)
            | _ => none) = none
        rw [if_neg hne]
        rcases hb with hb | ⟨cont, hb⟩ <;> rw [hb]
    · have h1 : fs.lookup (base ++ [c]) = some Node.dir := by
        have := hmid 1 (by omega) (by omega)
        simpa using this
      have hns : ∀ t, fs.lookup (base ++ [c]) ≠ some (Node.symlink t) := by
        intro t hcontra
        rw [h1] at hcontra
        cases hcontra
      rw [chase_not_symlink fs fuel (base ++ [c]) hf hns]
      cases rest2 with
      | nil => simp at hjl; omega
      | cons d m =>
        have hne : ¬ (base ++ [c] = []) := by simp
        show (if base ++ [c] = [] then FS.realizeGo fs fuel [] (d :: m)
          else match fs.lookup (base ++ [c]) with
            | some Node.dir => FS.realizeGo fs fuel (base ++ [c]) (d :: m)
            | _ => none) = none
        rw [if_neg hne, h1]
        show FS.realizeGo fs fuel (base ++ [c]) (d :: m) = none
        apply ih (base ++ [c]) (j - 1) (by omega) (by simp at hjl ⊢; omega)
        · intro i hi0 hil
          have := hmid (i + 1) (by omega) (by omega)
          simpa [List.append_assoc] using this
        · have hj2 : j - 1 + 1 = j := by omega
          rcases hblock with hb | ⟨cont, hb⟩
          · left
            rw [← hb]
            congr 1
            rw [List.append_assoc]
            congr 1
            rw [← hj2]
            rfl
          · right
            refine ⟨cont, ?_⟩
            rw [← hb]
            congr 1
            rw [List.append_assoc]
            congr 1
            rw [← hj2]
            rfl

theorem realize_nil (fs : FS) (fuel : Nat) : FS.realize fs fuel [] = some [] := rfl

theorem realize_chain (fs : FS) (fuel : Nat) (p : Path) (hf : 1 ≤ fuel)
    (hchain : dirChain fs p) (hlast : ∀ t, fs.lookup p ≠ some (Node.symlink t)) :
    FS.realize fs fuel p = some p := by
  have := realizeGo_chain fs fuel hf p []
    (by intro j hj0 hjl; simpa using hchain j hj0 hjl)
    (by intro _ t; simpa using hlast t)
  simpa [FS.realize] using this

theorem realize_blocked (fs : FS) (fuel : Nat) (p : Path) (hf : 1 ≤ fuel)
    (j : Nat) (hj0 : 0 < j) (hjl : j < p.length)
    (hmid : ∀ i : Nat, 0 < i → i < j → fs.lookup (p.take i) = some Node.dir)
    (hblock : fs.lookup (p.take j) = none ∨
      ∃ cont, fs.lookup (p.take j) = some (Node.file cont)) :
    FS.realize fs fuel p = none := by
  have := realizeGo_blocked fs fuel hf p [] j hj0 hjl
    (by intro i hi0 hil; simpa using hmid i hi0 hil)
    (by simpa using hblock)
  simpa [FS.realize] using this

/-! ### Well-formedness machinery -/

theorem wf_parent {fs : FS} (hwf : fs.wf) {q : Path} {n : Node}
    (h : fs.lookup q = some n) :
    q ≠ [] ∧ (q.dropLast = [] ∨ fs.lookup q.dropLast = some Node.dir) :=
  hwf.2 (q, n) (mem_of_lookup_eq_some h)

theorem wf_dirChain_aux {fs : FS} (hwf : fs.wf) :
    ∀ (L : Nat) (q : Path), q.length ≤ L → ∀ (n : Node), fs.lookup q = some n →
      dirChain fs q := by
  intro L
  induction L with
  | zero =>
    intro q hq n hl i hi0 hiq
    omega
  | succ L ih =>
    intro q hq n hl i hi0 hiq
    have hpar := wf_parent hwf hl
    have hlen : q.dropLast.length = q.length - 1 := List.length_dropLast q
    by_cases hi : i = q.length - 1
    · have htake : q.take i = q.dropLast := by
        rw [List.dropLast_eq_take, hi]
      rw [htake]
      rcases hpar.2 with hdz | hdd
      · exfalso
        rw [hdz] at hlen
        simp only [List.length_nil] at hlen
        omega
      · exact hdd
    · rcases hpar.2 with hdz | hdd
      · exfalso
        rw [hdz] at hlen
        simp only [List.length_nil] at hlen
        omega
      · have hchain := ih q.dropLast (by omega) Node.dir hdd
        have htake : q.dropLast.take i = q.take i := take_dropLast q i (by omega)
        rw [← htake]
        exact hchain i hi0 (by omega)

theorem wf_chain {fs : FS} (hwf : fs.wf) {q : Path} {n : Node}
    (h : fs.lookup q = some n) : dirChain fs q :=
  wf_dirChain_aux hwf q.length q le_rfl n h

theorem wf_lookup_nil {fs : FS} (hwf : fs.wf) : fs.lookup [] = none := by
  cases hl : fs.lookup [] with
  | none => rfl
  | some n => exact absurd rfl (wf_parent hwf hl).1

theorem wf_no_under_nondir {fs : FS} (hwf : fs.wf) {p : Path} {n : Node}
    (hp : fs.lookup p = some n) (hnd : n ≠ Node.dir) :
    ∀ r : Path, r ≠ [] → fs.lookup (p ++ r) = none := by
  intro r hr
  cases hl : fs.lookup (p ++ r) with
  | none => rfl
  | some m =>
    exfalso
    have hp0 : p ≠ [] := (wf_parent hwf hp).1
    have hchain := wf_chain hwf hl
    have htake : (p ++ r).take p.length = p := by
      rw [List.take_left]
    have hd := hchain p.length (by
        cases p with
        | nil => exact absurd rfl hp0
        | cons a t => simp)
      (by
        rw [List.length_append]
        cases r with
        | nil => exact absurd rfl hr
        | cons a t => simp)
    rw [htake, hp] at hd
    cases hd
    exact hnd rfl

/-- Helper: `listdir` over an error-free stream collects exactly the names
of the stream's entries, in order, minus "." and "..". -/
theorem listdirGo_ok (pre : List Dirent) :
    VolumeM.listdirGo (pre.map .ok) =
      .ok ((pre.map Dirent.d_name).filter (fun n => !(n == "." || n == ".."))) := by
  induction pre with
  | nil => rfl
  | cons d rest ih =>
    simp only [List.map_cons, VolumeM.listdirGo, ih, List.filter_cons]
    by_cases hd : d.d_name = "." ∨ d.d_name = ".."
    · simp [hd]
      rcases hd with hd | hd <;> simp [hd]
    · push_neg at hd
      simp [hd.1, hd.2]

/-- Helper: `listdir` raises the OS error of the first failing readdir step. -/
theorem listdirGo_err (pre : List Dirent) (e : Nat) (rest : List (Except Nat Dirent)) :
    VolumeM.listdirGo (pre.map .ok ++ .error e :: rest) = .error (osError e) := by
  induction pre with
  | nil => rfl
  | cons d pre2 ih =>
    simp only [List.map_cons, List.cons_append, VolumeM.listdirGo, List.append_eq, ih]

/-- Helper: `listdir_with_stat` over an error-free readdirplus stream. -/
theorem listdirWithStatGo_ok (pre : List (Dirent × FileM.StatRec)) :
    VolumeM.listdirWithStatGo (pre.map .ok) =
      .ok ((pre.map (fun ds => (ds.1.d_name, ds.2))).filter
        (fun ns => !(ns.1 == "." || ns.1 == ".."))) := by
  induction pre with
  | nil => rfl
  | cons ds rest ih =>
    simp only [List.map_cons, VolumeM.listdirWithStatGo, ih, List.filter_cons]
    by_cases hd : ds.1.d_name = "." ∨ ds.1.d_name = ".."
    · simp [hd]
      rcases hd with hd | hd <;> simp [hd]
    · push_neg at hd
      simp [hd.1, hd.2]

/-- Helper: `listdir_with_stat` raises the first failing step's OS error. -/
theorem listdirWithStatGo_err (pre : List (Dirent × FileM.StatRec)) (e : Nat)
    (rest : List (Except Nat (Dirent × FileM.StatRec))) :
    VolumeM.listdirWithStatGo (pre.map .ok ++ .error e :: rest) = .error (osError e) := by
  induction pre with
  | nil => rfl
  | cons d pre2 ih =>
    simp only [List.map_cons, List.cons_append, VolumeM.listdirWithStatGo, List.append_eq, ih]

/-- Helper: `scandir` over an error-free readdirplus stream yields one
DirEntry per non-special entry, in order, with the cached lstat and an
empty `_stat` cache. -/
theorem scandirGo_ok (p : String) (pre : List (Dirent × FileM.StatRec)) :
    VolumeM.scandirGo p (pre.map .ok) =
      .ok (((pre.map (fun ds => (ds.1.d_name, ds.2))).filter
          (fun ns => !(ns.1 == "." || ns.1 == ".."))).map
        (fun ns => ⟨ns.1, pathJoin p ns.1, ns.2, none⟩)) := by
  induction pre with
  | nil => rfl
  | cons ds rest ih =>
    simp only [List.map_cons, VolumeM.scandirGo, ih, List.filter_cons]
    by_cases hd : ds.1.d_name = "." ∨ ds.1.d_name = ".."
    · simp [hd]
      rcases hd with hd | hd <;> simp [hd]
    · push_neg at hd
      simp [hd.1, hd.2]

/-- Helper: `scandir` raises the first failing step's OS error. -/
theorem scandirGo_err (p : String) (pre : List (Dirent × FileM.StatRec)) (e : Nat)
    (rest : List (Except Nat (Dirent × FileM.StatRec))) :
    VolumeM.scandirGo p (pre.map .ok ++ .error e :: rest) = .error (osError e) := by
  induction pre with
  | nil => rfl
  | cons d pre2 ih =>
    simp only [List.map_cons, List.cons_append, VolumeM.scandirGo, List.append_eq, ih]

/-- C7: directory iteration yields each foreign entry at most once and in
order; `Dir.__next__` raises StopIteration exactly when the cursor is
exhausted, yields the head entry otherwise, and turns a failing readdir
step into an OS error; listdir/listdir_with_stat/scandir exclude "." and
".." and reproduce the remaining entries of the stream exactly once each
(so nothing is re-yielded after exhaustion), and propagate the OS error of
a failing step. -/
theorem c7_directory_iteration (d : Dirent) (e : Nat) (p : String)
    (tail : List (Except Nat Dirent)) (pre : List Dirent)
    (rest : List (Except Nat Dirent)) (preS : List (Dirent × FileM.StatRec))
    (restS : List (Except Nat (Dirent × FileM.StatRec))) :
    DirM.nextEntry [] = (.stopIteration, []) ∧
    DirM.nextEntry (.ok d :: tail) = (.entry d, tail) ∧
    DirM.nextEntry (.error e :: tail) = (.oserror (osError e), tail) ∧
    VolumeM.listdirGo (pre.map .ok) =
      .ok ((pre.map Dirent.d_name).filter (fun n => !(n == "." || n == ".."))) ∧
    VolumeM.listdirGo (pre.map .ok ++ .error e :: rest) = .error (osError e) ∧
    VolumeM.listdirWithStatGo (preS.map .ok) =
      .ok ((preS.map (fun ds => (ds.1.d_name, ds.2))).filter
        (fun ns => !(ns.1 == "." || ns.1 == ".."))) ∧
    VolumeM.listdirWithStatGo (preS.map .ok ++ .error e :: restS) = .error (osError e) ∧
    VolumeM.scandirGo p (preS.map .ok) =
      .ok (((preS.map (fun ds => (ds.1.d_name, ds.2))).filter
          (fun ns => !(ns.1 == "." || ns.1 == ".."))).map
        (fun ns => ⟨ns.1, pathJoin p ns.1, ns.2, none⟩)) ∧
    VolumeM.scandirGo p (preS.map .ok ++ .error e :: restS) = .error (osError e) :=
  ⟨rfl, rfl, rfl, listdirGo_ok pre, listdirGo_err pre e rest,
   listdirWithStatGo_ok preS, listdirWithStatGo_err preS e restS,
   scandirGo_ok p preS, scandirGo_err p preS e restS⟩

/-- C9: `DirEntry.stat(follow_symlinks=False)` returns the lstat record
cached at construction with no foreign call; with `follow_symlinks=True`
a non-symlink entry also answers from the cached lstat without a foreign
call; a symlink entry triggers exactly one `Volume.stat` on the first call
(filling the `_stat` cache) and every call finding a filled cache answers
from it with no foreign call. -/
theorem c9_direntry_stat_cache (vs : String → Except OSErr FileM.StatRec)
    (e : DirEntrySt) (s : FileM.StatRec) :
    (DirEntryM.stat vs e false = (.ok (e.lstat, e), [])) ∧
    (DirEntryM.is_symlink e = false → e.statC = none →
      DirEntryM.stat vs e true = (.ok (e.lstat, { e with statC := some e.lstat }), [])) ∧
    (DirEntryM.is_symlink e = true → e.statC = none → vs e.path = .ok s →
      DirEntryM.stat vs e true = (.ok (s, { e with statC := some s }), ["glfs_stat"])) ∧
    (e.statC = some s → DirEntryM.stat vs e true = (.ok (s, e), [])) := by
  refine ⟨rfl, ?_, ?_, ?_⟩
  · intro hl hc
    simp [DirEntryM.stat, hc, hl]
  · intro hl hc hv
    simp [DirEntryM.stat, hc, hl, hv]
  · intro hc
    simp [DirEntryM.stat, hc]

/-- C9 witness: concrete symlink entry, first and cached calls. -/
theorem c9_direntry_stat_cache_witness :
    DirEntryM.stat (fun _ => .ok ⟨0x8000, 7, 5⟩) ⟨"l", "d/l", ⟨0xA000, 3, 0⟩, none⟩ true =
      (.ok (⟨0x8000, 7, 5⟩, ⟨"l", "d/l", ⟨0xA000, 3, 0⟩, some ⟨0x8000, 7, 5⟩⟩), ["glfs_stat"]) ∧
    DirEntryM.stat (fun _ => .ok ⟨0x8000, 7, 5⟩)
      ⟨"l", "d/l", ⟨0xA000, 3, 0⟩, some ⟨0x8000, 7, 5⟩⟩ true =
      (.ok (⟨0x8000, 7, 5⟩, ⟨"l", "d/l", ⟨0xA000, 3, 0⟩, some ⟨0x8000, 7, 5⟩⟩), []) :=
  ⟨(c9_direntry_stat_cache (fun _ => .ok ⟨0x8000, 7, 5⟩)
      ⟨"l", "d/l", ⟨0xA000, 3, 0⟩, none⟩ ⟨0x8000, 7, 5⟩).2.2.1 (by decide) rfl rfl,
   (c9_direntry_stat_cache (fun _ => .ok ⟨0x8000, 7, 5⟩)
      ⟨"l", "d/l", ⟨0xA000, 3, 0⟩, some ⟨0x8000, 7, 5⟩⟩ ⟨0x8000, 7, 5⟩).2.2.2 rfl⟩

/-- C10: for an open File, a foreign read returning exactly 0 bytes makes
`File.read()` return None (not an empty byte string, not an error); only
strictly positive returns produce a buffer and only strictly negative
returns raise OSError.  Both the explicit-size path and the default
size=-1 path (which first calls fgetsize) are covered. -/
theorem c10_read_eof_none (sz : Int) (fc c : CRet) (s : FileM.StatRec)
    (data : List Nat) (f : FileSt) (hopen : truthyFd f.fd = true) :
    (¬ sz < 0 → c.ret = 0 →
      FileM.read sz fc s c data f = (.ok none, ["glfs_read"])) ∧
    (¬ sz < 0 → c.ret > 0 →
      FileM.read sz fc s c data f = (.ok (some (data.take c.ret.toNat)), ["glfs_read"])) ∧
    (¬ sz < 0 → c.ret < 0 →
      FileM.read sz fc s c data f = (.error (osError c.errno), ["glfs_read"])) ∧
    (sz < 0 → ¬ fc.ret < 0 → c.ret = 0 →
      FileM.read sz fc s c data f = (.ok none, ["glfs_fstat", "glfs_read"])) := by
  refine ⟨?_, ?_, ?_, ?_⟩
  · intro hsz h0
    simp [FileM.read, validate_glfd, hopen, hsz, h0]
  · intro hsz hp
    have h0 : ¬ c.ret = 0 := by omega
    have hn : ¬ c.ret < 0 := by omega
    simp [FileM.read, validate_glfd, hopen, hsz, hp]
  · intro hsz hn
    have h0 : ¬ c.ret > 0 := by omega
    simp [FileM.read, validate_glfd, hopen, hsz, hn, h0]
  · intro hsz hf h0
    simp [FileM.read, FileM.fgetsize, FileM.fstat, validate_glfd, hopen, hsz, hf, h0]

theorem statN_chain_some {fs : FS} (fuel : Nat) (hf : 1 ≤ fuel) {p : Path} {n : Node}
    (hp0 : p ≠ []) (hchain : dirChain fs p) (hl : fs.lookup p = some n)
    (hns : ∀ t, n ≠ Node.symlink t) :
    FS.statN fs fuel p = .ok n := by
  have hr := realize_chain fs fuel p hf hchain (by
    intro t ht
    rw [hl] at ht
    injection ht with h2
    exact hns t h2)
  simp [FS.statN, hr, hp0, hl]

theorem statN_chain_none {fs : FS} (fuel : Nat) (hf : 1 ≤ fuel) {p : Path}
    (hp0 : p ≠ []) (hchain : dirChain fs p) (hl : fs.lookup p = none) :
    FS.statN fs fuel p = .error ENOENT := by
  have hr := realize_chain fs fuel p hf hchain (by intro t ht; rw [hl] at ht; cases ht)
  simp [FS.statN, hr, hp0, hl]

theorem statN_blocked {fs : FS} (fuel : Nat) (hf : 1 ≤ fuel) {p : Path}
    (j : Nat) (hj0 : 0 < j) (hjl : j < p.length)
    (hmid : ∀ i : Nat, 0 < i → i < j → fs.lookup (p.take i) = some Node.dir)
    (hblock : fs.lookup (p.take j) = none ∨
      ∃ cont, fs.lookup (p.take j) = some (Node.file cont)) :
    FS.statN fs fuel p = .error ENOENT := by
  have hr := realize_blocked fs fuel p hf j hj0 hjl hmid hblock
  simp [FS.statN, hr]

theorem existsP_of_ok {fs : FS} {fuel : Nat} {p : Path} {n : Node}
    (h : FS.statN fs fuel p = .ok n) : VolFS.existsP fs fuel p = true := by
  simp [VolFS.existsP, h]

theorem existsP_of_err {fs : FS} {fuel : Nat} {p : Path} {e : Nat}
    (h : FS.statN fs fuel p = .error e) : VolFS.existsP fs fuel p = false := by
  simp [VolFS.existsP, h]

theorem realizeDir_dropLast_chain {fs : FS} (fuel : Nat) (hf : 1 ≤ fuel) {p : Path}
    (hp0 : p ≠ []) (hchain : dirChain fs p) :
    FS.realizeDir fs fuel p.dropLast = some p.dropLast := by
  by_cases hd : p.dropLast = []
  · rw [hd]
    simp [FS.realizeDir, realize_nil]
  · have hlenp : p.dropLast.length = p.length - 1 := List.length_dropLast p
    have hlen : 0 < p.dropLast.length := List.length_pos.mpr hd
    have hlast : fs.lookup p.dropLast = some Node.dir := by
      have := hchain (p.length - 1) (by omega) (by
        cases p with
        | nil => exact absurd rfl hp0
        | cons a t => simp)
      rw [← List.dropLast_eq_take] at this
      exact this
    have hchain2 : dirChain fs p.dropLast := by
      intro i hi0 hil
      rw [take_dropLast _ i (by omega)]
      exact hchain i hi0 (by omega)
    have hr := realize_chain fs fuel _ hf hchain2
      (by intro tt htt; rw [hlast] at htt; cases htt)
    simp [FS.realizeDir, hr, hd, hlast]

theorem lpath_chain {fs : FS} (fuel : Nat) (hf : 1 ≤ fuel) {p : Path}
    (hp0 : p ≠ []) (hchain : dirChain fs p) :
    FS.lpath fs fuel p = some p := by
  have hrd := realizeDir_dropLast_chain fuel hf hp0 hchain
  obtain ⟨c, t, rfl⟩ : ∃ c t, p = c :: t := by
    cases p with
    | nil => exact absurd rfl hp0
    | cons c t => exact ⟨c, t, rfl⟩
  simp only [FS.lpath, hrd]
  rw [dropLast_append_getLastD (c :: t) (by simp)]

theorem mkdirOp_chain {fs : FS} (fuel : Nat) (hf : 1 ≤ fuel) {p : Path}
    (hp0 : p ≠ []) (hchain : dirChain fs p) :
    FS.mkdirOp fs fuel p =
      (match fs.lookup p with
       | some _ => .error EEXIST
       | none => .ok ⟨(p, Node.dir) :: fs.entries⟩) := by
  have hlp := lpath_chain fuel hf hp0 hchain
  obtain ⟨c, t, rfl⟩ : ∃ c t, p = c :: t := by
    cases p with
    | nil => exact absurd rfl hp0
    | cons c t => exact ⟨c, t, rfl⟩
  simp only [FS.mkdirOp, hlp]

theorem mkdirM_none {fs : FS} {fuel : Nat} (hf : 1 ≤ fuel) {p : Path}
    (hp0 : p ≠ []) (hchain : dirChain fs p) (hl : fs.lookup p = none) :
    VolFS.mkdirM fs fuel p = (⟨(p, Node.dir) :: fs.entries⟩, none) := by
  simp [VolFS.mkdirM, mkdirOp_chain fuel hf hp0 hchain, hl]

theorem mkdirM_some {fs : FS} {fuel : Nat} (hf : 1 ≤ fuel) {p : Path} {n : Node}
    (hp0 : p ≠ []) (hchain : dirChain fs p) (hl : fs.lookup p = some n) :
    VolFS.mkdirM fs fuel p = (fs, some EEXIST) := by
  simp [VolFS.mkdirM, mkdirOp_chain fuel hf hp0 hchain, hl]

theorem lookup_insert (fs : FS) (q r : Path) (n : Node) :
    FS.lookup ⟨(q, n) :: fs.entries⟩ r = if q = r then some n else fs.lookup r :=
  lookup_cons q r n fs.entries

theorem wf_insert_dir {fs : FS} (hwf : fs.wf) {p : Path} (hp0 : p ≠ [])
    (hnew : fs.lookup p = none)
    (hpar : p.dropLast = [] ∨ fs.lookup p.dropLast = some Node.dir) :
    FS.wf ⟨(p, Node.dir) :: fs.entries⟩ := by
  constructor
  · simp only [List.map_cons, List.nodup_cons]
    constructor
    · intro hmem
      rcases List.mem_map.mp hmem with ⟨e, hmem2, he⟩
      obtain ⟨e1, e2⟩ := e
      cases he
      exact not_mem_of_lookup_eq_none hnew e2 hmem2
    · exact hwf.1
  · intro e hmem
    rcases List.mem_cons.mp hmem with he | ht
    · rw [he]
      refine ⟨hp0, ?_⟩
      rcases hpar with hroot | hdir
      · exact Or.inl hroot
      · right
        rw [lookup_insert, if_neg ?_]
        · exact hdir
        · intro hcontra
          have h1 := List.length_dropLast p
          rw [← hcontra] at h1
          have : p.length = 0 := by omega
          exact hp0 (List.length_eq_zero.mp this)
    · have hold := hwf.2 e ht
      refine ⟨hold.1, ?_⟩
      rcases hold.2 with hroot | hdir
      · exact Or.inl hroot
      · right
        rw [lookup_insert, if_neg ?_]
        · exact hdir
        · intro hcontra
          rw [← hcontra] at hdir
          rw [hnew] at hdir
          cases hdir

/-- Helper for C5 (creation): on a well-formed volume whose path prefixes
are free of files and symlinks and whose leaf is absent, `makedirs` creates
every missing prefix as a directory, touches nothing else, and preserves
well-formedness. -/
theorem makedirs_creates_aux (fs : FS) (fuel : Nat) (hf : 1 ≤ fuel) (hwf : fs.wf) :
    ∀ (L : Nat) (p : Path), p.length ≤ L → compOK p → pfxFree fs p →
      fs.lookup p = none →
      (VolFS.makedirs fs fuel p).2 = none ∧
      FS.wf (VolFS.makedirs fs fuel p).1 ∧
      (∀ i : Nat, 0 < i → i ≤ p.length →
        (VolFS.makedirs fs fuel p).1.lookup (p.take i) = some Node.dir) ∧
      (∀ q : Path, (∀ i : Nat, 0 < i → i ≤ p.length → q ≠ p.take i) →
        (VolFS.makedirs fs fuel p).1.lookup q = fs.lookup q) := by
  intro L
  induction L with
  | zero =>
    intro p hlen hcomp _ _
    exfalso
    exact hcomp.1 (List.length_eq_zero.mp (by omega))
  | succ L ih =>
    intro p hlen hcomp hpfx hnone
    have hp0 : p ≠ [] := hcomp.1
    have hppos : 0 < p.length := List.length_pos.mpr hp0
    have hheadlen : p.dropLast.length = p.length - 1 := List.length_dropLast p
    have htake : ∀ i : Nat, i ≤ p.length - 1 → p.dropLast.take i = p.take i :=
      fun i hi => take_dropLast p i hi
    by_cases hL1 : p.length = 1
    · have hhead : p.dropLast = [] := List.length_eq_zero.mp (by omega)
      have hguard : ¬ (p.dropLast ≠ [] ∧ p.getLastD "" ≠ "" ∧
          ¬ VolFS.existsP fs fuel p.dropLast = true) := by
        intro hcon
        exact hcon.1 hhead
      rw [VolFS.makedirs, dif_neg hguard]
      have hchain : dirChain fs p := by
        intro i hi0 hil
        omega
      rw [mkdirM_none hf hp0 hchain hnone]
      refine ⟨rfl, wf_insert_dir hwf hp0 hnone (Or.inl hhead), ?_, ?_⟩
      · intro i hi0 hil
        have hi1 : i = 1 := by omega
        subst hi1
        have h1 : p.take 1 = p := List.take_of_length_le (by omega)
        rw [h1, lookup_insert, if_pos rfl]
      · intro q hq
        rw [lookup_insert, if_neg ?_]
        · intro hcontra
          apply hq 1 (by omega) (by omega)
          rw [← hcontra, List.take_of_length_le (by omega)]
    · have hlen2 : 2 ≤ p.length := by omega
      have hhead0 : p.dropLast ≠ [] := by
        intro hcon
        rw [hcon] at hheadlen
        simp at hheadlen
        omega
      have htmem := getLastD_mem p hp0
      have htprop := hcomp.2 _ htmem
      have hdltake : p.take (p.length - 1) = p.dropLast := (List.dropLast_eq_take p).symm
      rcases hpfx (p.length - 1) (by omega) (by omega) with hhnone | hhdir
      · -- parent absent: the recursive branch runs
        rw [hdltake] at hhnone
        have hexf : VolFS.existsP fs fuel p.dropLast = false := by
          by_cases hall : ∀ i : Nat, 0 < i → i < p.dropLast.length →
              fs.lookup (p.dropLast.take i) = some Node.dir
          · exact existsP_of_err (statN_chain_none fuel hf hhead0 hall hhnone)
          · push_neg at hall
            obtain ⟨i0, hi00, hi0l, hi0nd⟩ := hall
            have hi0none : fs.lookup (p.dropLast.take i0) = none := by
              rcases hpfx i0 (by omega) (by omega) with hnn | hdd
              · rw [htake i0 (by omega)]
                exact hnn
              · exfalso
                apply hi0nd
                rw [htake i0 (by omega)]
                exact hdd
            have hex : ∃ j : Nat, 0 < j ∧ j < p.dropLast.length ∧
                fs.lookup (p.dropLast.take j) = none := ⟨i0, hi00, hi0l, hi0none⟩
            have hj := Nat.find_spec hex
            have hmid : ∀ i : Nat, 0 < i → i < Nat.find hex →
                fs.lookup (p.dropLast.take i) = some Node.dir := by
              intro i hi0 hij
              have hnP := Nat.find_min hex hij
              rcases hpfx i (by omega) (by omega) with hnn | hdd
              · exfalso
                exact hnP ⟨hi0, by omega, by rw [htake i (by omega)]; exact hnn⟩
              · rw [htake i (by omega)]
                exact hdd
            exact existsP_of_err (statN_blocked fuel hf (Nat.find hex) hj.1 hj.2.1
              hmid (Or.inl hj.2.2))
        have hguard : p.dropLast ≠ [] ∧ p.getLastD "" ≠ "" ∧
            ¬ VolFS.existsP fs fuel p.dropLast = true :=
          ⟨hhead0, htprop.1, by rw [hexf]; simp⟩
        have hcomph : compOK p.dropLast :=
          ⟨hhead0, fun c hc => hcomp.2 c (List.dropLast_subset p hc)⟩
        have hpfxh : pfxFree fs p.dropLast := by
          intro i hi0 hil
          rw [htake i (by omega)]
          exact hpfx i hi0 (by omega)
        have hih := ih p.dropLast (by omega) hcomph hpfxh hhnone
        cases hmk : VolFS.makedirs fs fuel p.dropLast with
        | mk fs1 e1 =>
          rw [hmk] at hih
          simp only at hih
          obtain ⟨he1, hwf1, hpref1, hframe1⟩ := hih
          subst he1
          have hchain1 : dirChain fs1 p := by
            intro i hi0 hil
            have := hpref1 i hi0 (by omega)
            rw [htake i (by omega)] at this
            exact this
          have hfs1p : fs1.lookup p = none := by
            rw [hframe1 p (by
              intro i hi0 hil hcontra
              have := congrArg List.length hcontra
              rw [List.length_take] at this
              omega)]
            exact hnone
          have heq : VolFS.makedirs fs fuel p = VolFS.mkdirM fs1 fuel p := by
            rw [VolFS.makedirs, dif_pos hguard, hmk]
            show (if p.getLastD "" = "." then (fs1, none)
              else VolFS.mkdirM fs1 fuel p) = VolFS.mkdirM fs1 fuel p
            rw [if_neg (fun hcon => htprop.2.1 hcon)]
          rw [heq, mkdirM_none hf hp0 hchain1 hfs1p]
          have hfs1par : fs1.lookup p.dropLast = some Node.dir := by
            have := hpref1 p.dropLast.length (by omega) le_rfl
            rw [List.take_length] at this
            exact this
          refine ⟨rfl, wf_insert_dir hwf1 hp0 hfs1p (Or.inr hfs1par), ?_, ?_⟩
          · intro i hi0 hil
            by_cases hi : i = p.length
            · subst hi
              rw [List.take_length, lookup_insert, if_pos rfl]
            · rw [lookup_insert, if_neg (by
                intro hcontra
                have := congrArg List.length hcontra
                rw [List.length_take] at this
                omega)]
              have := hpref1 i hi0 (by omega)
              rw [htake i (by omega)] at this
              exact this
          · intro q hq
            rw [lookup_insert, if_neg (by
              intro hcontra
              apply hq p.length (by omega) le_rfl
              rw [← hcontra, List.take_length])]
            rw [hframe1 q (by
              intro i hi0 hil
              have := hq i hi0 (by omega)
              rw [htake i (by omega)]
              exact this)]
      · -- parent exists as a directory: direct mkdir
        rw [hdltake] at hhdir
        have hex : VolFS.existsP fs fuel p.dropLast = true :=
          existsP_of_ok (statN_chain_some fuel hf hhead0 (wf_chain hwf hhdir) hhdir
            (by intro t h; cases h))
        have hguard : ¬ (p.dropLast ≠ [] ∧ p.getLastD "" ≠ "" ∧
            ¬ VolFS.existsP fs fuel p.dropLast = true) := by
          intro hcon
          exact hcon.2.2 hex
        rw [VolFS.makedirs, dif_neg hguard]
        have hchainp : dirChain fs p := by
          intro i hi0 hil
          by_cases hi : i = p.length - 1
          · subst hi
            rw [hdltake]
            exact hhdir
          · have hchainh := wf_chain hwf hhdir
            have := hchainh i hi0 (by omega)
            rw [htake i (by omega)] at this
            exact this
        rw [mkdirM_none hf hp0 hchainp hnone]
        refine ⟨rfl, wf_insert_dir hwf hp0 hnone (Or.inr hhdir), ?_, ?_⟩
        · intro i hi0 hil
          by_cases hi : i = p.length
          · subst hi
            rw [List.take_length, lookup_insert, if_pos rfl]
          · rw [lookup_insert, if_neg (by
              intro hcontra
              have := congrArg List.length hcontra
              rw [List.length_take] at this
              omega)]
            exact hchainp i hi0 (by omega)
        · intro q hq
          rw [lookup_insert, if_neg (by
            intro hcontra
            apply hq p.length (by omega) le_rfl
            rw [← hcontra, List.take_length])]

/-- Helper for C5 (leaf exists): `makedirs` on an already existing
directory raises EEXIST and changes nothing. -/
theorem makedirs_leaf_exists {fs : FS} (fuel : Nat) (hf : 1 ≤ fuel) (hwf : fs.wf)
    {p : Path} (hcomp : compOK p) (hdir : fs.lookup p = some Node.dir) :
    VolFS.makedirs fs fuel p = (fs, some EEXIST) := by
  have hp0 := hcomp.1
  have hchain := wf_chain hwf hdir
  by_cases hhead : p.dropLast = []
  · have hguard : ¬ (p.dropLast ≠ [] ∧ p.getLastD "" ≠ "" ∧
        ¬ VolFS.existsP fs fuel p.dropLast = true) := fun hcon => hcon.1 hhead
    rw [VolFS.makedirs, dif_neg hguard]
    exact mkdirM_some hf hp0 hchain hdir
  · have hheadlen := List.length_dropLast p
    have hlenpos : 0 < p.dropLast.length := List.length_pos.mpr hhead
    have hhdir : fs.lookup p.dropLast = some Node.dir := by
      have := hchain (p.length - 1) (by omega) (by omega)
      rw [← List.dropLast_eq_take] at this
      exact this
    have hex := existsP_of_ok (statN_chain_some fuel hf hhead (wf_chain hwf hhdir)
      hhdir (by intro t h; cases h))
    have hguard : ¬ (p.dropLast ≠ [] ∧ p.getLastD "" ≠ "" ∧
        ¬ VolFS.existsP fs fuel p.dropLast = true) := fun hcon => hcon.2.2 hex
    rw [VolFS.makedirs, dif_neg hguard]
    exact mkdirM_some hf hp0 hchain hdir

/-- Helper for C5 (blocked non-leaf): when a proper prefix of the path is a
regular file, the creation of the next (non-leaf) directory fails with
ENOENT — a reason other than EEXIST — and `makedirs` propagates it,
changing nothing. -/
theorem makedirs_blocked_aux (fs : FS) (fuel : Nat) (hf : 1 ≤ fuel) (hwf : fs.wf) :
    ∀ (L : Nat) (p : Path) (k : Nat) (cont : List Nat), p.length ≤ L → compOK p →
      k + 1 < p.length →
      fs.lookup (p.take (k + 1)) = some (Node.file cont) →
      VolFS.makedirs fs fuel p = (fs, some ENOENT) := by
  intro L
  induction L with
  | zero =>
    intro p k cont hlen hcomp hk _
    omega
  | succ L ih =>
    intro p k cont hlen hcomp hk hblock
    have hp0 : p ≠ [] := hcomp.1
    have hppos : 0 < p.length := List.length_pos.mpr hp0
    have hheadlen : p.dropLast.length = p.length - 1 := List.length_dropLast p
    have hhead0 : p.dropLast ≠ [] := by
      intro hcon
      rw [hcon] at hheadlen
      simp at hheadlen
      omega
    have htake : ∀ i : Nat, i ≤ p.length - 1 → p.dropLast.take i = p.take i :=
      fun i hi => take_dropLast p i hi
    have hdltake : p.take (p.length - 1) = p.dropLast := (List.dropLast_eq_take p).symm
    have htmem := getLastD_mem p hp0
    have htprop := hcomp.2 _ htmem
    -- the chain below the blocking file; and everything above it is absent
    have hchainblk : dirChain fs (p.take (k + 1)) := wf_chain hwf hblock
    have htakelen : (p.take (k + 1)).length = k + 1 := by
      rw [List.length_take]
      omega
    have habove : ∀ i : Nat, k + 1 < i → i ≤ p.length → fs.lookup (p.take i) = none := by
      intro i hi1 hi2
      have hdecomp : p.take i = p.take (k + 1) ++ (p.drop (k + 1)).take (i - (k + 1)) := by
        have hi3 : i = (k + 1) + (i - (k + 1)) := by omega
        rw [hi3, List.take_add]
        congr 2
        omega
      rw [hdecomp]
      apply wf_no_under_nondir hwf hblock (by intro hcon; cases hcon)
      have hlpos : 0 < ((p.drop (k + 1)).take (i - (k + 1))).length := by
        rw [List.length_take, List.length_drop]
        omega
      exact fun hcon => by rw [hcon] at hlpos; simp at hlpos
    have hmidblk : ∀ i : Nat, 0 < i → i < k + 1 → fs.lookup (p.take i) = some Node.dir := by
      intro i hi0 hik
      have := hchainblk i hi0 (by omega)
      rw [List.take_take] at this
      have hmin : min i (k + 1) = i := by omega
      rw [hmin] at this
      exact this
    by_cases hkhead : k + 1 = p.length - 1
    · -- the blocking file is the direct parent: its stat succeeds, and the
      -- leaf mkdir fails resolving it as a directory
      have hfiledl : fs.lookup p.dropLast = some (Node.file cont) := by
        rw [← hdltake, ← hkhead]
        exact hblock
      have hchaindl : dirChain fs p.dropLast := by
        intro i hi0 hil
        rw [htake i (by omega)]
        exact hmidblk i hi0 (by omega)
      have hex := existsP_of_ok (statN_chain_some fuel hf hhead0 hchaindl hfiledl
        (by intro t h; cases h))
      have hguard : ¬ (p.dropLast ≠ [] ∧ p.getLastD "" ≠ "" ∧
          ¬ VolFS.existsP fs fuel p.dropLast = true) := fun hcon => hcon.2.2 hex
      rw [VolFS.makedirs, dif_neg hguard]
      -- mkdirM fails with ENOENT: the parent is a file, not a directory
      have hrdl : FS.realize fs fuel p.dropLast = some p.dropLast :=
        realize_chain fs fuel _ hf hchaindl
          (by intro t ht; rw [hfiledl] at ht; cases ht)
      have hrd : FS.realizeDir fs fuel p.dropLast = none := by
        simp [FS.realizeDir, hrdl, hhead0, hfiledl]
      have hlp : FS.lpath fs fuel p = none := by
        obtain ⟨c, t, rfl⟩ : ∃ c t, p = c :: t := by
          cases p with
          | nil => exact absurd rfl hp0
          | cons c t => exact ⟨c, t, rfl⟩
        simp only [FS.lpath, hrd]
      have hmk : FS.mkdirOp fs fuel p = .error ENOENT := by
        obtain ⟨c, t, rfl⟩ : ∃ c t, p = c :: t := by
          cases p with
          | nil => exact absurd rfl hp0
          | cons c t => exact ⟨c, t, rfl⟩
        simp only [FS.mkdirOp, hlp]
      simp [VolFS.mkdirM, hmk]
    · -- the blocking file is deeper inside: the recursive call fails and the
      -- non-EEXIST error is re-raised
      have hkin : k + 1 < p.length - 1 := by omega
      have hdlnone : fs.lookup p.dropLast = none := by
        rw [← hdltake]
        exact habove (p.length - 1) (by omega) (by omega)
      have hexf : VolFS.existsP fs fuel p.dropLast = false := by
        apply existsP_of_err
        apply statN_blocked fuel hf (k + 1) (by omega) (by omega)
        · intro i hi0 hik
          rw [htake i (by omega)]
          exact hmidblk i hi0 hik
        · right
          refine ⟨cont, ?_⟩
          rw [htake (k + 1) (by omega)]
          exact hblock
      have hguard : p.dropLast ≠ [] ∧ p.getLastD "" ≠ "" ∧
          ¬ VolFS.existsP fs fuel p.dropLast = true :=
        ⟨hhead0, htprop.1, by rw [hexf]; simp⟩
      have hcomph : compOK p.dropLast :=
        ⟨hhead0, fun c hc => hcomp.2 c (List.dropLast_subset p hc)⟩
      have hihres := ih p.dropLast k cont (by omega) hcomph (by omega)
        (by rw [htake (k + 1) (by omega)]; exact hblock)
      rw [VolFS.makedirs, dif_pos hguard, hihres]
      show (if ENOENT ≠ EEXIST then (fs, some ENOENT)
        else if p.getLastD "" = "." then (fs, none)
        else VolFS.mkdirM fs fuel p) = (fs, some ENOENT)
      rw [if_pos (by decide)]

/-- C5: on a mounted, well-formed volume and a canonical multi-component
path, `makedirs` (a) creates every missing intermediate directory and then
the leaf without raising — intermediates that already exist are fine and
nothing outside the path's prefixes is touched; (b) raises OSError (EEXIST)
when the leaf directory already exists, changing nothing; (c) raises
OSError when a non-leaf directory cannot be created for a reason other than
already existing (here: a prefix is a regular file, so the non-leaf mkdir
fails with ENOENT), again changing nothing. -/
theorem c5_makedirs (fs : FS) (fuel : Nat) (p : Path) (k : Nat) (cont : List Nat)
    (hf : 1 ≤ fuel) (hwf : fs.wf) (hcomp : compOK p) (hmulti : 2 ≤ p.length) :
    (pfxFree fs p → fs.lookup p = none →
      (VolFS.makedirs fs fuel p).2 = none ∧
      (∀ i : Nat, 0 < i → i ≤ p.length →
        (VolFS.makedirs fs fuel p).1.lookup (p.take i) = some Node.dir) ∧
      (∀ q : Path, (∀ i : Nat, 0 < i → i ≤ p.length → q ≠ p.take i) →
        (VolFS.makedirs fs fuel p).1.lookup q = fs.lookup q)) ∧
    (fs.lookup p = some Node.dir →
      VolFS.makedirs fs fuel p = (fs, some EEXIST)) ∧
    (k + 1 < p.length → fs.lookup (p.take (k + 1)) = some (Node.file cont) →
      VolFS.makedirs fs fuel p = (fs, some ENOENT)) := by
  refine ⟨?_, ?_, ?_⟩
  · intro hpfx hnone
    have h := makedirs_creates_aux fs fuel hf hwf p.length p le_rfl hcomp hpfx hnone
    exact ⟨h.1, h.2.2.1, h.2.2.2⟩
  · intro hdir
    exact makedirs_leaf_exists fuel hf hwf hcomp hdir
  · intro hk hblock
    exact makedirs_blocked_aux fs fuel hf hwf p.length p k cont le_rfl hcomp hk hblock

/-- C5 witness: on a volume containing only the directory `a`,
`makedirs "a/b/c"` succeeds, creating `a/b` (and `a/b/c`); on a volume
already containing `a/b`, `makedirs "a/b"` raises EEXIST unchanged; on a
volume where `a` is a regular file, `makedirs "a/b/c"` raises ENOENT
unchanged. -/
theorem c5_makedirs_witness :
    (VolFS.makedirs ⟨[(["a"], Node.dir)]⟩ 1 ["a", "b", "c"]).2 = none ∧
    (VolFS.makedirs ⟨[(["a"], Node.dir)]⟩ 1 ["a", "b", "c"]).1.lookup ["a", "b"] =
      some Node.dir ∧
    VolFS.makedirs ⟨[(["a", "b"], Node.dir), (["a"], Node.dir)]⟩ 1 ["a", "b"] =
      (⟨[(["a", "b"], Node.dir), (["a"], Node.dir)]⟩, some EEXIST) ∧
    VolFS.makedirs ⟨[(["a"], Node.file [7])]⟩ 1 ["a", "b", "c"] =
      (⟨[(["a"], Node.file [7])]⟩, some ENOENT) := by
  have hpfx : pfxFree ⟨[(["a"], Node.dir)]⟩ ["a", "b", "c"] := by
    intro i hi0 hil
    have h3 : i ≤ 3 := by simpa using hil
    interval_cases i <;> decide
  have h1 := (c5_makedirs ⟨[(["a"], Node.dir)]⟩ 1 ["a", "b", "c"] 0 [7]
    (by decide) ⟨by decide, by decide⟩ ⟨by decide, by decide⟩ (by decide)).1 hpfx (by decide)
  have h2 := (c5_makedirs ⟨[(["a", "b"], Node.dir), (["a"], Node.dir)]⟩ 1 ["a", "b"] 0 [7]
    (by decide) ⟨by decide, by decide⟩ ⟨by decide, by decide⟩ (by decide)).2.1 (by decide)
  have h3 := (c5_makedirs ⟨[(["a"], Node.file [7])]⟩ 1 ["a", "b", "c"] 0 [7]
    (by decide) ⟨by decide, by decide⟩ ⟨by decide, by decide⟩ (by decide)).2.2 (by decide) (by decide)
  exact ⟨h1.1, h1.2.1 2 (by decide) (by decide), h2, h3⟩

/-! ### Removal machinery (for C6/C8) -/

theorem lookup_eq_none_of_not_mem {l : List (Path × Node)} {q : Path}
    (h : ∀ n, (q, n) ∉ l) : FS.lookup ⟨l⟩ q = none := by
  cases hl : FS.lookup ⟨l⟩ q with
  | none => rfl
  | some n => exact absurd (mem_of_lookup_eq_some hl) (h n)

theorem lookup_filter :
    ∀ {l : List (Path × Node)}, (l.map (fun e => e.1)).Nodup →
      ∀ (keep : Path × Node → Bool) (q : Path),
      FS.lookup ⟨l.filter keep⟩ q =
        (match FS.lookup ⟨l⟩ q with
         | some n => if keep (q, n) then some n else none
         | none => none) := by
  intro l
  induction l with
  | nil => intro _ keep q; rfl
  | cons e t ih =>
    intro hnd keep q
    obtain ⟨e1, e2⟩ := e
    simp only [List.map_cons, List.nodup_cons] at hnd
    rw [List.filter_cons]
    by_cases hk : keep (e1, e2) = true
    · rw [if_pos hk]
      by_cases he : e1 = q
      · subst he
        rw [show FS.lookup ⟨(e1, e2) :: t.filter keep⟩ e1 = some e2 from by
            rw [lookup_cons, if_pos rfl],
          show FS.lookup ⟨(e1, e2) :: t⟩ e1 = some e2 from by
            rw [lookup_cons, if_pos rfl]]
        show some e2 = if keep (e1, e2) = true then some e2 else none
        rw [if_pos hk]
      · rw [show FS.lookup ⟨(e1, e2) :: t.filter keep⟩ q = FS.lookup ⟨t.filter keep⟩ q from by
            rw [lookup_cons, if_neg he],
          show FS.lookup ⟨(e1, e2) :: t⟩ q = FS.lookup ⟨t⟩ q from by
            rw [lookup_cons, if_neg he]]
        exact ih hnd.2 keep q
    · rw [if_neg hk]
      by_cases he : e1 = q
      · subst he
        rw [show FS.lookup ⟨(e1, e2) :: t⟩ e1 = some e2 from by
            rw [lookup_cons, if_pos rfl]]
        have hnone : FS.lookup ⟨t⟩ e1 = none := by
          apply lookup_eq_none_of_not_mem
          intro n hmem
          exact hnd.1 (List.mem_map_of_mem (fun e => e.1) hmem)
        rw [ih hnd.2 keep e1, hnone]
        simp only [hk]
        rw [if_neg (by simp [hk])]
      · rw [show FS.lookup ⟨(e1, e2) :: t⟩ q = FS.lookup ⟨t⟩ q from by
            rw [lookup_cons, if_neg he]]
        exact ih hnd.2 keep q

theorem wf_filter {fs : FS} (hwf : fs.wf) (keep : Path × Node → Bool)
    (hclosed : ∀ e ∈ fs.entries, keep e = true →
      ∀ n : Node, fs.lookup e.1.dropLast = some n → keep (e.1.dropLast, n) = true) :
    FS.wf ⟨fs.entries.filter keep⟩ := by
  constructor
  · exact ((hwf.1).sublist (List.Sublist.map _ (List.filter_sublist fs.entries)))
  · intro e hmem
    have hm2 := List.mem_of_mem_filter hmem
    have hk := List.of_mem_filter hmem
    have hold := hwf.2 e hm2
    refine ⟨hold.1, ?_⟩
    rcases hold.2 with hroot | hdir
    · exact Or.inl hroot
    · right
      have hkpar := hclosed e hm2 hk Node.dir hdir
      rw [show (⟨fs.entries.filter keep⟩ : FS).lookup e.1.dropLast =
        FS.lookup ⟨fs.entries.filter keep⟩ e.1.dropLast from rfl]
      rw [lookup_filter hwf.1 keep]
      rw [show FS.lookup ⟨fs.entries⟩ e.1.dropLast = fs.lookup e.1.dropLast from rfl, hdir]
      show (if keep (e.1.dropLast, Node.dir) = true then some Node.dir else none) =
        some Node.dir
      rw [if_pos hkpar]

theorem getLastD_concat : ∀ (p : Path) (a d : String), (p ++ [a]).getLastD d = a := by
  intro p
  induction p with
  | nil => intro a d; rfl
  | cons x t ih =>
    intro a d
    rw [List.cons_append, getLastD_cons_of_ne x (t ++ [a]) (by simp) d]
    exact ih a d

theorem children_path_mem {l : List (Path × Node)} {p : Path} {name : String} {nd : Node}
    (h : (name, nd) ∈ FS.children ⟨l⟩ p) : (p ++ [name], nd) ∈ l := by
  rcases List.mem_filterMap.mp h with ⟨e, hmem, he⟩
  obtain ⟨e1, e2⟩ := e
  by_cases hc : e1 ≠ [] ∧ e1.dropLast = p
  · rw [if_pos hc] at he
    have h1 : e1.getLastD "" = name ∧ e2 = nd := by
      simpa using he
    have hsplit : p ++ [name] = e1 := by
      have hd := dropLast_append_getLastD e1 hc.1
      rw [hc.2, h1.1] at hd
      exact hd
    rw [hsplit, ← h1.2]
    exact hmem
  · rw [if_neg hc] at he
    cases he

theorem children_lookup {fs : FS} (hnd : (fs.entries.map (fun e => e.1)).Nodup)
    {p : Path} {name : String} {n : Node}
    (h : (name, n) ∈ fs.children p) : fs.lookup (p ++ [name]) = some n :=
  lookup_eq_some_of_mem hnd (children_path_mem h)

theorem children_mem {fs : FS} {p : Path} {name : String} {n : Node}
    (h : fs.lookup (p ++ [name]) = some n) : (name, n) ∈ fs.children p := by
  have hmem := mem_of_lookup_eq_some h
  apply List.mem_filterMap.mpr
  refine ⟨(p ++ [name], n), hmem, ?_⟩
  rw [if_pos ⟨by simp, by simp⟩]
  rw [getLastD_concat]

theorem children_names_nodup :
    ∀ {l : List (Path × Node)}, (l.map (fun e => e.1)).Nodup → ∀ (p : Path),
      ((FS.children ⟨l⟩ p).map (fun c => c.1)).Nodup := by
  intro l
  induction l with
  | nil => intro _ p; simp [FS.children]
  | cons e t ih =>
    intro hnd p
    obtain ⟨e1, e2⟩ := e
    simp only [List.map_cons, List.nodup_cons] at hnd
    show ((List.filterMap _ ((e1, e2) :: t)).map _).Nodup
    rw [List.filterMap_cons]
    by_cases hc : e1 ≠ [] ∧ e1.dropLast = p
    · rw [if_pos hc]
      simp only [List.map_cons, List.nodup_cons]
      constructor
      · intro hin
        rcases List.mem_map.mp hin with ⟨c, hcmem, hcn⟩
        obtain ⟨cn, cnd⟩ := c
        have hpm := children_path_mem (l := t) (p := p) hcmem
        have he1 : p ++ [cn] = e1 := by
          have hd := dropLast_append_getLastD e1 hc.1
          rw [hc.2] at hd
          rw [show cn = e1.getLastD "" from hcn]
          exact hd
        apply hnd.1
        rw [← he1]
        exact List.mem_map_of_mem (fun e => e.1) hpm
      · exact ih hnd.2 p
    · rw [if_neg hc]
      exact ih hnd.2 p

theorem children_eq_nil {l : List (Path × Node)} {p : Path}
    (h : ∀ e ∈ l, ¬(e.1 ≠ [] ∧ e.1.dropLast = p)) : FS.children ⟨l⟩ p = [] := by
  apply List.filterMap_eq_nil.mpr
  intro e hmem
  rw [if_neg (h e hmem)]

theorem underB_of_under_child {q p : Path} {a : String}
    (h : underB q (p ++ [a]) = true) : underB q p = true := by
  unfold underB at h ⊢
  have hq : q.take (p ++ [a]).length = p ++ [a] := by simpa using h
  have hlen : (p ++ [a]).length = p.length + 1 := by simp
  apply beq_iff_eq.mpr
  have : q.take p.length = (q.take (p ++ [a]).length).take p.length := by
    rw [List.take_take]
    congr 1
    omega
  rw [this, hq, List.take_left]

theorem underB_self (p : Path) : underB p p = true := by
  unfold underB
  apply beq_iff_eq.mpr
  exact List.take_length p

theorem underB_append (p r : Path) : underB (p ++ r) p = true := by
  unfold underB
  apply beq_iff_eq.mpr
  exact List.take_left p r

theorem eq_or_strict_of_underB {q p : Path} (h : underB q p = true) :
    q = p ∨ ∃ r : Path, r ≠ [] ∧ q = p ++ r := by
  have hq : q.take p.length = p := by simpa [underB] using h
  have hlen : p.length ≤ q.length := by
    have := congrArg List.length hq
    rw [List.length_take] at this
    omega
  by_cases he : q.length = p.length
  · left
    rw [← hq, List.take_of_length_le (by omega)]
  · right
    refine ⟨q.drop p.length, ?_, ?_⟩
    · intro hcon
      have := congrArg List.length hcon
      rw [List.length_drop] at this
      simp at this
      omega
    · have hta : q.take p.length ++ q.drop p.length = q := List.take_append_drop _ q
      rw [hq] at hta
      exact hta.symm

theorem filter_length_mono {α : Type} :
    ∀ (l : List α) (q r : α → Bool), (∀ a ∈ l, q a = true → r a = true) →
      (l.filter q).length ≤ (l.filter r).length := by
  intro l
  induction l with
  | nil => intro q r _; simp
  | cons a t ih =>
    intro q r hmono
    rw [List.filter_cons, List.filter_cons]
    by_cases hq : q a = true
    · rw [if_pos hq, if_pos (hmono a (by simp) hq)]
      simpa using ih q r (fun b hb => hmono b (by simp [hb]))
    · rw [if_neg hq]
      have hle := ih q r (fun b hb => hmono b (by simp [hb]))
      by_cases hr : r a = true
      · rw [if_pos hr]
        simp only [List.length_cons]
        omega
      · rw [if_neg hr]
        exact hle

theorem filter_length_strict {α : Type} :
    ∀ (l : List α) (q r : α → Bool), (∀ a ∈ l, q a = true → r a = true) →
      ∀ a0 ∈ l, r a0 = true → q a0 = false →
      (l.filter q).length < (l.filter r).length := by
  intro l
  induction l with
  | nil => intro q r _ a0 h; cases h
  | cons a t ih =>
    intro q r hmono a0 ha0 hr0 hq0
    rw [List.filter_cons, List.filter_cons]
    rcases List.mem_cons.mp ha0 with he | ht
    · subst he
      rw [if_neg (by rw [hq0]; simp), if_pos hr0]
      simp only [List.length_cons]
      have := filter_length_mono t q r (fun b hb => hmono b (by simp [hb]))
      omega
    · have hlt := ih q r (fun b hb => hmono b (by simp [hb])) a0 ht hr0 hq0
      by_cases hq : q a = true
      · rw [if_pos hq, if_pos (hmono a (by simp) hq)]
        simpa using hlt
      · rw [if_neg hq]
        by_cases hr : r a = true
        · rw [if_pos hr]
          simp only [List.length_cons]
          omega
        · rw [if_neg hr]
          exact hlt

theorem desc_filter_le (l : List (Path × Node)) (keep : Path × Node → Bool) (p : Path) :
    descCount ⟨l.filter keep⟩ p ≤ descCount ⟨l⟩ p := by
  unfold descCount
  exact ((List.filter_sublist l).filter _).length_le

theorem strictUnderB_child {q p : Path} {a : String}
    (h : strictUnderB q (p ++ [a]) = true) : strictUnderB q p = true := by
  unfold strictUnderB at h ⊢
  simp only [Bool.and_eq_true, decide_eq_true_eq] at h ⊢
  refine ⟨underB_of_under_child h.1, ?_⟩
  have : (p ++ [a]).length = p.length + 1 := by simp
  omega

theorem desc_child_lt {fs : FS} (hnd : (fs.entries.map (fun e => e.1)).Nodup)
    {p : Path} {name : String} {n : Node}
    (h : fs.lookup (p ++ [name]) = some n) :
    descCount fs (p ++ [name]) + 1 ≤ descCount fs p := by
  have hmem := mem_of_lookup_eq_some h
  have := filter_length_strict fs.entries
    (fun e => strictUnderB e.1 (p ++ [name])) (fun e => strictUnderB e.1 p)
    (fun e _ he => strictUnderB_child he)
    (p ++ [name], n) hmem
    (by
      unfold strictUnderB
      simp [underB_self, underB_append])
    (by
      unfold strictUnderB
      simp)
  unfold descCount
  omega

theorem lstatN_chain {fs : FS} (fuel : Nat) (hf : 1 ≤ fuel) {p : Path}
    (hp0 : p ≠ []) (hchain : dirChain fs p) :
    FS.lstatN fs fuel p =
      (match fs.lookup p with
       | some n => .ok n
       | none => .error ENOENT) := by
  have hlp := lpath_chain fuel hf hp0 hchain
  simp only [FS.lstatN, hlp]
  cases hl : fs.lookup p with
  | some n => simp [hp0, hl]
  | none => simp [hp0, hl]

theorem islink_chain {fs : FS} (fuel : Nat) (hf : 1 ≤ fuel) {p : Path}
    (hp0 : p ≠ []) (hchain : dirChain fs p) :
    VolFS.islink fs fuel p =
      (match fs.lookup p with
       | some (Node.symlink _) => true
       | _ => false) := by
  unfold VolFS.islink
  rw [lstatN_chain fuel hf hp0 hchain]
  cases fs.lookup p with
  | none => rfl
  | some n => cases n <;> rfl

theorem unlinkOp_chain {fs : FS} (fuel : Nat) (hf : 1 ≤ fuel) {p : Path}
    (hp0 : p ≠ []) (hchain : dirChain fs p) :
    FS.unlinkOp fs fuel p =
      (match fs.lookup p with
       | none => .error ENOENT
       | some Node.dir => .error EISDIR
       | some _ => .ok ⟨fs.entries.filter (fun e => e.1 != p)⟩) := by
  have hlp := lpath_chain fuel hf hp0 hchain
  simp only [FS.unlinkOp, hlp]
  rw [if_neg hp0]

theorem rmdirOp_chain {fs : FS} (fuel : Nat) (hf : 1 ≤ fuel) {p : Path}
    (hp0 : p ≠ []) (hchain : dirChain fs p) (hdir : fs.lookup p = some Node.dir) :
    FS.rmdirOp fs fuel p =
      (if fs.children p = [] then .ok ⟨fs.entries.filter (fun e => e.1 != p)⟩
       else .error ENOTEMPTY) := by
  have hlp := lpath_chain fuel hf hp0 hchain
  simp only [FS.rmdirOp, hlp]
  rw [if_neg hp0]
  simp only [hdir]

theorem readdirOp_chain {fs : FS} (fuel : Nat) (hf : 1 ≤ fuel) {p : Path}
    (hp0 : p ≠ []) (hchain : dirChain fs p) (hdir : fs.lookup p = some Node.dir) :
    FS.readdirOp fs fuel p = .ok (fs.children p) := by
  have hr := realize_chain fs fuel p hf hchain (by intro t ht; rw [hdir] at ht; cases ht)
  simp [FS.readdirOp, hr, hp0, hdir]

theorem underB_short {q p : Path} (h : q.length < p.length) : underB q p = false := by
  unfold underB
  apply beq_eq_false_iff_ne.mpr
  intro hcon
  have := congrArg List.length hcon
  rw [List.length_take] at this
  omega

theorem underB_dropLast {q c : Path} (h : underB q.dropLast c = true) :
    underB q c = true := by
  unfold underB at h ⊢
  have h1 : q.dropLast.take c.length = c := by simpa using h
  apply beq_iff_eq.mpr
  have hlen : c.length ≤ q.dropLast.length := by
    have := congrArg List.length h1
    rw [List.length_take] at this
    omega
  have hdl := List.length_dropLast q
  rw [← take_dropLast q c.length (by omega)]
  exact h1

theorem underB_eq_of_length {q p : Path} (h : underB q p = true)
    (hl : q.length ≤ p.length) : q = p := by
  have hq : q.take p.length = p := by simpa [underB] using h
  rw [← hq, List.take_of_length_le hl]

theorem dirChain_snoc {fs : FS} {p : Path} (hchain : dirChain fs p)
    (hdir : fs.lookup p = some Node.dir) (a : String) :
    dirChain fs (p ++ [a]) := by
  intro i hi0 hil
  have hlen : (p ++ [a]).length = p.length + 1 := by simp
  have hta : (p ++ [a]).take i = p.take i :=
    List.take_append_of_le_length (by omega)
  rw [hta]
  by_cases hi : i = p.length
  · subst hi
    rw [List.take_length]
    exact hdir
  · exact hchain i hi0 (by omega)

theorem entryIsDir_iff (nd : Node) : VolFS.entryIsDir nd = true ↔ nd = Node.dir := by
  cases nd <;> simp [VolFS.entryIsDir]

theorem desc_pos_of_child {fs : FS} {p : Path} {name : String} {n : Node}
    (h : fs.lookup (p ++ [name]) = some n) : 0 < descCount fs p := by
  have hmem := mem_of_lookup_eq_some h
  have hpred : strictUnderB (p ++ [name], n).1 p = true := by
    unfold strictUnderB
    simp [underB_append]
  have hmemf : (p ++ [name], n) ∈ fs.entries.filter (fun e => strictUnderB e.1 p) :=
    List.mem_filter.mpr ⟨hmem, hpred⟩
  unfold descCount
  cases hfil : fs.entries.filter (fun e => strictUnderB e.1 p) with
  | nil => rw [hfil] at hmemf; cases hmemf
  | cons a t => simp

theorem filter_ne_eq_filter_not_under {fs : FS} (hwf : fs.wf) {child : Path} {nd : Node}
    (hl : fs.lookup child = some nd) (hnotdir : nd ≠ Node.dir) :
    fs.entries.filter (fun e => e.1 != child) =
      fs.entries.filter (fun e => !(underB e.1 child)) := by
  apply List.filter_congr
  intro e hmem
  by_cases hu : underB e.1 child = true
  · rcases eq_or_strict_of_underB hu with heq | ⟨r, hr0, heq⟩
    · rw [hu]
      simp [heq]
    · exfalso
      have hnone := wf_no_under_nondir hwf hl hnotdir r hr0
      rw [← heq] at hnone
      have := lookup_eq_some_of_mem hwf.1 (show (e.1, e.2) ∈ fs.entries from hmem)
      rw [this] at hnone
      cases hnone
  · have hu2 : underB e.1 child = false := by
      cases hu3 : underB e.1 child
      · rfl
      · exact absurd hu3 hu
    rw [hu2]
    have hne : e.1 ≠ child := by
      intro hcon
      rw [hcon] at hu2
      rw [underB_self] at hu2
      cases hu2
    simp [hne]

theorem lookup_filter_of_keep {fs : FS} (hnd : (fs.entries.map (fun e => e.1)).Nodup)
    (keep : Path × Node → Bool) {q : Path}
    (hkeep : ∀ n : Node, keep (q, n) = true) :
    FS.lookup ⟨fs.entries.filter keep⟩ q = fs.lookup q := by
  rw [lookup_filter hnd keep q]
  cases hl : fs.lookup q with
  | none => rfl
  | some n =>
    show (if keep (q, n) = true then some n else none) = some n
    rw [if_pos (hkeep n)]

theorem under_any_child {fs : FS} (hwf : fs.wf) {p : Path} {e : Path × Node}
    (hmem : e ∈ fs.entries) (hu : underB e.1 p = true) (hne : e.1 ≠ p) :
    (fs.children p).any (fun c => underB e.1 (p ++ [c.1])) = true := by
  rcases eq_or_strict_of_underB hu with heq | ⟨r, hr0, heq⟩
  · exact absurd heq hne
  obtain ⟨rh, rt, rfl⟩ : ∃ rh rt, r = rh :: rt := by
    cases r with
    | nil => exact absurd rfl hr0
    | cons rh rt => exact ⟨rh, rt, rfl⟩
  have hlookup : fs.lookup e.1 = some e.2 := lookup_eq_some_of_mem hwf.1 hmem
  have hlene : e.1.length = p.length + rt.length + 1 := by
    have := congrArg List.length heq
    simp at this
    omega
  have hchild : ∃ nd2 : Node, fs.lookup (p ++ [rh]) = some nd2 := by
    by_cases hlen : e.1.length = p.length + 1
    · have hrt : rt = [] := by
        cases rt with
        | nil => rfl
        | cons a b => exfalso; simp at hlene; omega
      refine ⟨e.2, ?_⟩
      rw [show p ++ [rh] = e.1 from by rw [heq, hrt]]
      exact hlookup
    · have hchain := wf_chain hwf hlookup
      have hlen2 : p.length + 1 < e.1.length := by omega
      have hdir := hchain (p.length + 1) (by omega) hlen2
      have htk : e.1.take (p.length + 1) = p ++ [rh] := by
        rw [heq, List.take_append]
        rfl
      rw [htk] at hdir
      exact ⟨Node.dir, hdir⟩
  obtain ⟨nd2, hnd2⟩ := hchild
  apply List.any_eq_true.mpr
  refine ⟨(rh, nd2), children_mem hnd2, ?_⟩
  show underB e.1 (p ++ [rh]) = true
  rw [heq, show p ++ rh :: rt = (p ++ [rh]) ++ rt from by simp]
  exact underB_append _ _

theorem keepGo_eq {fs : FS} (hwf : fs.wf) (p : Path) :
    ∀ e ∈ fs.entries,
      ((e.1 != p) && (!((fs.children p).any (fun c => underB e.1 (p ++ [c.1])))))
        = !(underB e.1 p) := by
  intro e hmem
  by_cases hu : underB e.1 p = true
  · rw [hu]
    by_cases hne : e.1 = p
    · simp [hne]
    · rw [under_any_child hwf hmem hu hne]
      simp
  · have hu2 : underB e.1 p = false := by
      cases h2 : underB e.1 p
      · rfl
      · exact absurd h2 hu
    rw [hu2]
    have hnoany : (fs.children p).any (fun c => underB e.1 (p ++ [c.1])) = false := by
      cases hany : (fs.children p).any (fun c => underB e.1 (p ++ [c.1]))
      · rfl
      · exfalso
        rcases List.any_eq_true.mp hany with ⟨c, hc, hcu⟩
        exact hu (underB_of_under_child hcu)
    have hnep : (e.1 != p) = true := by
      apply bne_iff_ne.mpr
      intro hcon
      rw [hcon, underB_self] at hu2
      cases hu2
    rw [hnoany, hnep]
    simp

theorem childrenF_nil {fs : FS} (hwf : fs.wf) (p : Path) :
    FS.children ⟨fs.entries.filter
      (fun e => !((fs.children p).any (fun c => underB e.1 (p ++ [c.1]))))⟩ p = [] := by
  apply children_eq_nil
  intro e hmem hcon
  have hm2 := List.mem_of_mem_filter hmem
  have hk := List.of_mem_filter hmem
  have he1 : e.1 = p ++ [e.1.getLastD ""] := by
    have hd := dropLast_append_getLastD e.1 hcon.1
    rw [hcon.2] at hd
    exact hd.symm
  have hu : underB e.1 p = true := by
    rw [he1]
    exact underB_append _ _
  have hne : e.1 ≠ p := by
    intro hcon2
    have := congrArg List.length he1
    rw [hcon2] at this
    simp at this
  have hanyT := under_any_child hwf hm2 hu hne
  rw [hanyT] at hk
  cases hk

/-- Helper for C6: simultaneous specification of `rmtree` and its scandir
loop, by induction on the recursion fuel.  A run on a well-formed volume,
rooted at an existing directory, removes exactly the entries at or below
the root and reports no error. -/
theorem rmtree_aux (rfuel : Nat) (hrf : 1 ≤ rfuel) :
    ∀ fuel : Nat,
      (∀ (fs : FS) (p : Path), fs.wf → dirChain fs p → p ≠ [] →
        fs.lookup p = some Node.dir → descCount fs p + 1 ≤ fuel →
        VolFS.rmtreeGo fuel rfuel fs p =
          some (⟨fs.entries.filter (fun e => !(underB e.1 p))⟩, none)) ∧
      (∀ (cs : List (String × Node)) (fs : FS) (p : Path), fs.wf → dirChain fs p →
        p ≠ [] → fs.lookup p = some Node.dir → descCount fs p ≤ fuel →
        (∀ c ∈ cs, fs.lookup (p ++ [c.1]) = some c.2) →
        (cs.map (fun c => c.1)).Nodup →
        VolFS.rmtreeFold fuel rfuel fs p cs =
          some (⟨fs.entries.filter
            (fun e => !(cs.any (fun c => underB e.1 (p ++ [c.1]))))⟩, none)) := by
  intro fuel
  induction fuel with
  | zero =>
    constructor
    · intro fs p _ _ _ _ hfuel
      omega
    · intro cs fs p _ _ _ _ hdesc hacc _
      cases cs with
      | nil =>
        have hent : fs.entries.filter
            (fun e => !(([] : List (String × Node)).any
              (fun c => underB e.1 (p ++ [c.1])))) = fs.entries := by
          simp
        simp only [VolFS.rmtreeFold]
        rw [hent]
      | cons c rest =>
        exfalso
        have := desc_pos_of_child (hacc c (by simp))
        omega
  | succ fuel ih =>
    have hGo : ∀ (fs : FS) (p : Path), fs.wf → dirChain fs p → p ≠ [] →
        fs.lookup p = some Node.dir → descCount fs p + 1 ≤ fuel + 1 →
        VolFS.rmtreeGo (fuel + 1) rfuel fs p =
          some (⟨fs.entries.filter (fun e => !(underB e.1 p))⟩, none) := by
      intro fs p hwf hchain hp0 hdir hfuel
      have hisl : VolFS.islink fs rfuel p = false := by
        rw [islink_chain rfuel hrf hp0 hchain, hdir]
      have hrd : VolFS.scandirSnap fs rfuel p = .ok (fs.children p) :=
        readdirOp_chain rfuel hrf hp0 hchain hdir
      have hfold := ih.2 (fs.children p) fs p hwf hchain hp0 hdir (by
          unfold descCount at hfuel ⊢
          omega)
        (fun c hc => children_lookup hwf.1 hc)
        (children_names_nodup hwf.1 p)
      have hunf : VolFS.rmtreeGo (fuel + 1) rfuel fs p =
          (match VolFS.rmtreeFold fuel rfuel fs p (fs.children p) with
           | none => none
           | some (fs1, some e) => some (fs1, some e)
           | some (fs1, none) =>
             match FS.rmdirOp fs1 rfuel p with
             | .error e => some (fs1, some e)
             | .ok fs2 => some (fs2, none)) := by
        rw [VolFS.rmtreeGo, hisl]
        rw [if_neg (by simp)]
        rw [hrd]
      rw [hunf, hfold]
      have hwfF : FS.wf ⟨fs.entries.filter
          (fun e => !((fs.children p).any (fun c => underB e.1 (p ++ [c.1]))))⟩ := by
        apply wf_filter hwf
        intro e hmem hk n hpar
        cases hany : (fs.children p).any (fun c => underB e.1.dropLast (p ++ [c.1]))
        · simp [hany]
        · exfalso
          rcases List.any_eq_true.mp hany with ⟨c, hc, hcu⟩
          have : underB e.1 (p ++ [c.1]) = true := underB_dropLast hcu
          rw [List.any_eq_true.mpr ⟨c, hc, this⟩] at hk
          cases hk
      have hkeepAbove : ∀ (q : Path), q.length ≤ p.length → ∀ n : Node,
          (!((fs.children p).any (fun c => underB q (p ++ [c.1])))) = true := by
        intro q hq n
        cases hany : (fs.children p).any (fun c => underB q (p ++ [c.1]))
        · rfl
        · exfalso
          rcases List.any_eq_true.mp hany with ⟨c, hc, hcu⟩
          have hlen : (p ++ [c.1]).length = p.length + 1 := by simp
          rw [underB_short (by omega)] at hcu
          cases hcu
      have hchainF : dirChain (⟨fs.entries.filter
          (fun e => !((fs.children p).any (fun c => underB e.1 (p ++ [c.1]))))⟩ : FS) p := by
        intro i hi0 hil
        rw [lookup_filter_of_keep hwf.1 _ (by
          intro n
          exact hkeepAbove (p.take i) (by rw [List.length_take]; omega) n)]
        exact hchain i hi0 hil
      have hdirF : FS.lookup (⟨fs.entries.filter
          (fun e => !((fs.children p).any (fun c => underB e.1 (p ++ [c.1]))))⟩ : FS) p =
          some Node.dir := by
        rw [lookup_filter_of_keep hwf.1 _ (fun n => hkeepAbove p le_rfl n)]
        exact hdir
      have hchildF := childrenF_nil hwf p
      have hrm := @rmdirOp_chain ⟨fs.entries.filter
          (fun e => !((fs.children p).any (fun c => underB e.1 (p ++ [c.1]))))⟩
        rfuel hrf p hp0 hchainF hdirF
      rw [if_pos hchildF] at hrm
      show (match FS.rmdirOp ⟨fs.entries.filter
          (fun e => !((fs.children p).any (fun c => underB e.1 (p ++ [c.1]))))⟩ rfuel p with
        | .error e => some ((⟨fs.entries.filter
            (fun e => !((fs.children p).any (fun c => underB e.1 (p ++ [c.1]))))⟩ : FS), some e)
        | .ok fs2 => some (fs2, none)) = _
      rw [hrm]
      show some ((⟨(fs.entries.filter
          (fun e => !((fs.children p).any (fun c => underB e.1 (p ++ [c.1]))))).filter
          (fun e => e.1 != p)⟩ : FS), (none : Option Nat)) = _
      have hent : (fs.entries.filter
          (fun e => !((fs.children p).any (fun c => underB e.1 (p ++ [c.1]))))).filter
          (fun e => e.1 != p) =
          fs.entries.filter (fun e => !(underB e.1 p)) := by
        rw [List.filter_filter]
        apply List.filter_congr
        intro e hmem
        exact keepGo_eq hwf p e hmem
      rw [hent]
    refine ⟨hGo, ?_⟩
    intro cs
    induction cs with
    | nil =>
      intro fs p hwf hchain hp0 hdir hdesc hacc hnodupn
      have hent : fs.entries.filter
          (fun e => !(([] : List (String × Node)).any
            (fun c => underB e.1 (p ++ [c.1])))) = fs.entries := by
        simp
      simp only [VolFS.rmtreeFold]
      rw [hent]
    | cons c rest ihrest =>
      intro fs p hwf hchain hp0 hdir hdesc hacc hnodupn
      obtain ⟨name, nd⟩ := c
      have haccc : fs.lookup (p ++ [name]) = some nd := hacc (name, nd) (by simp)
      simp only [List.map_cons, List.nodup_cons] at hnodupn
      have hchainC : dirChain fs (p ++ [name]) := dirChain_snoc hchain hdir name
      have hC0 : p ++ [name] ≠ [] := by simp
      -- the canonical state after removing this child's subtree
      have hkeepRest : ∀ (q : Path) (hq : q.length ≤ p.length ∨
            (∃ nm : String, q = p ++ [nm] ∧ nm ≠ name)) (n : Node),
          (!(underB q (p ++ [name]))) = true := by
        intro q hq n
        rcases hq with hshort | ⟨nm, rfl, hnm⟩
        · rw [underB_short (by simp; omega)]
          rfl
        · cases hub : underB (p ++ [nm]) (p ++ [name])
          · rfl
          · exfalso
            have := underB_eq_of_length hub (by simp)
            have : nm = name := by
              have h2 := List.append_cancel_left this
              simpa using h2
            exact hnm this
      have hwf1 : FS.wf ⟨fs.entries.filter (fun e => !(underB e.1 (p ++ [name])))⟩ := by
        apply wf_filter hwf
        intro e hmem hk n hpar
        cases hu : underB e.1.dropLast (p ++ [name])
        · simp [hu]
        · exfalso
          rw [underB_dropLast hu] at hk
          cases hk
      have hchain1 : dirChain (⟨fs.entries.filter
          (fun e => !(underB e.1 (p ++ [name])))⟩ : FS) p := by
        intro i hi0 hil
        rw [lookup_filter_of_keep hwf.1 _ (hkeepRest (p.take i)
          (Or.inl (by rw [List.length_take]; omega)))]
        exact hchain i hi0 hil
      have hdir1 : FS.lookup (⟨fs.entries.filter
          (fun e => !(underB e.1 (p ++ [name])))⟩ : FS) p = some Node.dir := by
        rw [lookup_filter_of_keep hwf.1 _ (hkeepRest p (Or.inl le_rfl))]
        exact hdir
      have hdesc1 : descCount (⟨fs.entries.filter
          (fun e => !(underB e.1 (p ++ [name])))⟩ : FS) p ≤ fuel + 1 :=
        le_trans (desc_filter_le fs.entries _ p) hdesc
      have hacc1 : ∀ c2 ∈ rest, FS.lookup (⟨fs.entries.filter
          (fun e => !(underB e.1 (p ++ [name])))⟩ : FS) (p ++ [c2.1]) = some c2.2 := by
        intro c2 hc2
        rw [lookup_filter_of_keep hwf.1 _ (hkeepRest (p ++ [c2.1])
          (Or.inr ⟨c2.1, rfl, by
            intro hcon
            apply hnodupn.1
            rw [← hcon]
            exact List.mem_map_of_mem (fun c => c.1) hc2⟩))]
        exact hacc c2 (by simp [hc2])
      have hrest := ihrest ⟨fs.entries.filter (fun e => !(underB e.1 (p ++ [name])))⟩ p
        hwf1 hchain1 hp0 hdir1 hdesc1 hacc1 hnodupn.2
      have hcombine : (fs.entries.filter (fun e => !(underB e.1 (p ++ [name])))).filter
          (fun e => !(rest.any (fun c => underB e.1 (p ++ [c.1])))) =
          fs.entries.filter
            (fun e => !(((name, nd) :: rest).any (fun c => underB e.1 (p ++ [c.1])))) := by
        rw [List.filter_filter]
        apply List.filter_congr
        intro e _
        cases h1 : underB e.1 (p ++ [name]) <;>
          cases h2 : rest.any (fun c => underB e.1 (p ++ [c.1])) <;>
            simp [List.any_cons, h1, h2]
      by_cases hnd : nd = Node.dir
      · subst hnd
        have hdescC : descCount fs (p ++ [name]) + 1 ≤ fuel + 1 :=
          le_trans (desc_child_lt hwf.1 haccc) hdesc
        have hgo := hGo fs (p ++ [name]) hwf hchainC hC0 haccc hdescC
        have hunf : VolFS.rmtreeFold (fuel + 1) rfuel fs p ((name, Node.dir) :: rest) =
            VolFS.rmtreeFold (fuel + 1) rfuel
              ⟨fs.entries.filter (fun e => !(underB e.1 (p ++ [name])))⟩ p rest := by
          rw [VolFS.rmtreeFold]
          rw [if_pos (by rw [entryIsDir_iff])]
          rw [hgo]
        rw [hunf, hrest, hcombine]
      · have hun := unlinkOp_chain rfuel hrf hC0 hchainC
        rw [haccc] at hun
        have hun2 : FS.unlinkOp fs rfuel (p ++ [name]) =
            .ok ⟨fs.entries.filter (fun e => e.1 != (p ++ [name]))⟩ := by
          rw [hun]
          cases nd with
          | dir => exact absurd rfl hnd
          | file cont => rfl
          | symlink t => rfl
        have hfix : (⟨fs.entries.filter (fun e => e.1 != (p ++ [name]))⟩ : FS) =
            ⟨fs.entries.filter (fun e => !(underB e.1 (p ++ [name])))⟩ := by
          rw [filter_ne_eq_filter_not_under hwf haccc hnd]
        have hunf : VolFS.rmtreeFold (fuel + 1) rfuel fs p ((name, nd) :: rest) =
            VolFS.rmtreeFold (fuel + 1) rfuel
              ⟨fs.entries.filter (fun e => !(underB e.1 (p ++ [name])))⟩ p rest := by
          rw [VolFS.rmtreeFold]
          rw [if_neg (by
            rw [entryIsDir_iff]
            exact hnd)]
          rw [hun2, hfix]
        rw [hunf, hrest, hcombine]

/-- C6: on a mounted, well-formed volume, `rmtree` with default arguments
removes the entire directory tree rooted at `p` — every entry at or below
`p` is gone (non-directory entries by unlink, subdirectories by recursion,
and finally `p` itself by rmdir), every other entry is untouched, and no
error is raised; and when `p` is a symbolic link it raises OSError
immediately, before removing or unlinking anything (the state is returned
unchanged). -/
theorem c6_rmtree (fs : FS) (fuel rfuel : Nat) (p t : Path)
    (hrf : 1 ≤ rfuel) (hwf : fs.wf) (hchain : dirChain fs p) (hp0 : p ≠ []) :
    (fs.lookup p = some Node.dir → descCount fs p + 1 ≤ fuel →
      VolFS.rmtreeGo fuel rfuel fs p =
        some (⟨fs.entries.filter (fun e => !(underB e.1 p))⟩, none)) ∧
    (fs.lookup p = some (Node.symlink t) → 1 ≤ fuel →
      VolFS.rmtreeGo fuel rfuel fs p = some (fs, some RMTREE_LINK_ERR)) := by
  constructor
  · intro hdir hfuel
    exact (rmtree_aux rfuel hrf fuel).1 fs p hwf hchain hp0 hdir hfuel
  · intro hsym hfl
    obtain ⟨f, rfl⟩ : ∃ f, fuel = f + 1 := ⟨fuel - 1, by omega⟩
    have hisl : VolFS.islink fs rfuel p = true := by
      rw [islink_chain rfuel hrf hp0 hchain, hsym]
    rw [VolFS.rmtreeGo, hisl]
    rw [if_pos rfl]

/-- C6 witness: a populated tree (a directory with a nested subdirectory, a
file and a symlink inside) is fully removed leaving the unrelated entry,
and rmtree on a symlink root errors without touching anything. -/
theorem c6_rmtree_witness :
    VolFS.rmtreeGo 6 1
      ⟨[(["a"], Node.dir), (["a", "b"], Node.dir), (["a", "b", "f"], Node.file [1]),
        (["a", "s"], Node.symlink ["z"]), (["z"], Node.dir)]⟩ ["a"] =
      some (⟨[(["z"], Node.dir)]⟩, none) ∧
    VolFS.rmtreeGo 1 1 ⟨[(["s"], Node.symlink ["q"])]⟩ ["s"] =
      some (⟨[(["s"], Node.symlink ["q"])]⟩, some RMTREE_LINK_ERR) := by
  have hch1 : dirChain ⟨[(["a"], Node.dir), (["a", "b"], Node.dir),
      (["a", "b", "f"], Node.file [1]), (["a", "s"], Node.symlink ["z"]),
      (["z"], Node.dir)]⟩ ["a"] := by
    intro i hi0 hil
    simp at hil
    omega
  have hch2 : dirChain ⟨[(["s"], Node.symlink ["q"])]⟩ ["s"] := by
    intro i hi0 hil
    simp at hil
    omega
  have h1 := (c6_rmtree ⟨[(["a"], Node.dir), (["a", "b"], Node.dir),
      (["a", "b", "f"], Node.file [1]), (["a", "s"], Node.symlink ["z"]),
      (["z"], Node.dir)]⟩ 6 1 ["a"] ["q"] (by decide) ⟨by decide, by decide⟩
      hch1 (by decide)).1 (by decide) (by decide)
  have h2 := (c6_rmtree ⟨[(["s"], Node.symlink ["q"])]⟩ 1 1 ["s"] ["q"]
      (by decide) ⟨by decide, by decide⟩ hch2 (by decide)).2 (by decide) (by decide)
  constructor
  · rw [h1]
    rfl
  · exact h2

/-- C1 counterexample: the claim states that every wrapped foreign call of a
Volume or File method translates a negative return into a raised OS error,
but `Volume.access` — one of the wrapped calls cited by the claim — maps a
negative glfs_access return (here -1 with errno 13) to the ordinary value
`False` and raises nothing. -/
theorem c1_access_no_raise : Wrap.access ⟨-1, 13⟩ = .ok false := rfl

/-- C1 (amended): for every error-raising wrapped call of Volume and File —
the path-operation wrappers (unlink, mkdir, rmdir, chmod, chown, rename,
link, symlink, setxattr, removexattr, getxattr, listxattr, stat, lstat,
statvfs, readlink, chdir, utime), the handle-returning opens and duplicate
(open, opendir, File.dup), and the open-state File I/O wrappers (close,
lseek, write, read, readinto, ftruncate, fsync, fdatasync, fallocate,
discard, zerofill, fchmod, fchown, fstat, fgetsize, fgetxattr, fsetxattr,
fremovexattr, flistxattr) — a negative (or NULL) foreign return raises an
OS error carrying the foreign last-error code and its textual description,
and a non-negative (non-NULL) return is passed through to the caller
unchanged (as the value itself, the filled record, or the output buffer's
sliced/parsed contents); the boolean convenience wrapper `Volume.access`
instead maps the return code to True/False without raising, and
`Volume.getcwd` raises a hardcoded ENOENT on a NULL return rather than
the foreign last-error code. -/
theorem c1_errno_translation (c q : CRet) (h : HRet) (fd : Nat) (f : FileSt)
    (s : FileM.StatRec) (sv : StatvfsRec) (buf : String) (bufL : List Char)
    (data : List Nat) (sz : Nat) (hopen : truthyFd f.fd = true) :
    (c.ret < 0 →
      Wrap.unlink c = .error (osError c.errno) ∧
      Wrap.mkdir c = .error (osError c.errno) ∧
      Wrap.rmdir c = .error (osError c.errno) ∧
      Wrap.chmod c = .error (osError c.errno) ∧
      Wrap.chown c = .error (osError c.errno) ∧
      Wrap.rename c = .error (osError c.errno) ∧
      Wrap.link c = .error (osError c.errno) ∧
      Wrap.symlink c = .error (osError c.errno) ∧
      Wrap.setxattr c = .error (osError c.errno) ∧
      Wrap.removexattr c = .error (osError c.errno) ∧
      FileM.lseek c f = (.error (osError c.errno), ["glfs_lseek"]) ∧
      FileM.write c f = (.error (osError c.errno), ["glfs_write"]) ∧
      FileM.readinto c f = (.error (osError c.errno), ["glfs_read"]) ∧
      FileM.close c f = (.error (osError c.errno), ["glfs_close"]) ∧
      Wrap.stat c s = .error (osError c.errno) ∧
      Wrap.lstat c s = .error (osError c.errno) ∧
      Wrap.statvfs c sv = .error (osError c.errno) ∧
      Wrap.readlink c buf = .error (osError c.errno) ∧
      Wrap.chdir c = .error (osError c.errno) ∧
      Wrap.utime c = .error (osError c.errno) ∧
      Wrap.getxattr (sz + 1) q c buf = .error (osError c.errno) ∧
      Wrap.getxattr 0 c q buf = .error (osError c.errno) ∧
      Wrap.listxattr (sz + 1) q c bufL = .error (osError c.errno) ∧
      Wrap.listxattr 0 c q bufL = .error (osError c.errno) ∧
      FileM.ftruncate c f = (.error (osError c.errno), ["glfs_ftruncate"]) ∧
      FileM.fsync c f = (.error (osError c.errno), ["glfs_fsync"]) ∧
      FileM.fdatasync c f = (.error (osError c.errno), ["glfs_fdatasync"]) ∧
      FileM.fallocate c f = (.error (osError c.errno), ["glfs_fallocate"]) ∧
      FileM.discard c f = (.error (osError c.errno), ["glfs_discard"]) ∧
      FileM.zerofill c f = (.error (osError c.errno), ["glfs_zerofill"]) ∧
      FileM.fchmod c f = (.error (osError c.errno), ["glfs_fchmod"]) ∧
      FileM.fchown c f = (.error (osError c.errno), ["glfs_fchown"]) ∧
      FileM.fstat c s f = (.error (osError c.errno), ["glfs_fstat"]) ∧
      FileM.fgetsize c s f = (.error (osError c.errno), ["glfs_fstat"]) ∧
      FileM.fsetxattr c f = (.error (osError c.errno), ["glfs_fsetxattr"]) ∧
      FileM.fremovexattr c f =
        (.error (osError c.errno), ["glfs_fremovexattr"]) ∧
      FileM.fgetxattr (sz + 1) q c buf f =
        (.error (osError c.errno), ["glfs_fgetxattr"]) ∧
      FileM.fgetxattr 0 c q buf f =
        (.error (osError c.errno), ["glfs_fgetxattr"]) ∧
      FileM.flistxattr (sz + 1) q c bufL f =
        (.error (osError c.errno), ["glfs_flistxattr"]) ∧
      FileM.flistxattr 0 c q bufL f =
        (.error (osError c.errno), ["glfs_flistxattr"]) ∧
      FileM.read 1 q s c data f = (.error (osError c.errno), ["glfs_read"])) ∧
    (¬ c.ret < 0 →
      Wrap.unlink c = .ok () ∧
      Wrap.mkdir c = .ok () ∧
      Wrap.rmdir c = .ok () ∧
      Wrap.chmod c = .ok () ∧
      Wrap.chown c = .ok () ∧
      Wrap.rename c = .ok () ∧
      Wrap.link c = .ok () ∧
      Wrap.symlink c = .ok () ∧
      Wrap.setxattr c = .ok () ∧
      Wrap.removexattr c = .ok () ∧
      FileM.lseek c f = (.ok c.ret, ["glfs_lseek"]) ∧
      FileM.write c f = (.ok c.ret, ["glfs_write"]) ∧
      FileM.readinto c f = (.ok c.ret, ["glfs_read"]) ∧
      FileM.close c f = (.ok ⟨none⟩, ["glfs_close"]) ∧
      Wrap.stat c s = .ok s ∧
      Wrap.lstat c s = .ok s ∧
      Wrap.statvfs c sv = .ok sv ∧
      Wrap.readlink c buf = .ok (buf.take c.ret.toNat) ∧
      Wrap.chdir c = .ok () ∧
      Wrap.utime c = .ok () ∧
      Wrap.getxattr (sz + 1) q c buf = .ok (buf.take c.ret.toNat) ∧
      Wrap.listxattr (sz + 1) q c bufL =
        .ok (FileM.sortStrings (FileM.parseXattrs (bufL.take c.ret.toNat))) ∧
      FileM.ftruncate c f = (.ok (), ["glfs_ftruncate"]) ∧
      FileM.fsync c f = (.ok (), ["glfs_fsync"]) ∧
      FileM.fdatasync c f = (.ok (), ["glfs_fdatasync"]) ∧
      FileM.fallocate c f = (.ok (), ["glfs_fallocate"]) ∧
      FileM.discard c f = (.ok (), ["glfs_discard"]) ∧
      FileM.zerofill c f = (.ok (), ["glfs_zerofill"]) ∧
      FileM.fchmod c f = (.ok (), ["glfs_fchmod"]) ∧
      FileM.fchown c f = (.ok (), ["glfs_fchown"]) ∧
      FileM.fstat c s f = (.ok s, ["glfs_fstat"]) ∧
      FileM.fgetsize c s f = (.ok s.st_size, ["glfs_fstat"]) ∧
      FileM.fsetxattr c f = (.ok (), ["glfs_fsetxattr"]) ∧
      FileM.fremovexattr c f = (.ok (), ["glfs_fremovexattr"]) ∧
      FileM.fgetxattr (sz + 1) q c buf f =
        (.ok (buf.take c.ret.toNat), ["glfs_fgetxattr"]) ∧
      FileM.flistxattr (sz + 1) q c bufL f =
        (.ok (FileM.sortStrings (FileM.parseXattrs (bufL.take c.ret.toNat))),
          ["glfs_flistxattr"])) ∧
    (h.handle = none →
      Wrap.openRaw h = .error (osError h.errno) ∧
      Wrap.opendirRaw h = .error (osError h.errno) ∧
      FileM.dup h f = (.error (osError h.errno), ["glfs_dup"]) ∧
      Wrap.getcwd h buf = .error (osError ENOENT)) ∧
    (h.handle = some fd →
      Wrap.openRaw h = .ok fd ∧
      Wrap.opendirRaw h = .ok fd ∧
      FileM.dup h f = (.ok ⟨some (Int.ofNat fd)⟩, ["glfs_dup"]) ∧
      Wrap.getcwd h buf = .ok buf) ∧
    (¬ c.ret = 0 → Wrap.access c = .ok false) ∧
    (c.ret = 0 → Wrap.access c = .ok true) := by
  refine ⟨?_, ?_, ?_, ?_, ?_, ?_⟩
  · intro hlt
    have hng : ¬ c.ret > 0 := by omega
    simp [Wrap.unlink, Wrap.mkdir, Wrap.rmdir, Wrap.chmod, Wrap.chown,
      Wrap.rename, Wrap.link, Wrap.symlink, Wrap.setxattr, Wrap.removexattr,
      Wrap.stat, Wrap.lstat, Wrap.statvfs, Wrap.readlink, Wrap.chdir,
      Wrap.utime, Wrap.getxattr, Wrap.listxattr,
      FileM.lseek, FileM.write, FileM.readinto, FileM.close,
      FileM.ftruncate, FileM.fsync, FileM.fdatasync, FileM.fallocate,
      FileM.discard, FileM.zerofill, FileM.fchmod, FileM.fchown,
      FileM.fstat, FileM.fgetsize, FileM.fsetxattr, FileM.fremovexattr,
      FileM.fgetxattr, FileM.flistxattr, FileM.read,
      validate_glfd, hopen, hlt, hng]
  · intro hge
    simp [Wrap.unlink, Wrap.mkdir, Wrap.rmdir, Wrap.chmod, Wrap.chown,
      Wrap.rename, Wrap.link, Wrap.symlink, Wrap.setxattr, Wrap.removexattr,
      Wrap.stat, Wrap.lstat, Wrap.statvfs, Wrap.readlink, Wrap.chdir,
      Wrap.utime, Wrap.getxattr, Wrap.listxattr,
      FileM.lseek, FileM.write, FileM.readinto, FileM.close,
      FileM.ftruncate, FileM.fsync, FileM.fdatasync, FileM.fallocate,
      FileM.discard, FileM.zerofill, FileM.fchmod, FileM.fchown,
      FileM.fstat, FileM.fgetsize, FileM.fsetxattr, FileM.fremovexattr,
      FileM.fgetxattr, FileM.flistxattr,
      validate_glfd, hopen, hge]
  · intro hn
    simp [Wrap.openRaw, Wrap.opendirRaw, FileM.dup, Wrap.getcwd,
      validate_glfd, hopen, hn]
  · intro hs
    simp [Wrap.openRaw, Wrap.opendirRaw, FileM.dup, Wrap.getcwd,
      validate_glfd, hopen, hs]
  · intro hnz
    simp [Wrap.access, hnz]
  · intro hz
    simp [Wrap.access, hz]

/-- C1 witness: the amended contract at concrete inputs — a failed unlink
raises OSError(5, strerror(5)), a failed stat raises the same, a successful
lseek passes 7 through, a NULL open raises OSError(2, strerror(2)) while a
NULL getcwd raises the hardcoded ENOENT, and a non-NULL open/dup passes the
glfd through. -/
theorem c1_errno_translation_witness :
    Wrap.unlink ⟨-1, 5⟩ = .error (osError 5) ∧
    Wrap.stat ⟨-1, 5⟩ ⟨1, 2, 3⟩ = .error (osError 5) ∧
    FileM.lseek ⟨7, 0⟩ ⟨some 4⟩ = (.ok 7, ["glfs_lseek"]) ∧
    Wrap.openRaw ⟨none, 2⟩ = .error (osError 2) ∧
    Wrap.getcwd ⟨none, 2⟩ "" = .error (osError ENOENT) ∧
    Wrap.openRaw ⟨some 12, 0⟩ = .ok 12 ∧
    FileM.dup ⟨some 12, 0⟩ ⟨some 4⟩ = (.ok ⟨some (Int.ofNat 12)⟩, ["glfs_dup"]) :=
  ⟨((c1_errno_translation ⟨-1, 5⟩ ⟨0, 0⟩ ⟨none, 2⟩ 12 ⟨some 4⟩ ⟨1, 2, 3⟩
      ⟨0, 0, 0, 0, 0, 0, 0, 0, 0, 0, 0⟩ "" [] [] 0 rfl).1 (by decide)).1,
   ((c1_errno_translation ⟨-1, 5⟩ ⟨0, 0⟩ ⟨none, 2⟩ 12 ⟨some 4⟩ ⟨1, 2, 3⟩
      ⟨0, 0, 0, 0, 0, 0, 0, 0, 0, 0, 0⟩ "" [] [] 0 rfl).1
      (by decide)).2.2.2.2.2.2.2.2.2.2.2.2.2.2.1,
   ((c1_errno_translation ⟨7, 0⟩ ⟨0, 0⟩ ⟨none, 2⟩ 12 ⟨some 4⟩ ⟨1, 2, 3⟩
      ⟨0, 0, 0, 0, 0, 0, 0, 0, 0, 0, 0⟩ "" [] [] 0 rfl).2.1
      (by decide)).2.2.2.2.2.2.2.2.2.2.1,
   ((c1_errno_translation ⟨7, 0⟩ ⟨0, 0⟩ ⟨none, 2⟩ 12 ⟨some 4⟩ ⟨1, 2, 3⟩
      ⟨0, 0, 0, 0, 0, 0, 0, 0, 0, 0, 0⟩ "" [] [] 0 rfl).2.2.1 rfl).1,
   ((c1_errno_translation ⟨7, 0⟩ ⟨0, 0⟩ ⟨none, 2⟩ 12 ⟨some 4⟩ ⟨1, 2, 3⟩
      ⟨0, 0, 0, 0, 0, 0, 0, 0, 0, 0, 0⟩ "" [] [] 0 rfl).2.2.1 rfl).2.2.2,
   ((c1_errno_translation ⟨7, 0⟩ ⟨0, 0⟩ ⟨some 12, 0⟩ 12 ⟨some 4⟩ ⟨1, 2, 3⟩
      ⟨0, 0, 0, 0, 0, 0, 0, 0, 0, 0, 0⟩ "" [] [] 0 rfl).2.2.2.1 rfl).1,
   ((c1_errno_translation ⟨7, 0⟩ ⟨0, 0⟩ ⟨some 12, 0⟩ 12 ⟨some 4⟩ ⟨1, 2, 3⟩
      ⟨0, 0, 0, 0, 0, 0, 0, 0, 0, 0, 0⟩ "" [] [] 0 rfl).2.2.2.1 rfl).2.2.1⟩

/-- C2: once a File is closed (`self.fd` is None after `close()`), every
I/O method — read, write, lseek, ftruncate, fsync, fdatasync, fallocate,
discard, zerofill, and the f-prefixed xattr/stat/chmod/chown methods —
raises OSError(EBADF) without making any foreign call, and the check is one
reusable guard (`validate_glfd`) uniform across all of them: any body
whatsoever short-circuits to the same EBADF error with an empty call trace. -/
theorem c2_closed_file_ebadf (f : FileSt) (hclosed : f.fd = none)
    (c sq fc : CRet) (h : HRet) (s : FileM.StatRec) (size : Nat) (sz : Int)
    (buf : String) (bufl : List Char) (data : List Nat) :
    (∀ (α : Type) (body : FileSt → GRes α),
      validate_glfd body f = (.error (osError EBADF), [])) ∧
    FileM.read sz fc s c data f = (.error (osError EBADF), []) ∧
    FileM.readinto c f = (.error (osError EBADF), []) ∧
    FileM.write c f = (.error (osError EBADF), []) ∧
    FileM.lseek c f = (.error (osError EBADF), []) ∧
    FileM.ftruncate c f = (.error (osError EBADF), []) ∧
    FileM.fsync c f = (.error (osError EBADF), []) ∧
    FileM.fdatasync c f = (.error (osError EBADF), []) ∧
    FileM.fallocate c f = (.error (osError EBADF), []) ∧
    FileM.discard c f = (.error (osError EBADF), []) ∧
    FileM.zerofill c f = (.error (osError EBADF), []) ∧
    FileM.fchmod c f = (.error (osError EBADF), []) ∧
    FileM.fchown c f = (.error (osError EBADF), []) ∧
    FileM.fstat c s f = (.error (osError EBADF), []) ∧
    FileM.fgetsize c s f = (.error (osError EBADF), []) ∧
    FileM.fgetxattr size sq c buf f = (.error (osError EBADF), []) ∧
    FileM.fsetxattr c f = (.error (osError EBADF), []) ∧
    FileM.fremovexattr c f = (.error (osError EBADF), []) ∧
    FileM.flistxattr size sq c bufl f = (.error (osError EBADF), []) ∧
    FileM.dup h f = (.error (osError EBADF), []) := by
  have hg : ∀ (α : Type) (body : FileSt → GRes α),
      validate_glfd body f = (.error (osError EBADF), []) := by
    intro α body
    simp [validate_glfd, hclosed, truthyFd]
  refine ⟨hg, ?_, ?_, ?_, ?_, ?_, ?_, ?_, ?_, ?_, ?_, ?_, ?_, ?_, ?_, ?_, ?_, ?_, ?_, ?_⟩ <;>
    apply hg

/-- C2 witness: a concrete closed File (fd None) raising EBADF from write
with no foreign call made. -/
theorem c2_closed_file_ebadf_witness :
    (⟨none⟩ : FileSt).fd = none ∧
    FileM.write ⟨9, 0⟩ ⟨none⟩ = (.error (osError EBADF), []) :=
  ⟨rfl,
   (c2_closed_file_ebadf ⟨none⟩ rfl ⟨9, 0⟩ ⟨0, 0⟩ ⟨0, 0⟩ ⟨none, 0⟩ ⟨0, 0, 0⟩ 0 0 "" [] []).2.2.2.1⟩

/-- C3: `mount()` on a Volume that is already mounted (handle set and
mounted flag true) returns immediately — no foreign call, state unchanged;
`umount()` on a Volume whose handle is unset returns immediately — no
foreign call, state unchanged; and a successful `umount()` clears both the
mounted flag and the handle, so a second `umount()` is a no-op. -/
theorem c3_mount_umount_idempotent (a : MountApi) (c c2 : CRet) (v w : VolSt)
    (hfs : v.fs.isSome = true) (hm : v.mounted = true)
    (hw : w.fs = none) (hc : ¬ c.ret < 0) :
    VolumeM.mount a v = (.ok (), v, []) ∧
    VolumeM.umount c2 w = (.ok (), w, []) ∧
    VolumeM.umount c v = (.ok (), { v with mounted := false, fs := none }, ["glfs_fini"]) ∧
    VolumeM.umount c2 { v with mounted := false, fs := none } =
      (.ok (), { v with mounted := false, fs := none }, []) := by
  refine ⟨?_, ?_, ?_, ?_⟩
  · simp [VolumeM.mount, hfs, hm]
  · simp [VolumeM.umount, hw]
  · simp [VolumeM.umount, hfs, hc]
  · simp [VolumeM.umount]

/-- C3 witness: a concrete mounted volume and a concrete unmounted one. -/
theorem c3_mount_umount_idempotent_witness :
    VolumeM.mount ⟨none, 1, -1, 1, -1, 1, -1, 1⟩
      ⟨some 4, true, "vol", "h", "tcp", 24007, "/dev/null", 7⟩ =
      (.ok (), ⟨some 4, true, "vol", "h", "tcp", 24007, "/dev/null", 7⟩, []) ∧
    VolumeM.umount ⟨0, 0⟩ ⟨none, false, "vol", "h", "tcp", 24007, "/dev/null", 7⟩ =
      (.ok (), ⟨none, false, "vol", "h", "tcp", 24007, "/dev/null", 7⟩, []) :=
  ⟨(c3_mount_umount_idempotent ⟨none, 1, -1, 1, -1, 1, -1, 1⟩ ⟨0, 0⟩ ⟨0, 0⟩
      ⟨some 4, true, "vol", "h", "tcp", 24007, "/dev/null", 7⟩
      ⟨none, false, "vol", "h", "tcp", 24007, "/dev/null", 7⟩
      rfl rfl rfl (by decide)).1,
   (c3_mount_umount_idempotent ⟨none, 1, -1, 1, -1, 1, -1, 1⟩ ⟨0, 0⟩ ⟨0, 0⟩
      ⟨some 4, true, "vol", "h", "tcp", 24007, "/dev/null", 7⟩
      ⟨none, false, "vol", "h", "tcp", 24007, "/dev/null", 7⟩
      rfl rfl rfl (by decide)).2.1⟩

/-- C4: on a Volume that is not mounted, if any of the four mount steps
fails (NULL from glfs_new, negative from glfs_set_volfile_server, negative
from glfs_set_logging, negative from glfs_init) then `mount()` raises
LibgfapiException and the `mounted` attribute is still False afterwards;
`mounted` becomes True exactly when all four steps succeed. -/
theorem c4_mount_failure_unmounted (a : MountApi) (v : VolSt)
    (hnm : v.mounted = false) :
    ((a.glfs_new = none ∨ a.set_volfile_server < 0 ∨ a.glfs_set_logging < 0 ∨
        a.glfs_init < 0) →
      (∃ msg, (VolumeM.mount a v).1 = .error (.libgfapi msg)) ∧
      (VolumeM.mount a v).2.1.mounted = false) ∧
    ((VolumeM.mount a v).2.1.mounted = true ↔
      (a.glfs_new ≠ none ∧ ¬ a.set_volfile_server < 0 ∧
        ¬ a.glfs_set_logging < 0 ∧ ¬ a.glfs_init < 0)) := by
  cases hn : a.glfs_new with
  | none =>
    constructor
    · intro _
      refine ⟨⟨"glfs_new(" ++ v.volname ++ ") failed: " ++ strerror a.new_errno, ?_⟩, ?_⟩ <;>
        simp [VolumeM.mount, hnm, hn]
    · simp [VolumeM.mount, hnm, hn]
  | some hdl =>
    by_cases hsvs : a.set_volfile_server < 0
    · constructor
      · intro _
        constructor
        · simp [VolumeM.mount, hnm, hn, hsvs]
        · simp [VolumeM.mount, hnm, hn, hsvs]
      · simp [VolumeM.mount, hnm, hn, hsvs]
    · by_cases hsl : a.glfs_set_logging < 0
      · constructor
        · intro _
          constructor
          · simp [VolumeM.mount, VolumeM.set_logging, hnm, hn, hsvs, hsl]
          · simp [VolumeM.mount, VolumeM.set_logging, hnm, hn, hsvs, hsl]
        · simp [VolumeM.mount, VolumeM.set_logging, hnm, hn, hsvs, hsl]
      · by_cases hini : a.glfs_init < 0
        · constructor
          · intro _
            constructor
            · simp [VolumeM.mount, VolumeM.set_logging, hnm, hn, hsvs, hsl, hini]
            · simp [VolumeM.mount, VolumeM.set_logging, hnm, hn, hsvs, hsl, hini]
          · simp [VolumeM.mount, VolumeM.set_logging, hnm, hn, hsvs, hsl, hini]
        · constructor
          · intro hfail
            rcases hfail with hf | hf | hf | hf
            · simp [hn] at hf
            · exact absurd hf hsvs
            · exact absurd hf hsl
            · exact absurd hf hini
          · simp [VolumeM.mount, VolumeM.set_logging, hnm, hn, hsvs, hsl, hini]

/-- C4 witness: a concrete unmounted volume whose glfs_init fails — mount
raises LibgfapiException and mounted stays False; and the successful run
flips mounted to True. -/
theorem c4_mount_failure_unmounted_witness :
    ((∃ msg, (VolumeM.mount ⟨some 4, 0, 0, 0, 0, 0, -1, 5⟩
        ⟨none, false, "v", "h", "tcp", 24007, "/dev/null", 7⟩).1 = .error (.libgfapi msg)) ∧
      (VolumeM.mount ⟨some 4, 0, 0, 0, 0, 0, -1, 5⟩
        ⟨none, false, "v", "h", "tcp", 24007, "/dev/null", 7⟩).2.1.mounted = false) ∧
    (VolumeM.mount ⟨some 4, 0, 0, 0, 0, 0, 0, 0⟩
        ⟨none, false, "v", "h", "tcp", 24007, "/dev/null", 7⟩).2.1.mounted = true :=
  ⟨(c4_mount_failure_unmounted ⟨some 4, 0, 0, 0, 0, 0, -1, 5⟩
      ⟨none, false, "v", "h", "tcp", 24007, "/dev/null", 7⟩ rfl).1
      (Or.inr (Or.inr (Or.inr (by decide)))),
   (c4_mount_failure_unmounted ⟨some 4, 0, 0, 0, 0, 0, 0, 0⟩
      ⟨none, false, "v", "h", "tcp", 24007, "/dev/null", 7⟩ rfl).2.mpr
      (by refine ⟨?_, ?_, ?_, ?_⟩ <;> decide)⟩

/-- C10 witness: a read of size 4 hitting EOF returns None. -/
theorem c10_read_eof_none_witness :
    FileM.read 4 (⟨0, 0⟩ : CRet) (⟨0, 0, 0⟩ : FileM.StatRec) (⟨0, 11⟩ : CRet)
      [1, 2] (⟨some 3⟩ : FileSt) = (.ok none, ["glfs_read"]) :=
  (c10_read_eof_none 4 ⟨0, 0⟩ ⟨0, 11⟩ ⟨0, 0, 0⟩ [1, 2] ⟨some 3⟩ rfl).1 (by decide) rfl

/-! ### Prefix algebra used by the copytree proofs -/

theorem under_trans {q p s : Path} (h1 : underB q p = true) (h2 : underB p s = true) :
    underB q s = true := by
  have hq : q.take p.length = p := by simpa [underB] using h1
  have hp : p.take s.length = s := by simpa [underB] using h2
  have hl1 : p.length ≤ q.length := by
    have := congrArg List.length hq
    rw [List.length_take] at this
    omega
  have hl2 : s.length ≤ p.length := by
    have := congrArg List.length hp
    rw [List.length_take] at this
    omega
  unfold underB
  apply beq_iff_eq.mpr
  calc q.take s.length = (q.take p.length).take s.length := by
        rw [List.take_take, Nat.min_eq_left hl2]
    _ = p.take s.length := by rw [hq]
    _ = s := hp

theorem under_comparable {q a b : Path} (ha : underB q a = true)
    (hb : underB q b = true) : underB a b = true ∨ underB b a = true := by
  have hqa : q.take a.length = a := by simpa [underB] using ha
  have hqb : q.take b.length = b := by simpa [underB] using hb
  rcases le_total b.length a.length with hl | hl
  · left
    unfold underB
    apply beq_iff_eq.mpr
    rw [← hqa, List.take_take, Nat.min_eq_left hl, hqb]
  · right
    unfold underB
    apply beq_iff_eq.mpr
    rw [← hqb, List.take_take, Nat.min_eq_left hl, hqa]

theorem underB_take (p : Path) (i : Nat) (h : i ≤ p.length) :
    underB p (p.take i) = true := by
  unfold underB
  apply beq_iff_eq.mpr
  rw [List.length_take, Nat.min_eq_left h]

theorem underB_child_name {p : Path} {a b : String}
    (h : underB (p ++ [a]) (p ++ [b]) = true) : a = b := by
  have heq := underB_eq_of_length h (by simp)
  have h2 := List.append_cancel_left heq
  simpa using h2

theorem not_under_dst_of_pfx {big q dst : Path} (hbig : underB big q = true)
    (h1 : underB big dst = false) : underB q dst = false := by
  cases h : underB q dst
  · rfl
  · exfalso
    have h2 := under_trans hbig h
    rw [h2] at h1
    exact Bool.noConfusion h1

theorem region_extend {src dst : Path} (hsd : underB src dst = false)
    (hds : underB dst src = false) (r : Path) :
    underB (src ++ r) dst = false ∧ underB dst (src ++ r) = false := by
  constructor
  · cases h : underB (src ++ r) dst
    · rfl
    · exfalso
      rcases under_comparable h (underB_append src r) with h1 | h2
      · rw [h1] at hds; exact Bool.noConfusion hds
      · rw [h2] at hsd; exact Bool.noConfusion hsd
  · cases h : underB dst (src ++ r)
    · rfl
    · exfalso
      have h2 := under_trans h (underB_append src r)
      rw [h2] at hds
      exact Bool.noConfusion hds

theorem wf_no_under_none {fs : FS} (hwf : fs.wf) {p : Path} (hp0 : p ≠ [])
    (hp : fs.lookup p = none) : ∀ r : Path, r ≠ [] → fs.lookup (p ++ r) = none := by
  intro r hr
  cases hl : fs.lookup (p ++ r) with
  | none => rfl
  | some m =>
    exfalso
    have hchain := wf_chain hwf hl
    have hd := hchain p.length (List.length_pos.mpr hp0) (by
      rw [List.length_append]
      have := List.length_pos.mpr hr
      omega)
    rw [List.take_left, hp] at hd
    exact Option.noConfusion hd

theorem child_of_lookup_append {fs : FS} (hwf : fs.wf) {p : Path} {c : String}
    {r : Path} {n : Node} (h : fs.lookup ((p ++ [c]) ++ r) = some n) :
    ∃ nd, (c, nd) ∈ fs.children p := by
  cases r with
  | nil => exact ⟨n, children_mem (by simpa using h)⟩
  | cons d m =>
    have hchain := wf_chain hwf h
    have hd := hchain (p.length + 1) (by omega) (by
      rw [List.length_append, List.length_append]
      simp)
    have hlc : (p ++ [c]).length = p.length + 1 := by simp
    rw [← hlc, List.take_left] at hd
    exact ⟨Node.dir, children_mem hd⟩

/-! ### Lemmas about `setFile` and insertion -/

theorem setFile_keys (fs : FS) (q : Path) (c : List Nat) :
    (FS.setFile fs q c).entries.map (fun e => e.1) =
      fs.entries.map (fun e => e.1) := by
  show (fs.entries.map _).map _ = _
  rw [List.map_map]
  apply List.map_congr_left
  intro e _
  show (if e.1 == q then (e.1, Node.file c) else e).1 = e.1
  by_cases h : e.1 = q <;> simp [h]

theorem lookupL_setGo (q : Path) (c : List Nat) :
    ∀ (l : List (Path × Node)) (r : Path),
      lookupL (l.map (fun e => if e.1 == q then (e.1, Node.file c) else e)) r =
        (lookupL l r).map (fun n => if r = q then Node.file c else n) := by
  intro l
  induction l with
  | nil => intro r; rfl
  | cons e t ih =>
    intro r
    rw [List.map_cons]
    by_cases heq : e.1 = q
    · rw [if_pos (by simp [heq])]
      show (if e.1 = r then some (Node.file c) else lookupL (t.map _) r) =
        ((if e.1 = r then some e.2 else lookupL t r).map _)
      by_cases her : e.1 = r
      · rw [if_pos her, if_pos her]
        show some (Node.file c) = some (if r = q then Node.file c else e.2)
        rw [if_pos (by rw [← her, heq])]
      · rw [if_neg her, if_neg her]
        exact ih r
    · rw [if_neg (by simp [heq])]
      show (if e.1 = r then some e.2 else lookupL (t.map _) r) =
        ((if e.1 = r then some e.2 else lookupL t r).map _)
      by_cases her : e.1 = r
      · rw [if_pos her, if_pos her]
        show some e.2 = some (if r = q then Node.file c else e.2)
        rw [if_neg (fun hc => heq (her.trans hc))]
      · rw [if_neg her, if_neg her]
        exact ih r

theorem lookup_setFile (fs : FS) (q : Path) (c : List Nat) (r : Path) :
    FS.lookup (FS.setFile fs q c) r =
      (fs.lookup r).map (fun n => if r = q then Node.file c else n) :=
  lookupL_setGo q c fs.entries r

theorem wf_setFile {fs : FS} (hwf : fs.wf) {q : Path} {c0 : List Nat}
    (hq : fs.lookup q = some (Node.file c0)) (c : List Nat) :
    (FS.setFile fs q c).wf := by
  constructor
  · rw [setFile_keys]
    exact hwf.1
  · intro e hmem
    rcases List.mem_map.mp hmem with ⟨e0, hmem0, he0⟩
    have hold := hwf.2 e0 hmem0
    have hkey : e.1 = e0.1 := by
      rw [← he0]
      by_cases h : e0.1 = q <;> simp [h]
    rw [hkey]
    refine ⟨hold.1, ?_⟩
    rcases hold.2 with hroot | hdir
    · exact Or.inl hroot
    · right
      rw [show (FS.setFile fs q c).lookup e0.1.dropLast =
          FS.lookup (FS.setFile fs q c) e0.1.dropLast from rfl,
        lookup_setFile, hdir]
      show some (if e0.1.dropLast = q then Node.file c else Node.dir) = some Node.dir
      rw [if_neg ?_]
      intro hcon
      rw [hcon, hq] at hdir
      exact Option.noConfusion hdir (fun h => Node.noConfusion h)

theorem mem_setFile_of_ne {fs : FS} {e : Path × Node} (hmem : e ∈ fs.entries)
    {q : Path} (hne : e.1 ≠ q) (c : List Nat) :
    e ∈ (FS.setFile fs q c).entries :=
  List.mem_map.mpr ⟨e, hmem, by rw [if_neg (by simp [hne])]⟩

theorem mem_setFile_cases {fs : FS} {e : Path × Node} {q : Path} {c : List Nat}
    (hmem : e ∈ (FS.setFile fs q c).entries) :
    e ∈ fs.entries ∨ e = (q, Node.file c) := by
  rcases List.mem_map.mp hmem with ⟨e0, hmem0, he0⟩
  by_cases h : e0.1 = q
  · right
    rw [← he0, if_pos (by simp [h]), h]
  · left
    rw [← he0, if_neg (by simp [h])]
    exact hmem0

theorem setFile_self {fs : FS} (hnd : (fs.entries.map (fun e => e.1)).Nodup)
    {q : Path} {c : List Nat} (hq : fs.lookup q = some (Node.file c)) :
    FS.setFile fs q c = fs := by
  obtain ⟨l⟩ := fs
  show (⟨l.map _⟩ : FS) = ⟨l⟩
  congr 1
  have hid : ∀ e ∈ l, (if e.1 == q then (e.1, Node.file c) else e) = e := by
    intro e hmem
    by_cases h : e.1 = q
    · have hl := lookup_eq_some_of_mem hnd (show (e.1, e.2) ∈ l from hmem)
      rw [h] at hl
      have he2 : e.2 = Node.file c := by
        have := hl.symm.trans hq
        exact Option.some.inj this
      rw [if_pos (by simp [h])]
      exact Prod.ext rfl he2.symm
    · rw [if_neg (by simp [h])]
  calc l.map (fun e => if e.1 == q then (e.1, Node.file c) else e)
      = l.map id := List.map_congr_left hid
    _ = l := List.map_id l

theorem setFile_setFile (fs : FS) (q : Path) (c1 c2 : List Nat) :
    FS.setFile (FS.setFile fs q c1) q c2 = FS.setFile fs q c2 := by
  obtain ⟨l⟩ := fs
  show (⟨(l.map _).map _⟩ : FS) = ⟨l.map _⟩
  congr 1
  rw [List.map_map]
  apply List.map_congr_left
  intro e _
  by_cases h : e.1 = q <;> simp [h]

theorem setFile_insert_fresh {fs : FS} {q : Path} (hq : fs.lookup q = none)
    (c : List Nat) :
    FS.setFile ⟨(q, Node.file []) :: fs.entries⟩ q c =
      ⟨(q, Node.file c) :: fs.entries⟩ := by
  show (⟨((q, Node.file []) :: fs.entries).map _⟩ : FS) = _
  rw [List.map_cons]
  congr 2
  · rw [if_pos (by simp)]
  · have hid : ∀ e ∈ fs.entries,
        (if e.1 == q then (e.1, Node.file c) else e) = e := by
      intro e hmem
      rw [if_neg ?_]
      intro hcon
      have h : e.1 = q := by simpa using hcon
      exact not_mem_of_lookup_eq_none hq e.2 (by rw [← h]; exact hmem)
    calc fs.entries.map (fun e => if e.1 == q then (e.1, Node.file c) else e)
        = fs.entries.map id := List.map_congr_left hid
      _ = fs.entries := List.map_id _

theorem wf_insert_any {fs : FS} (hwf : fs.wf) {p : Path} (n : Node) (hp0 : p ≠ [])
    (hnew : fs.lookup p = none)
    (hpar : p.dropLast = [] ∨ fs.lookup p.dropLast = some Node.dir) :
    FS.wf ⟨(p, n) :: fs.entries⟩ := by
  constructor
  · simp only [List.map_cons, List.nodup_cons]
    constructor
    · intro hmem
      rcases List.mem_map.mp hmem with ⟨e, hmem2, he⟩
      obtain ⟨e1, e2⟩ := e
      cases he
      exact not_mem_of_lookup_eq_none hnew e2 hmem2
    · exact hwf.1
  · intro e hmem
    rcases List.mem_cons.mp hmem with he | ht
    · rw [he]
      refine ⟨hp0, ?_⟩
      rcases hpar with hroot | hdir
      · exact Or.inl hroot
      · right
        rw [lookup_insert, if_neg ?_]
        · exact hdir
        · intro hcontra
          have h1 := List.length_dropLast p
          rw [← hcontra] at h1
          have : p.length = 0 := by omega
          exact hp0 (List.length_eq_zero.mp this)
    · have hold := hwf.2 e ht
      refine ⟨hold.1, ?_⟩
      rcases hold.2 with hroot | hdir
      · exact Or.inl hroot
      · right
        rw [lookup_insert, if_neg ?_]
        · exact hdir
        · intro hcontra
          rw [← hcontra, hnew] at hdir
          exact Option.noConfusion hdir

theorem descCount_le_of_mem_subset {fs1 fs : FS}
    (hnd1 : (fs1.entries.map (fun e => e.1)).Nodup) (p : Path)
    (h : ∀ e ∈ fs1.entries, strictUnderB e.1 p = true → e ∈ fs.entries) :
    descCount fs1 p ≤ descCount fs p := by
  unfold descCount
  have hnodup : (fs1.entries.filter (fun e => strictUnderB e.1 p)).Nodup :=
    (List.Nodup.of_map _ hnd1).filter _
  have hsub : ∀ e ∈ fs1.entries.filter (fun e => strictUnderB e.1 p),
      e ∈ fs.entries.filter (fun e => strictUnderB e.1 p) := by
    intro e hmem
    have h1 := List.mem_of_mem_filter hmem
    have h2 : strictUnderB e.1 p = true := by
      have := List.of_mem_filter hmem
      simpa using this
    exact List.mem_filter.mpr ⟨h e h1 h2, h2⟩
  calc (fs1.entries.filter (fun e => strictUnderB e.1 p)).length
      = (fs1.entries.filter (fun e => strictUnderB e.1 p)).toFinset.card :=
        (List.toFinset_card_of_nodup hnodup).symm
    _ ≤ (fs.entries.filter (fun e => strictUnderB e.1 p)).toFinset.card :=
        Finset.card_le_card (fun x hx =>
          List.mem_toFinset.mpr (hsub x (List.mem_toFinset.mp hx)))
    _ ≤ (fs.entries.filter (fun e => strictUnderB e.1 p)).length :=
        List.toFinset_card_le _

/-! ### Single-step characterizations of the operations `copytree` uses -/

theorem dirChain_dropLast {fs : FS} {p : Path} (hchain : dirChain fs p) :
    dirChain fs p.dropLast := by
  intro i hi0 hil
  have hlenp : p.dropLast.length = p.length - 1 := List.length_dropLast p
  rw [take_dropLast _ i (by omega)]
  exact hchain i hi0 (by omega)

theorem dirChain_parent {fs : FS} {p : Path} (hp0 : p ≠ []) (hchain : dirChain fs p) :
    p.dropLast = [] ∨ fs.lookup p.dropLast = some Node.dir := by
  by_cases hd : p.dropLast = []
  · exact Or.inl hd
  · right
    have hlenp : p.dropLast.length = p.length - 1 := List.length_dropLast p
    have hdl : 0 < p.dropLast.length := List.length_pos.mpr hd
    have := hchain (p.length - 1) (by omega)
      (by have := List.length_pos.mpr hp0; omega)
    rw [← List.dropLast_eq_take] at this
    exact this

/-- When the parent of `p` already exists as a directory (or is the root),
`makedirs` performs the single leaf `mkdir`, creating `p`. -/
theorem makedirs_single {fs : FS} {rfuel : Nat} (hrf : 1 ≤ rfuel) {p : Path}
    (hp0 : p ≠ []) (hchain : dirChain fs p) (hnone : fs.lookup p = none) :
    VolFS.makedirs fs rfuel p = (⟨(p, Node.dir) :: fs.entries⟩, none) := by
  have hguard : ¬ (p.dropLast ≠ [] ∧ p.getLastD "" ≠ "" ∧
      ¬ VolFS.existsP fs rfuel p.dropLast = true) := by
    by_cases hd : p.dropLast = []
    · intro h
      exact h.1 hd
    · intro h
      have hlenp : p.dropLast.length = p.length - 1 := List.length_dropLast p
      have hdl : 0 < p.dropLast.length := List.length_pos.mpr hd
      have hlast : fs.lookup p.dropLast = some Node.dir := by
        have := hchain (p.length - 1) (by omega)
          (by have := List.length_pos.mpr hp0; omega)
        rw [← List.dropLast_eq_take] at this
        exact this
      exact h.2.2 (existsP_of_ok (statN_chain_some rfuel hrf hd
        (dirChain_dropLast hchain) hlast (fun t h2 => Node.noConfusion h2)))
  rw [VolFS.makedirs, dif_neg hguard]
  exact mkdirM_none hrf hp0 hchain hnone

theorem statN_resolved {fs : FS} (fuel : Nat) {p rs : Path} {n : Node}
    (hreal : FS.realize fs fuel p = some rs) (hrs0 : rs ≠ [])
    (hl : fs.lookup rs = some n) : FS.statN fs fuel p = .ok n := by
  simp [FS.statN, hreal, hrs0, hl]

theorem readdirOp_resolved {fs : FS} (fuel : Nat) {p rs : Path}
    (hreal : FS.realize fs fuel p = some rs) (hrs0 : rs ≠ [])
    (hdir : fs.lookup rs = some Node.dir) :
    FS.readdirOp fs fuel p = .ok (fs.children rs) := by
  simp [FS.readdirOp, hreal, hrs0, hdir]

theorem fopenR_resolved {fs : FS} (fuel : Nat) {p rs : Path} {c : List Nat}
    (hreal : FS.realize fs fuel p = some rs)
    (hfile : fs.lookup rs = some (Node.file c)) :
    FS.fopenR fs fuel p = .ok ⟨rs, 0⟩ := by
  simp [FS.fopenR, hreal, hfile]

theorem isdir_resolved {fs : FS} (fuel : Nat) {p rs : Path} {n : Node}
    (hreal : FS.realize fs fuel p = some rs) (hrs0 : rs ≠ [])
    (hl : fs.lookup rs = some n) :
    VolFS.isdir fs fuel p = VolFS.entryIsDir n := by
  rw [VolFS.isdir, statN_resolved fuel hreal hrs0 hl]
  cases n <;> rfl

theorem utimeM_ok {fs : FS} {fuel : Nat} {p : Path} {n : Node}
    (h : FS.statN fs fuel p = .ok n) : VolFS.utimeM fs fuel p = none := by
  simp [VolFS.utimeM, h]

theorem chmodM_ok {fs : FS} {fuel : Nat} {p : Path} {n : Node}
    (h : FS.statN fs fuel p = .ok n) : VolFS.chmodM fs fuel p = none := by
  simp [VolFS.chmodM, h]

theorem fopenW_create {fs : FS} (rfuel : Nat) (hrf : 1 ≤ rfuel) {p : Path}
    (hp0 : p ≠ []) (hchain : dirChain fs p) (hnone : fs.lookup p = none) :
    FS.fopenW fs rfuel p = .ok (⟨(p, Node.file []) :: fs.entries⟩, ⟨p, 0⟩) := by
  have hreal : FS.realize fs rfuel p = some p :=
    realize_chain fs rfuel p hrf hchain
      (by intro t h; rw [hnone] at h; exact Option.noConfusion h)
  have hpar : p.dropLast = [] ∨ fs.lookup p.dropLast = some Node.dir :=
    dirChain_parent hp0 hchain
  simp only [FS.fopenW, hreal]
  rw [if_neg hp0]
  simp only [hnone]
  rw [if_pos hpar]

theorem readlinkOp_chain {fs : FS} (fuel : Nat) (hf : 1 ≤ fuel) {p : Path}
    (hp0 : p ≠ []) (hchain : dirChain fs p) :
    FS.readlinkOp fs fuel p =
      (match fs.lookup p with
       | some (Node.symlink t) => .ok t
       | some _ => .error EINVAL
       | none => .error ENOENT) := by
  have hlp := lpath_chain fuel hf hp0 hchain
  simp only [FS.readlinkOp, hlp]

theorem symlinkOp_chain {fs : FS} (fuel : Nat) (hf : 1 ≤ fuel) {p : Path}
    (hp0 : p ≠ []) (hchain : dirChain fs p) (hnone : fs.lookup p = none)
    (src : Path) :
    FS.symlinkOp fs fuel src p = .ok ⟨(p, Node.symlink src) :: fs.entries⟩ := by
  have hlp := lpath_chain fuel hf hp0 hchain
  obtain ⟨c, t, rfl⟩ : ∃ c t, p = c :: t := by
    cases p with
    | nil => exact absurd rfl hp0
    | cons c t => exact ⟨c, t, rfl⟩
  simp only [FS.symlinkOp, hlp, hnone]

/-! ### Resolution across one symbolic-link hop -/

theorem chase_symlink_once {fs : FS} {fuel : Nat} (hf : 2 ≤ fuel) {p t : Path}
    (hp : fs.lookup p = some (Node.symlink t))
    (ht : ∀ s, fs.lookup t ≠ some (Node.symlink s)) :
    FS.chase fs fuel p = some t := by
  obtain ⟨f, rfl⟩ : ∃ f, fuel = f + 1 := ⟨fuel - 1, by omega⟩
  show (match fs.lookup p with
    | some (Node.symlink t) => FS.chase fs f t
    | _ => some p) = some t
  rw [hp]
  exact chase_not_symlink fs f t (by omega) ht

theorem realizeGo_cons_dir (fs : FS) (fuel : Nat) (hf : 1 ≤ fuel) (base : Path)
    (c : String) (rest : Path) (hrest : rest ≠ [])
    (hdir : fs.lookup (base ++ [c]) = some Node.dir) :
    FS.realizeGo fs fuel base (c :: rest) = FS.realizeGo fs fuel (base ++ [c]) rest := by
  simp only [FS.realizeGo]
  rw [chase_not_symlink fs fuel (base ++ [c]) hf
    (by intro s h; rw [hdir] at h; exact Option.noConfusion h (fun h2 => Node.noConfusion h2))]
  cases rest with
  | nil => exact absurd rfl hrest
  | cons d m =>
    show (if base ++ [c] = [] then FS.realizeGo fs fuel [] (d :: m)
      else match fs.lookup (base ++ [c]) with
        | some Node.dir => FS.realizeGo fs fuel (base ++ [c]) (d :: m)
        | _ => none) = _
    rw [if_neg (by simp), hdir]

theorem realizeGo_hop (fs : FS) (rfuel : Nat) (hrf : 2 ≤ rfuel) :
    ∀ (A base : Path) (a : String) (B t : Path),
      (∀ j : Nat, 0 < j → j < (A ++ [a]).length →
        fs.lookup (base ++ (A ++ [a]).take j) = some Node.dir) →
      fs.lookup (base ++ (A ++ [a])) = some (Node.symlink t) →
      t ≠ [] →
      (B ≠ [] → fs.lookup t = some Node.dir) →
      (∀ i : Nat, 0 < i → i < B.length → fs.lookup (t ++ B.take i) = some Node.dir) →
      (∀ s, fs.lookup (t ++ B) ≠ some (Node.symlink s)) →
      FS.realizeGo fs rfuel base ((A ++ [a]) ++ B) = some (t ++ B) := by
  intro A
  induction A with
  | nil =>
    intro base a B t hmid hsym ht0 htd hBmid hBns
    show FS.realizeGo fs rfuel base (a :: B) = some (t ++ B)
    simp only [FS.realizeGo]
    have hch : FS.chase fs rfuel (base ++ [a]) = some t := by
      apply chase_symlink_once hrf (by simpa using hsym)
      intro s
      cases hB0 : B with
      | nil =>
        have := hBns s
        rw [hB0] at this
        simpa using this
      | cons d m =>
        intro hcon
        rw [htd (by rw [hB0]; simp)] at hcon
        exact Option.noConfusion hcon (fun h2 => Node.noConfusion h2)
    rw [hch]
    cases B with
    | nil =>
      show some t = some (t ++ [])
      rw [List.append_nil]
    | cons d m =>
      show (if t = [] then FS.realizeGo fs rfuel [] (d :: m)
        else match fs.lookup t with
          | some Node.dir => FS.realizeGo fs rfuel t (d :: m)
          | _ => none) = some (t ++ d :: m)
      rw [if_neg ht0, htd (by simp)]
      show FS.realizeGo fs rfuel t (d :: m) = some (t ++ d :: m)
      exact realizeGo_chain fs rfuel (by omega) (d :: m) t
        (fun j hj0 hjl => hBmid j hj0 hjl) (fun _ s => hBns s)
  | cons x A2 ihA =>
    intro base a B t hmid hsym ht0 htd hBmid hBns
    have hx : fs.lookup (base ++ [x]) = some Node.dir := by
      have := hmid 1 (by omega) (by simp)
      simpa using this
    rw [show ((x :: A2) ++ [a]) ++ B = x :: ((A2 ++ [a]) ++ B) from by simp]
    rw [realizeGo_cons_dir fs rfuel (by omega) base x ((A2 ++ [a]) ++ B) (by simp) hx]
    apply ihA (base ++ [x]) a B t ?_ ?_ ht0 htd hBmid hBns
    · intro j hj0 hjl
      have := hmid (j + 1) (by omega) (by simp at hjl ⊢; omega)
      rw [show (x :: A2) ++ [a] = x :: (A2 ++ [a]) from by simp] at this
      rw [List.take_succ_cons] at this
      simpa [List.append_assoc] using this
    · have := hsym
      rw [show (x :: A2) ++ [a] = x :: (A2 ++ [a]) from by simp] at this
      simpa [List.append_assoc] using this

theorem realize_shape {fs : FS} (rfuel : Nat) (hrf : 2 ≤ rfuel) (hwf : fs.wf)
    {src rsrc : Path} (hshape : srcShape fs src rsrc) (hr0 : rsrc ≠ [])
    (hrns : ∀ s, fs.lookup rsrc ≠ some (Node.symlink s)) :
    FS.realize fs rfuel src = some rsrc := by
  rcases hshape with ⟨hrs, hchain⟩ | ⟨A, a, B, t, hsrc, hchainA, hsym, hrs, hB⟩
  · rw [hrs]
    exact realize_chain fs rfuel src (by omega) hchain (by rw [← hrs]; exact hrns)
  · have ht0 : t ≠ [] := by
      intro hcon
      cases hB0 : B with
      | nil =>
        rw [hB0, List.append_nil] at hrs
        rw [hrs] at hr0
        exact hr0 hcon
      | cons d m =>
        have := hB 0 (by rw [hB0]; simp)
        rw [hcon] at this
        simp only [List.take_zero, List.append_nil, List.nil_append] at this
        rw [wf_lookup_nil hwf] at this
        exact Option.noConfusion this
    have hmain := realizeGo_hop fs rfuel hrf A [] a B t
      (by
        intro j hj0 hjl
        have := hchainA j hj0 hjl
        simpa using this)
      (by simpa using hsym)
      ht0
      (by
        intro hBne
        have := hB 0 (by cases B with
          | nil => exact absurd rfl hBne
          | cons d m => simp)
        simpa using this)
      (fun i hi0 hil => hB i hil)
      (by rw [← hrs]; exact hrns)
    rw [hsrc, hrs]
    show FS.realizeGo fs rfuel [] ((A ++ [a]) ++ B) = some (t ++ B)
    exact hmain

theorem srcShape_frame {fs1 fs : FS} {dst src rsrc : Path}
    (hagree : ∀ q, underB q dst = false → fs1.lookup q = fs.lookup q)
    (hsd : underB src dst = false) (hrd : underB rsrc dst = false)
    (hshape : srcShape fs src rsrc) : srcShape fs1 src rsrc := by
  have hpfx : ∀ q : Path, underB src q = true → fs1.lookup q = fs.lookup q :=
    fun q hq => hagree q (not_under_dst_of_pfx hq hsd)
  have hpfxR : ∀ q : Path, underB rsrc q = true → fs1.lookup q = fs.lookup q :=
    fun q hq => hagree q (not_under_dst_of_pfx hq hrd)
  rcases hshape with ⟨hrs, hchain⟩ | ⟨A, a, B, t, hsrc, hchainA, hsym, hrs, hB⟩
  · left
    refine ⟨hrs, ?_⟩
    intro i hi0 hil
    rw [hpfx (src.take i) (underB_take src i (by omega))]
    exact hchain i hi0 hil
  · right
    refine ⟨A, a, B, t, hsrc, ?_, ?_, hrs, ?_⟩
    · intro i hi0 hil
      rw [hpfx ((A ++ [a]).take i)
        (under_trans (by rw [hsrc]; exact underB_append _ _)
          (underB_take _ i (by omega)))]
      exact hchainA i hi0 hil
    · rw [hpfx (A ++ [a]) (by rw [hsrc]; exact underB_append _ _)]
      exact hsym
    · intro i hil
      have htk : (t ++ B).take (t.length + i) = t ++ B.take i := by
        rw [List.take_append]
      rw [hpfxR (t ++ B.take i) ?_]
      · exact hB i hil
      · rw [hrs, ← htk]
        exact underB_take _ _ (by simp; omega)

/-! ### Lemmas about the dereferenced view -/

theorem derefView_cons (fs : FS) (base : Path) (c : String) (rest : Path) :
    derefView fs base (c :: rest) =
      (match fs.lookup (base ++ [c]) with
       | some (Node.symlink t) => derefView fs t rest
       | _ => derefView fs (base ++ [c]) rest) := rfl

theorem derefView_none_under {fs : FS} :
    ∀ (r base : Path),
      (∀ r2 : Path, r2 ≠ [] → fs.lookup (base ++ r2) = none) →
      r ≠ [] → derefView fs base r = none := by
  intro r
  induction r with
  | nil =>
    intro base _ h
    exact absurd rfl h
  | cons c rest ih =>
    intro base hnone _
    have hc : fs.lookup (base ++ [c]) = none := hnone [c] (by simp)
    rw [derefView_cons, hc]
    show derefView fs (base ++ [c]) rest = none
    cases rest with
    | nil =>
      show fs.lookup (base ++ [c]) = none
      exact hc
    | cons d m =>
      apply ih (base ++ [c]) ?_ (by simp)
      intro r2 hr2
      rw [List.append_assoc]
      exact hnone ([c] ++ r2) (by simp)

theorem derefView_under_nondir {fs : FS} (hwf : fs.wf) {base : Path} {n : Node}
    (hl : fs.lookup base = some n) (hnd : n ≠ Node.dir) {r : Path} (hr : r ≠ []) :
    derefView fs base r = none :=
  derefView_none_under r base (wf_no_under_nondir hwf hl hnd) hr

theorem derefView_under_none {fs : FS} (hwf : fs.wf) {base : Path} (hb0 : base ≠ [])
    (hl : fs.lookup base = none) (r : Path) : derefView fs base r = none := by
  cases r with
  | nil => exact hl
  | cons c m =>
    exact derefView_none_under (c :: m) base (wf_no_under_none hwf hb0 hl) (by simp)

/-- The dereferenced view of a region whose symbolic links avoid the
destination is unchanged by modifications confined to the destination. -/
theorem derefView_agree {fs1 fs : FS} {dst : Path}
    (hagree : ∀ q, underB q dst = false → fs1.lookup q = fs.lookup q) :
    ∀ (r base : Path), underB base dst = false → underB dst base = false →
      (∀ q t, strictUnderB q base = true → fs.lookup q = some (Node.symlink t) →
        underB t dst = false ∧ underB dst t = false ∧
        (∀ q2 t2, strictUnderB q2 t = true →
          fs.lookup q2 ≠ some (Node.symlink t2))) →
      derefView fs1 base r = derefView fs base r := by
  intro r
  induction r with
  | nil =>
    intro base hbd _ _
    show fs1.lookup base = fs.lookup base
    exact hagree base hbd
  | cons c rest ih =>
    intro base hbd hdb hsyms
    have hnotund : underB (base ++ [c]) dst = false := by
      cases h : underB (base ++ [c]) dst
      · rfl
      · exfalso
        rcases under_comparable h (underB_append base [c]) with h1 | h2
        · rw [h1] at hdb; exact Bool.noConfusion hdb
        · rw [h2] at hbd; exact Bool.noConfusion hbd
    have hdb2 : underB dst (base ++ [c]) = false := by
      cases h : underB dst (base ++ [c])
      · rfl
      · exfalso
        have h2 := under_trans h (underB_append base [c])
        rw [h2] at hdb
        exact Bool.noConfusion hdb
    have hlc : fs1.lookup (base ++ [c]) = fs.lookup (base ++ [c]) :=
      hagree _ hnotund
    have hstrict : strictUnderB (base ++ [c]) base = true := by
      unfold strictUnderB
      simp [underB_append]
    have hcont : derefView fs1 (base ++ [c]) rest = derefView fs (base ++ [c]) rest := by
      apply ih (base ++ [c]) hnotund hdb2
      intro q t hq hlq
      exact hsyms q t (strictUnderB_child hq) hlq
    rw [derefView_cons, derefView_cons, hlc]
    cases hl : fs.lookup (base ++ [c]) with
    | none => exact hcont
    | some n =>
      cases n with
      | file cont => exact hcont
      | dir => exact hcont
      | symlink t =>
        have hc := hsyms (base ++ [c]) t hstrict hl
        show derefView fs1 t rest = derefView fs t rest
        apply ih t hc.1 hc.2.1
        intro q2 t2 hq2 hl2
        exact absurd hl2 (hc.2.2 q2 t2 hq2)

/-! ### The chunked file-copy loop -/

theorem copyfileobj_ok (sp dp : Path) (hne : sp ≠ dp) (cs : List Nat) :
    ∀ (fuel : Nat) (fs : FS) (k : Nat),
      (fs.entries.map (fun e => e.1)).Nodup →
      fs.lookup sp = some (Node.file cs) →
      fs.lookup dp = some (Node.file (cs.take k)) →
      k ≤ cs.length →
      cs.length - k + 1 ≤ fuel →
      FS.copyfileobj fuel fs ⟨sp, k⟩ ⟨dp, k⟩ COPYBUF =
        some (.ok (FS.setFile fs dp cs, ⟨sp, cs.length⟩, ⟨dp, cs.length⟩)) := by
  intro fuel
  induction fuel with
  | zero =>
    intro fs k _ _ _ hk hf
    omega
  | succ f ih =>
    intro fs k hnd hsp hdp hk hf
    have hread : FS.readN fs ⟨sp, k⟩ COPYBUF =
        .ok ((cs.drop k).take COPYBUF,
          ⟨sp, k + ((cs.drop k).take COPYBUF).length⟩) := by
      simp [FS.readN, hsp]
    rw [show FS.copyfileobj (f + 1) fs ⟨sp, k⟩ ⟨dp, k⟩ COPYBUF =
      (match FS.readN fs ⟨sp, k⟩ COPYBUF with
       | .error e => some (.error e)
       | .ok (bytes, hsrc2) =>
         if bytes.length = 0 then some (.ok (fs, hsrc2, ⟨dp, k⟩))
         else match FS.writeN fs ⟨dp, k⟩ bytes with
           | .error e => some (.error e)
           | .ok (fs2, hdst2) => FS.copyfileobj f fs2 hsrc2 hdst2 COPYBUF) from rfl]
    rw [hread]
    show (if ((cs.drop k).take COPYBUF).length = 0 then
        some (Except.ok (fs,
          (⟨sp, k + ((cs.drop k).take COPYBUF).length⟩ : FS.FHandle),
          (⟨dp, k⟩ : FS.FHandle)))
      else match FS.writeN fs ⟨dp, k⟩ ((cs.drop k).take COPYBUF) with
        | .error e => some (.error e)
        | .ok (fs2, hdst2) =>
          FS.copyfileobj f fs2 ⟨sp, k + ((cs.drop k).take COPYBUF).length⟩
            hdst2 COPYBUF) = _
    have hblen : ((cs.drop k).take COPYBUF).length = min COPYBUF (cs.length - k) := by
      rw [List.length_take, List.length_drop]
    by_cases hkend : k = cs.length
    · have hb : ((cs.drop k).take COPYBUF).length = 0 := by
        rw [hblen]
        omega
      rw [if_pos hb, hb]
      have hdp2 : fs.lookup dp = some (Node.file cs) := by
        rw [hdp, hkend, List.take_length]
      rw [setFile_self hnd hdp2]
      simp [hkend]
    · have hklt : k < cs.length := by omega
      have hbpos : 0 < ((cs.drop k).take COPYBUF).length := by
        rw [hblen]
        have hc : 0 < COPYBUF := by decide
        omega
      rw [if_neg (by omega)]
      have hcontent : (cs.take k).take k ++ (cs.drop k).take COPYBUF ++
          (cs.take k).drop (k + ((cs.drop k).take COPYBUF).length) =
          cs.take (k + ((cs.drop k).take COPYBUF).length) := by
        have h1 : (cs.take k).take k = cs.take k :=
          List.take_of_length_le (by rw [List.length_take]; omega)
        have h2 : (cs.take k).drop (k + ((cs.drop k).take COPYBUF).length) = [] :=
          List.drop_eq_nil_of_le (by rw [List.length_take]; omega)
        rw [h1, h2, List.append_nil]
        have hbeq : (cs.drop k).take COPYBUF =
            (cs.drop k).take (min COPYBUF (cs.length - k)) := by
          rcases le_total COPYBUF (cs.length - k) with hle | hge
          · rw [Nat.min_eq_left hle]
          · have e1 : (cs.drop k).take COPYBUF = cs.drop k :=
              List.take_of_length_le (by rw [List.length_drop]; omega)
            have e2 : (cs.drop k).take (min COPYBUF (cs.length - k)) = cs.drop k :=
              List.take_of_length_le (by rw [List.length_drop]; omega)
            rw [e1, e2]
        rw [List.take_add]
        rw [hblen, hbeq]
      have hwrite : FS.writeN fs ⟨dp, k⟩ ((cs.drop k).take COPYBUF) =
          .ok (FS.setFile fs dp (cs.take (k + ((cs.drop k).take COPYBUF).length)),
            ⟨dp, k + ((cs.drop k).take COPYBUF).length⟩) := by
        simp only [FS.writeN, hdp]
        rw [hcontent]
      rw [hwrite]
      show FS.copyfileobj f
        (FS.setFile fs dp (cs.take (k + ((cs.drop k).take COPYBUF).length)))
        ⟨sp, k + ((cs.drop k).take COPYBUF).length⟩
        ⟨dp, k + ((cs.drop k).take COPYBUF).length⟩ COPYBUF = _
      have hih := ih (FS.setFile fs dp (cs.take (k + ((cs.drop k).take COPYBUF).length)))
        (k + ((cs.drop k).take COPYBUF).length)
        (by rw [setFile_keys]; exact hnd)
        (by rw [lookup_setFile, hsp]; simp [hne])
        (by rw [lookup_setFile, hdp]; simp)
        (by rw [hblen]; omega)
        (by rw [hblen]; omega)
      rw [hih, setFile_setFile]

/-- The whole file-copy arm: on a plain destination chain with an absent
leaf, the source file's bytes end up at the destination, as a fresh entry
in front. -/
theorem copyFileInto_ok {fs : FS} (rfuel : Nat) (hrf : 1 ≤ rfuel) (hwf : fs.wf)
    {srcp dstp rs : Path} {c : List Nat}
    (hreal : FS.realize fs rfuel srcp = some rs)
    (hfile : fs.lookup rs = some (Node.file c))
    (hd0 : dstp ≠ []) (hchainD : dirChain fs dstp) (hdnone : fs.lookup dstp = none)
    (hne : rs ≠ dstp) :
    VolFS.copyFileInto fs rfuel srcp dstp = .ok ⟨(dstp, Node.file c) :: fs.entries⟩ := by
  have hfR := fopenR_resolved rfuel hreal hfile
  have hfW := fopenW_create rfuel hrf hd0 hchainD hdnone
  have hnd1 : ((⟨(dstp, Node.file []) :: fs.entries⟩ : FS).entries.map
      (fun e => e.1)).Nodup :=
    (wf_insert_any hwf (Node.file []) hd0 hdnone (dirChain_parent hd0 hchainD)).1
  have hsp1 : FS.lookup ⟨(dstp, Node.file []) :: fs.entries⟩ rs = some (Node.file c) := by
    rw [lookup_insert, if_neg (fun h => hne h.symm)]
    exact hfile
  have hdp1 : FS.lookup ⟨(dstp, Node.file []) :: fs.entries⟩ dstp =
      some (Node.file (c.take 0)) := by
    rw [lookup_insert, if_pos rfl]
    rfl
  have hsize : VolFS.srcFileSize ⟨(dstp, Node.file []) :: fs.entries⟩ rs = c.length := by
    simp [VolFS.srcFileSize, hsp1]
  have hcopy := copyfileobj_ok rs dstp hne c
    (VolFS.srcFileSize ⟨(dstp, Node.file []) :: fs.entries⟩ rs + 2)
    ⟨(dstp, Node.file []) :: fs.entries⟩ 0 hnd1 hsp1 hdp1 (by omega)
    (by rw [hsize]; omega)
  have hfs2 : FS.setFile ⟨(dstp, Node.file []) :: fs.entries⟩ dstp c =
      ⟨(dstp, Node.file c) :: fs.entries⟩ := setFile_insert_fresh hdnone c
  have hchain2 : dirChain ⟨(dstp, Node.file c) :: fs.entries⟩ dstp := by
    intro i hi0 hil
    rw [lookup_insert, if_neg ?_]
    · exact hchainD i hi0 hil
    · intro hcon
      have := congrArg List.length hcon
      rw [List.length_take] at this
      omega
  have hstat : FS.statN ⟨(dstp, Node.file c) :: fs.entries⟩ rfuel dstp =
      .ok (Node.file c) :=
    statN_chain_some rfuel hrf hd0 hchain2 (by rw [lookup_insert, if_pos rfl])
      (fun t h => Node.noConfusion h)
  simp only [VolFS.copyFileInto, hfR, hfW]
  rw [hcopy, hfs2]
  show (match VolFS.utimeM (⟨(dstp, Node.file c) :: fs.entries⟩ : FS) rfuel dstp with
    | some e => (Except.error e : Except Nat FS)
    | none =>
      match VolFS.chmodM (⟨(dstp, Node.file c) :: fs.entries⟩ : FS) rfuel dstp with
      | some e => (Except.error e : Except Nat FS)
      | none => Except.ok (⟨(dstp, Node.file c) :: fs.entries⟩ : FS)) = _
  rw [utimeM_ok hstat, chmodM_ok hstat]

theorem under_dst_of_under_child {q dst : Path} {a : String}
    (h : underB q (dst ++ [a]) = true) : underB q dst = true :=
  under_trans h (underB_append dst [a])

theorem under_dst_child_false {q dst : Path} {a : String}
    (hq : underB q dst = false) : underB q (dst ++ [a]) = false := by
  cases h : underB q (dst ++ [a])
  · rfl
  · exfalso
    rw [under_dst_of_under_child h] at hq
    exact Bool.noConfusion hq

theorem under_two_children {q dst : Path} {a b : String}
    (ha : underB q (dst ++ [a]) = true) (hb : underB q (dst ++ [b]) = true) :
    a = b := by
  rcases under_comparable ha hb with h | h
  · exact underB_child_name h
  · exact (underB_child_name h).symm

theorem ne_dst_of_not_under {q dst : Path} (hq : underB q dst = false) : q ≠ dst := by
  intro hcon
  rw [hcon, underB_self] at hq
  exact Bool.noConfusion hq

theorem snoc_ne_self (p : Path) (a : String) : p ++ [a] ≠ p := by
  intro hcon
  have := congrArg List.length hcon
  simp at this

theorem snoc_inj_base {p q : Path} {a b : String} (h : p ++ [a] = q ++ [b]) :
    p = q := by
  have := congrArg List.dropLast h
  rwa [List.dropLast_concat, List.dropLast_concat] at this

theorem region_children {src dst : Path} (hsd : underB src dst = false)
    (hds : underB dst src = false) (name : String) :
    underB (src ++ [name]) (dst ++ [name]) = false ∧
    underB (dst ++ [name]) (src ++ [name]) = false := by
  constructor
  · cases h : underB (src ++ [name]) (dst ++ [name])
    · rfl
    · exfalso
      have h2 := under_dst_of_under_child h
      have h1 := (region_extend hsd hds [name]).1
      rw [h2] at h1
      exact Bool.noConfusion h1
  · cases h : underB (dst ++ [name]) (src ++ [name])
    · rfl
    · exfalso
      have h2 := under_dst_of_under_child h
      have h1 := (region_extend hds hsd [name]).1
      rw [h2] at h1
      exact Bool.noConfusion h1

/-- Helper for C8 (`symlinks=True`): simultaneous specification of
`copytree` and of its per-entry loop, by induction on the recursion fuel.
A run on a well-formed volume from an existing source directory to a fresh
destination path inside an existing parent chain succeeds with no collected
errors and makes the destination subtree a raw node-for-node mirror of the
source subtree — in particular every symbolic link of the source is
recreated as a symbolic link with the same target and its target's contents
are not copied — while every path outside the destination subtree is
untouched. -/
theorem copytree_true_aux (rfuel : Nat) (hrf : 2 ≤ rfuel) :
    ∀ fuel : Nat,
      (∀ (fs : FS) (src dst : Path), fs.wf →
        dirChain fs src → src ≠ [] → fs.lookup src = some Node.dir →
        dirChain fs dst → dst ≠ [] → fs.lookup dst = none →
        underB src dst = false → underB dst src = false →
        descCount fs src + 1 ≤ fuel →
        ∃ fs2 : FS,
          VolFS.copytree fuel rfuel fs src dst true = some (fs2, none) ∧
          fs2.wf ∧
          (∀ q : Path, underB q dst = false → fs2.lookup q = fs.lookup q) ∧
          (∀ e ∈ fs.entries, e ∈ fs2.entries) ∧
          (∀ e ∈ fs2.entries, e ∈ fs.entries ∨ underB e.1 dst = true) ∧
          (∀ r : Path, fs2.lookup (dst ++ r) = fs.lookup (src ++ r))) ∧
      (∀ (cs : List (String × Node)) (fs : FS) (src dst : Path), fs.wf →
        dirChain fs src → src ≠ [] → fs.lookup src = some Node.dir →
        dirChain fs dst → dst ≠ [] → fs.lookup dst = some Node.dir →
        underB src dst = false → underB dst src = false →
        (∀ c ∈ cs, fs.lookup (src ++ [c.1]) = some c.2) →
        (∀ c ∈ cs, fs.lookup (dst ++ [c.1]) = none) →
        (cs.map (fun c => c.1)).Nodup →
        descCount fs src ≤ fuel →
        ∃ fs2 : FS,
          VolFS.copytreeFold fuel rfuel fs src dst true cs = some (fs2, []) ∧
          fs2.wf ∧
          (∀ q : Path, (∀ c ∈ cs, underB q (dst ++ [c.1]) = false) →
            fs2.lookup q = fs.lookup q) ∧
          (∀ e ∈ fs.entries, e ∈ fs2.entries) ∧
          (∀ e ∈ fs2.entries, e ∈ fs.entries ∨ underB e.1 dst = true) ∧
          (∀ c ∈ cs, ∀ r : Path,
            fs2.lookup ((dst ++ [c.1]) ++ r) = fs.lookup ((src ++ [c.1]) ++ r))) := by
  intro fuel
  induction fuel with
  | zero =>
    constructor
    · intro fs src dst _ _ _ _ _ _ _ _ _ hfuel
      omega
    · intro cs fs src dst hwf _ _ _ _ _ _ _ _ hacc _ _ hdesc
      cases cs with
      | nil =>
        exact ⟨fs, by rw [VolFS.copytreeFold], hwf, fun q _ => rfl, fun e he => he,
          fun e he => Or.inl he, fun c hc => absurd hc (List.not_mem_nil c)⟩
      | cons c rest =>
        exfalso
        have := desc_pos_of_child (hacc c (by simp))
        omega
  | succ fuel ih =>
    have hGo : ∀ (fs : FS) (src dst : Path), fs.wf →
        dirChain fs src → src ≠ [] → fs.lookup src = some Node.dir →
        dirChain fs dst → dst ≠ [] → fs.lookup dst = none →
        underB src dst = false → underB dst src = false →
        descCount fs src + 1 ≤ fuel + 1 →
        ∃ fs2 : FS,
          VolFS.copytree (fuel + 1) rfuel fs src dst true = some (fs2, none) ∧
          fs2.wf ∧
          (∀ q : Path, underB q dst = false → fs2.lookup q = fs.lookup q) ∧
          (∀ e ∈ fs.entries, e ∈ fs2.entries) ∧
          (∀ e ∈ fs2.entries, e ∈ fs.entries ∨ underB e.1 dst = true) ∧
          (∀ r : Path, fs2.lookup (dst ++ r) = fs.lookup (src ++ r)) := by
      intro fs src dst hwf hchainS hs0 hsdir hchainD hd0 hdnone hsd hds hfuel
      have hrd : VolFS.scandirSnap fs rfuel src = .ok (fs.children src) :=
        readdirOp_chain rfuel (by omega) hs0 hchainS hsdir
      have hmk : VolFS.makedirs fs rfuel dst =
          (⟨(dst, Node.dir) :: fs.entries⟩, none) :=
        makedirs_single (by omega) hd0 hchainD hdnone
      have hwfM : FS.wf ⟨(dst, Node.dir) :: fs.entries⟩ :=
        wf_insert_dir hwf hd0 hdnone (dirChain_parent hd0 hchainD)
      have hlookM : ∀ q : Path, q ≠ dst →
          FS.lookup ⟨(dst, Node.dir) :: fs.entries⟩ q = fs.lookup q := by
        intro q hq
        rw [lookup_insert, if_neg (fun h => hq h.symm)]
      have hchainSM : dirChain ⟨(dst, Node.dir) :: fs.entries⟩ src := by
        intro i hi0 hil
        rw [hlookM (src.take i) ?_]
        · exact hchainS i hi0 hil
        · intro hcon
          have h1 := underB_take src i (by omega)
          rw [hcon] at h1
          rw [h1] at hsd
          exact Bool.noConfusion hsd
      have hsdirM : FS.lookup ⟨(dst, Node.dir) :: fs.entries⟩ src = some Node.dir := by
        rw [hlookM src (ne_dst_of_not_under hsd)]
        exact hsdir
      have hchainDM : dirChain ⟨(dst, Node.dir) :: fs.entries⟩ dst := by
        intro i hi0 hil
        rw [hlookM (dst.take i) ?_]
        · exact hchainD i hi0 hil
        · intro hcon
          have := congrArg List.length hcon
          rw [List.length_take] at this
          omega
      have hddirM : FS.lookup ⟨(dst, Node.dir) :: fs.entries⟩ dst = some Node.dir := by
        rw [lookup_insert, if_pos rfl]
      have haccM : ∀ c ∈ fs.children src,
          FS.lookup ⟨(dst, Node.dir) :: fs.entries⟩ (src ++ [c.1]) = some c.2 := by
        intro c hc
        rw [hlookM (src ++ [c.1]) ?_]
        · exact children_lookup hwf.1 (show (c.1, c.2) ∈ fs.children src from hc)
        · intro hcon
          have h1 := underB_append src [c.1]
          rw [hcon] at h1
          rw [h1] at hds
          exact Bool.noConfusion hds
      have haccDM : ∀ c ∈ fs.children src,
          FS.lookup ⟨(dst, Node.dir) :: fs.entries⟩ (dst ++ [c.1]) = none := by
        intro c _
        rw [hlookM (dst ++ [c.1]) (snoc_ne_self dst c.1)]
        exact wf_no_under_none hwf hd0 hdnone [c.1] (by simp)
      have hdescM : descCount ⟨(dst, Node.dir) :: fs.entries⟩ src ≤ fuel := by
        have hle := @descCount_le_of_mem_subset _ fs hwfM.1 src ?_
        · omega
        · intro e hmem hstr
          rcases List.mem_cons.mp hmem with he | ht
          · exfalso
            rw [he] at hstr
            unfold strictUnderB at hstr
            simp only [Bool.and_eq_true] at hstr
            rw [hstr.1] at hds
            exact Bool.noConfusion hds
          · exact ht
      obtain ⟨fs2, hres, hwf2, hframe2, hgrow2, hnew2, hmirror2⟩ :=
        ih.2 (fs.children src) ⟨(dst, Node.dir) :: fs.entries⟩ src dst hwfM
          hchainSM hs0 hsdirM hchainDM hd0 hddirM hsd hds haccM haccDM
          (children_names_nodup hwf.1 src) hdescM
      have hframeD : ∀ q : Path, underB q dst = false → fs2.lookup q = fs.lookup q := by
        intro q hq
        rw [hframe2 q (fun c _ => under_dst_child_false hq)]
        exact hlookM q (ne_dst_of_not_under hq)
      have hchainS2 : dirChain fs2 src := by
        intro i hi0 hil
        rw [hframeD (src.take i) (not_under_dst_of_pfx (underB_take src i (by omega)) hsd)]
        exact hchainS i hi0 hil
      have hsdir2 : fs2.lookup src = some Node.dir := by
        rw [hframeD src hsd]
        exact hsdir
      have hddir2 : fs2.lookup dst = some Node.dir := by
        rw [hframe2 dst (fun c _ => underB_short (by simp))]
        exact hddirM
      have hchainD2 : dirChain fs2 dst := by
        intro i hi0 hil
        rw [hframeD (dst.take i) (underB_short (by rw [List.length_take]; omega))]
        exact hchainD i hi0 hil
      have hstatS : FS.statN fs2 rfuel src = .ok Node.dir :=
        statN_chain_some rfuel (by omega) hs0 hchainS2 hsdir2
          (fun t h => Node.noConfusion h)
      have hstatD : FS.statN fs2 rfuel dst = .ok Node.dir :=
        statN_chain_some rfuel (by omega) hd0 hchainD2 hddir2
          (fun t h => Node.noConfusion h)
      have hcs : VolFS.copystat fs2 rfuel src dst = none := by
        unfold VolFS.copystat
        rw [hstatS, utimeM_ok hstatD, chmodM_ok hstatD]
      refine ⟨fs2, ?_, hwf2, hframeD, ?_, ?_, ?_⟩
      · rw [VolFS.copytree, hrd]
        show (match VolFS.makedirs fs rfuel dst with
          | (fs1, some e) => some (fs1, some (Except.error e))
          | (fs1, none) =>
            match VolFS.copytreeFold fuel rfuel fs1 src dst true (fs.children src) with
            | none => none
            | some (fs2, errors) =>
              let errors2 :=
                match VolFS.copystat fs2 rfuel src dst with
                | some e => errors ++ [e]
                | none => errors
              if errors2 = [] then some (fs2, none)
              else some (fs2, some (Except.ok errors2))) = some (fs2, none)
        rw [hmk]
        show (match VolFS.copytreeFold fuel rfuel ⟨(dst, Node.dir) :: fs.entries⟩
            src dst true (fs.children src) with
          | none => none
          | some (fs2, errors) =>
            let errors2 :=
              match VolFS.copystat fs2 rfuel src dst with
              | some e => errors ++ [e]
              | none => errors
            if errors2 = [] then some (fs2, none)
            else some (fs2, some (Except.ok errors2))) = some (fs2, none)
        rw [hres]
        show (let errors2 :=
            match VolFS.copystat fs2 rfuel src dst with
            | some e => [] ++ [e]
            | none => ([] : List Nat)
          if errors2 = [] then some (fs2, none)
          else some (fs2, some (Except.ok errors2))) = some (fs2, none)
        rw [hcs]
        rfl
      · intro e he
        exact hgrow2 e (List.mem_cons_of_mem _ he)
      · intro e he
        rcases hnew2 e he with hM | hu
        · rcases List.mem_cons.mp hM with he2 | ht
          · right
            rw [he2]
            exact underB_self dst
          · exact Or.inl ht
        · exact Or.inr hu
      · intro r
        cases r with
        | nil =>
          rw [List.append_nil, List.append_nil, hddir2, hsdir]
        | cons c r2 =>
          by_cases hch : ∃ nd : Node, (c, nd) ∈ fs.children src
          · obtain ⟨nd, hnd⟩ := hch
            have hm := hmirror2 (c, nd) hnd r2
            rw [show dst ++ c :: r2 = (dst ++ [c]) ++ r2 from by simp,
              show src ++ c :: r2 = (src ++ [c]) ++ r2 from by simp, hm]
            apply hlookM
            intro hcon
            have h1 : underB ((src ++ [c]) ++ r2) dst = false := by
              have := (region_extend hsd hds ([c] ++ r2)).1
              rwa [← List.append_assoc] at this
            rw [hcon, underB_self] at h1
            exact Bool.noConfusion h1
          · have hlhs : fs2.lookup (dst ++ c :: r2) = none := by
              rw [show dst ++ c :: r2 = (dst ++ [c]) ++ r2 from by simp]
              rw [hframe2 ((dst ++ [c]) ++ r2) ?_]
              · rw [hlookM ((dst ++ [c]) ++ r2) ?_]
                · have := wf_no_under_none hwf hd0 hdnone ([c] ++ r2) (by simp)
                  rwa [← List.append_assoc] at this
                · intro hcon
                  have := congrArg List.length hcon
                  simp at this
              · intro c2 hc2
                cases h : underB ((dst ++ [c]) ++ r2) (dst ++ [c2.1])
                · rfl
                · exfalso
                  have heq : c2.1 = c :=
                    under_two_children h (underB_append (dst ++ [c]) r2)
                  exact hch ⟨c2.2, by rw [← heq]; exact hc2⟩
            have hrhs : fs.lookup (src ++ c :: r2) = none := by
              cases hl : fs.lookup (src ++ c :: r2) with
              | none => rfl
              | some n =>
                exfalso
                rw [show src ++ c :: r2 = (src ++ [c]) ++ r2 from by simp] at hl
                exact hch (child_of_lookup_append hwf hl)
            rw [hlhs, hrhs]
    refine ⟨hGo, ?_⟩
    intro cs
    induction cs with
    | nil =>
      intro fs src dst hwf _ _ _ _ _ _ _ _ _ _ _ _
      exact ⟨fs, by rw [VolFS.copytreeFold], hwf, fun q _ => rfl, fun e he => he,
        fun e he => Or.inl he, fun c hc => absurd hc (List.not_mem_nil c)⟩
    | cons c rest ihrest =>
      intro fs src dst hwf hchainS hs0 hsdir hchainD hd0 hddir hsd hds hacc haccD
        hnodup hdesc
      obtain ⟨name, nd⟩ := c
      have hacch : fs.lookup (src ++ [name]) = some nd := hacc (name, nd) (by simp)
      have haccdh : fs.lookup (dst ++ [name]) = none := haccD (name, nd) (by simp)
      simp only [List.map_cons, List.nodup_cons] at hnodup
      have hchainSC : dirChain fs (src ++ [name]) := dirChain_snoc hchainS hsdir name
      have hchainDC : dirChain fs (dst ++ [name]) := dirChain_snoc hchainD hddir name
      have hregc := region_children hsd hds name
      have hparD : (dst ++ [name]).dropLast = [] ∨
          fs.lookup (dst ++ [name]).dropLast = some Node.dir := by
        right
        rw [List.dropLast_concat]
        exact hddir
      -- generic finish: given the state after this entry and its facts,
      -- run the loop on the rest and assemble the conclusions
      have hfin : ∀ fs1 : FS, fs1.wf →
          (∀ q : Path, underB q (dst ++ [name]) = false →
            fs1.lookup q = fs.lookup q) →
          (∀ e ∈ fs.entries, e ∈ fs1.entries) →
          (∀ e ∈ fs1.entries, e ∈ fs.entries ∨ underB e.1 (dst ++ [name]) = true) →
          (∀ r : Path, fs1.lookup ((dst ++ [name]) ++ r) =
            fs.lookup ((src ++ [name]) ++ r)) →
          ∃ fs2 : FS,
            VolFS.copytreeFold (fuel + 1) rfuel fs1 src dst true rest =
              some (fs2, []) ∧
            fs2.wf ∧
            (∀ q : Path, (∀ c2 ∈ (name, nd) :: rest,
              underB q (dst ++ [c2.1]) = false) → fs2.lookup q = fs.lookup q) ∧
            (∀ e ∈ fs.entries, e ∈ fs2.entries) ∧
            (∀ e ∈ fs2.entries, e ∈ fs.entries ∨ underB e.1 dst = true) ∧
            (∀ c2 ∈ (name, nd) :: rest, ∀ r : Path,
              fs2.lookup ((dst ++ [c2.1]) ++ r) =
                fs.lookup ((src ++ [c2.1]) ++ r)) := by
        intro fs1 hwf1 hframe1 hgrow1 hnew1 hmirror1
        have hframe1D : ∀ q : Path, underB q dst = false →
            fs1.lookup q = fs.lookup q :=
          fun q hq => hframe1 q (under_dst_child_false hq)
        have hchainS1 : dirChain fs1 src := by
          intro i hi0 hil
          rw [hframe1D (src.take i)
            (not_under_dst_of_pfx (underB_take src i (by omega)) hsd)]
          exact hchainS i hi0 hil
        have hsdir1 : fs1.lookup src = some Node.dir := by
          rw [hframe1D src hsd]
          exact hsdir
        have hchainD1 : dirChain fs1 dst := by
          intro i hi0 hil
          rw [hframe1D (dst.take i) (underB_short (by rw [List.length_take]; omega))]
          exact hchainD i hi0 hil
        have hddir1 : fs1.lookup dst = some Node.dir := by
          rw [hframe1 dst (underB_short (by simp))]
          exact hddir
        have hacc1 : ∀ c2 ∈ rest, fs1.lookup (src ++ [c2.1]) = some c2.2 := by
          intro c2 hc2
          rw [hframe1D (src ++ [c2.1]) (region_extend hsd hds [c2.1]).1]
          exact hacc c2 (by simp [hc2])
        have haccD1 : ∀ c2 ∈ rest, fs1.lookup (dst ++ [c2.1]) = none := by
          intro c2 hc2
          rw [hframe1 (dst ++ [c2.1]) ?_]
          · exact haccD c2 (by simp [hc2])
          · cases h : underB (dst ++ [c2.1]) (dst ++ [name])
            · rfl
            · exfalso
              apply hnodup.1
              rw [← under_two_children (underB_self (dst ++ [c2.1])) h]
              exact List.mem_map_of_mem (fun c => c.1) hc2
        have hdesc1 : descCount fs1 src ≤ fuel + 1 := by
          calc descCount fs1 src ≤ descCount fs src := by
                apply descCount_le_of_mem_subset hwf1.1 src
                intro e he hstr
                rcases hnew1 e he with h1 | hu
                · exact h1
                · exfalso
                  have hus : underB e.1 src = true := by
                    unfold strictUnderB at hstr
                    simp only [Bool.and_eq_true] at hstr
                    exact hstr.1
                  have hud : underB e.1 dst = true := under_dst_of_under_child hu
                  rcases under_comparable hud hus with h2 | h2
                  · rw [h2] at hds
                    exact Bool.noConfusion hds
                  · rw [h2] at hsd
                    exact Bool.noConfusion hsd
            _ ≤ fuel + 1 := hdesc
        obtain ⟨fs2, hres2, hwf2, hframeR, hgrowR, hnewR, hmirR⟩ :=
          ihrest fs1 src dst hwf1 hchainS1 hs0 hsdir1 hchainD1 hd0 hddir1 hsd hds
            hacc1 haccD1 hnodup.2 hdesc1
        refine ⟨fs2, hres2, hwf2, ?_, ?_, ?_, ?_⟩
        · intro q hq
          rw [hframeR q (fun c2 hc2 => hq c2 (by simp [hc2]))]
          exact hframe1 q (hq (name, nd) (by simp))
        · exact fun e he => hgrowR e (hgrow1 e he)
        · intro e he
          rcases hnewR e he with h1 | hu
          · rcases hnew1 e h1 with h2 | hu2
            · exact Or.inl h2
            · exact Or.inr (under_dst_of_under_child hu2)
          · exact Or.inr hu
        · intro c2 hc2 r
          rcases List.mem_cons.mp hc2 with he2 | ht
          · rw [he2]
            rw [hframeR ((dst ++ [name]) ++ r) ?_]
            · exact hmirror1 r
            · intro c3 hc3
              cases h : underB ((dst ++ [name]) ++ r) (dst ++ [c3.1])
              · rfl
              · exfalso
                apply hnodup.1
                rw [under_two_children (underB_append (dst ++ [name]) r) h]
                exact List.mem_map_of_mem (fun c => c.1) hc3
          · rw [hmirR c2 ht r]
            apply hframe1D
            have := (region_extend hsd hds ([c2.1] ++ r)).1
            rwa [← List.append_assoc] at this
      cases nd with
      | symlink t =>
        have hread : FS.readlinkOp fs rfuel (src ++ [name]) = .ok t := by
          rw [readlinkOp_chain rfuel (by omega) (by simp) hchainSC, hacch]
        have hsyml : FS.symlinkOp fs rfuel t (dst ++ [name]) =
            .ok ⟨(dst ++ [name], Node.symlink t) :: fs.entries⟩ :=
          symlinkOp_chain rfuel (by omega) (by simp) hchainDC haccdh t
        have hwf1 : FS.wf ⟨(dst ++ [name], Node.symlink t) :: fs.entries⟩ :=
          wf_insert_any hwf (Node.symlink t) (by simp) haccdh hparD
        have hframe1 : ∀ q : Path, underB q (dst ++ [name]) = false →
            FS.lookup ⟨(dst ++ [name], Node.symlink t) :: fs.entries⟩ q =
              fs.lookup q := by
          intro q hq
          rw [lookup_insert, if_neg (fun h => ne_dst_of_not_under hq h.symm)]
        have hnew1 : ∀ e ∈ (⟨(dst ++ [name], Node.symlink t) :: fs.entries⟩ : FS).entries,
            e ∈ fs.entries ∨ underB e.1 (dst ++ [name]) = true := by
          intro e he
          rcases List.mem_cons.mp he with he2 | ht
          · right
            rw [he2]
            exact underB_self _
          · exact Or.inl ht
        have hmirror1 : ∀ r : Path,
            FS.lookup ⟨(dst ++ [name], Node.symlink t) :: fs.entries⟩
              ((dst ++ [name]) ++ r) = fs.lookup ((src ++ [name]) ++ r) := by
          intro r
          cases r with
          | nil =>
            rw [List.append_nil, List.append_nil, lookup_insert, if_pos rfl, hacch]
          | cons d m =>
            rw [lookup_insert, if_neg ?_]
            · rw [wf_no_under_none hwf (by simp) haccdh (d :: m) (by simp),
                wf_no_under_nondir hwf hacch
                  (fun h => Node.noConfusion h) (d :: m) (by simp)]
            · intro h
              have := congrArg List.length h
              simp at this
        obtain ⟨fs2, hres2, hwf2, hframe2, hgrow2, hnew2, hmir2⟩ :=
          hfin ⟨(dst ++ [name], Node.symlink t) :: fs.entries⟩ hwf1 hframe1
            (fun e he => List.mem_cons_of_mem _ he) hnew1 hmirror1
        refine ⟨fs2, ?_, hwf2, hframe2, hgrow2, hnew2, hmir2⟩
        rw [VolFS.copytreeFold]
        rw [if_pos (show (true && VolFS.entryIsLink (Node.symlink t)) = true from rfl)]
        rw [hread]
        show (match FS.symlinkOp fs rfuel t (dst ++ [name]) with
          | .error e =>
            match VolFS.copytreeFold (fuel + 1) rfuel fs src dst true rest with
            | none => none
            | some (fs2, errs) => some (fs2, e :: errs)
          | .ok fs1 =>
            match VolFS.copytreeFold (fuel + 1) rfuel fs1 src dst true rest with
            | none => none
            | some (fs2, errs) => some (fs2, errs)) = some (fs2, [])
        rw [hsyml]
        show (match VolFS.copytreeFold (fuel + 1) rfuel
            ⟨(dst ++ [name], Node.symlink t) :: fs.entries⟩ src dst true rest with
          | none => none
          | some (fs2, errs) => some (fs2, errs)) = some (fs2, [])
        rw [hres2]
      | dir =>
        have hres1all := hGo fs (src ++ [name]) (dst ++ [name]) hwf hchainSC
          (by simp) hacch hchainDC (by simp) haccdh hregc.1 hregc.2
          (le_trans (desc_child_lt hwf.1 hacch) hdesc)
        obtain ⟨fs1, hres1, hwf1, hframe1, hgrow1, hnew1, hmirror1⟩ := hres1all
        obtain ⟨fs2, hres2, hwf2, hframe2, hgrow2, hnew2, hmir2⟩ :=
          hfin fs1 hwf1 hframe1 hgrow1 hnew1 hmirror1
        refine ⟨fs2, ?_, hwf2, hframe2, hgrow2, hnew2, hmir2⟩
        rw [VolFS.copytreeFold]
        rw [if_neg (show ¬((true && VolFS.entryIsLink Node.dir) = true) from
          fun hcon => Bool.noConfusion hcon)]
        rw [if_pos (show VolFS.ctIsdir fs rfuel (src ++ [name]) Node.dir (!true) = true
          from rfl)]
        rw [hres1]
        show (match VolFS.copytreeFold (fuel + 1) rfuel fs1 src dst true rest with
          | none => none
          | some (fs2, errs) => some (fs2, errs)) = some (fs2, [])
        rw [hres2]
      | file cont =>
        have hrealS : FS.realize fs rfuel (src ++ [name]) = some (src ++ [name]) :=
          realize_chain fs rfuel _ (by omega) hchainSC
            (fun s h => by
              rw [hacch] at h
              exact Option.noConfusion h (fun h2 => Node.noConfusion h2))
        have hne1 : src ++ [name] ≠ dst ++ [name] :=
          fun h => (ne_dst_of_not_under hsd) (snoc_inj_base h)
        have hcfi : VolFS.copyFileInto fs rfuel (src ++ [name]) (dst ++ [name]) =
            .ok ⟨(dst ++ [name], Node.file cont) :: fs.entries⟩ :=
          copyFileInto_ok rfuel (by omega) hwf hrealS hacch (by simp) hchainDC
            haccdh hne1
        have hwf1 : FS.wf ⟨(dst ++ [name], Node.file cont) :: fs.entries⟩ :=
          wf_insert_any hwf (Node.file cont) (by simp) haccdh hparD
        have hframe1 : ∀ q : Path, underB q (dst ++ [name]) = false →
            FS.lookup ⟨(dst ++ [name], Node.file cont) :: fs.entries⟩ q =
              fs.lookup q := by
          intro q hq
          rw [lookup_insert, if_neg (fun h => ne_dst_of_not_under hq h.symm)]
        have hnew1 : ∀ e ∈ (⟨(dst ++ [name], Node.file cont) :: fs.entries⟩ : FS).entries,
            e ∈ fs.entries ∨ underB e.1 (dst ++ [name]) = true := by
          intro e he
          rcases List.mem_cons.mp he with he2 | ht
          · right
            rw [he2]
            exact underB_self _
          · exact Or.inl ht
        have hmirror1 : ∀ r : Path,
            FS.lookup ⟨(dst ++ [name], Node.file cont) :: fs.entries⟩
              ((dst ++ [name]) ++ r) = fs.lookup ((src ++ [name]) ++ r) := by
          intro r
          cases r with
          | nil =>
            rw [List.append_nil, List.append_nil, lookup_insert, if_pos rfl, hacch]
          | cons d m =>
            rw [lookup_insert, if_neg ?_]
            · rw [wf_no_under_none hwf (by simp) haccdh (d :: m) (by simp),
                wf_no_under_nondir hwf hacch
                  (fun h => Node.noConfusion h) (d :: m) (by simp)]
            · intro h
              have := congrArg List.length h
              simp at this
        obtain ⟨fs2, hres2, hwf2, hframe2, hgrow2, hnew2, hmir2⟩ :=
          hfin ⟨(dst ++ [name], Node.file cont) :: fs.entries⟩ hwf1 hframe1
            (fun e he => List.mem_cons_of_mem _ he) hnew1 hmirror1
        refine ⟨fs2, ?_, hwf2, hframe2, hgrow2, hnew2, hmir2⟩
        rw [VolFS.copytreeFold]
        rw [if_neg (show ¬((true && VolFS.entryIsLink (Node.file cont)) = true) from
          fun hcon => Bool.noConfusion hcon)]
        rw [if_neg (show ¬(VolFS.ctIsdir fs rfuel (src ++ [name])
            (Node.file cont) (!true) = true) from fun hcon => Bool.noConfusion hcon)]
        rw [hcfi]
        show (match VolFS.copytreeFold (fuel + 1) rfuel
            ⟨(dst ++ [name], Node.file cont) :: fs.entries⟩ src dst true rest with
          | none => none
          | some (fs2, errs) => some (fs2, errs)) = some (fs2, [])
        rw [hres2]

theorem not_under_child_of_pairs {t dst : Path} {a : String}
    (h1 : underB t dst = false) (h2 : underB dst t = false) :
    underB (dst ++ [a]) t = false := by
  cases h : underB (dst ++ [a]) t
  · rfl
  · exfalso
    rcases under_comparable h (underB_append dst [a]) with hc | hc
    · rw [hc] at h1
      exact Bool.noConfusion h1
    · rw [hc] at h2
      exact Bool.noConfusion h2

theorem strictUnder_not_under_dst {q rsrc dst : Path}
    (hrd : underB rsrc dst = false) (hdr : underB dst rsrc = false)
    (h : underB q rsrc = true) : underB q dst = false := by
  cases hc : underB q dst
  · rfl
  · exfalso
    rcases under_comparable hc h with h2 | h2
    · rw [h2] at hdr
      exact Bool.noConfusion hdr
    · rw [h2] at hrd
      exact Bool.noConfusion hrd

theorem underB_of_strict {q p : Path} (h : strictUnderB q p = true) :
    underB q p = true := by
  unfold strictUnderB at h
  simp only [Bool.and_eq_true] at h
  exact h.1

/-- The source-side symlink discipline survives modifications confined to
the destination subtree. -/
theorem srcLinksOK_frame {fs1 fs : FS} {rsrc dst : Path}
    (hrd : underB rsrc dst = false) (hdr : underB dst rsrc = false)
    (hagree : ∀ q, underB q dst = false → fs1.lookup q = fs.lookup q)
    (hnew : ∀ e ∈ fs1.entries, e ∈ fs.entries ∨ underB e.1 dst = true)
    (hold : srcLinksOK fs rsrc dst) : srcLinksOK fs1 rsrc dst := by
  intro e he hstr t het
  rcases hnew e he with hmem | hu
  · obtain ⟨⟨n, hn, hnl⟩, h2, h3, h4⟩ := hold e hmem hstr t het
    refine ⟨⟨n, ?_, hnl⟩, ?_, h3, h4⟩
    · rw [hagree t h3]
      exact hn
    · intro e2 he2 hstr2
      rcases hnew e2 he2 with hmem2 | hu2
      · exact h2 e2 hmem2 hstr2
      · exfalso
        rcases under_comparable hu2 (underB_of_strict hstr2) with hcc | hcc
        · rw [hcc] at h4
          exact Bool.noConfusion h4
        · rw [hcc] at h3
          exact Bool.noConfusion h3
  · exfalso
    rcases under_comparable hu (underB_of_strict hstr) with hcc | hcc
    · rw [hcc] at hdr
      exact Bool.noConfusion hdr
    · rw [hcc] at hrd
      exact Bool.noConfusion hrd

/-- Helper for C8 (`symlinks=False`): simultaneous specification of
`copytree` and of its per-entry loop, by induction on the recursion fuel.
`rsrc` is the directory the source path resolves to (`srcShape`); under
`srcLinksOK`, every symbolic link below it dereferences in one hop to an
existing non-symlink node with a symlink-free subtree unrelated to the
destination, so the run succeeds with no collected errors and the
destination subtree becomes the fully dereferenced view (`derefView`) of
the source subtree: symlinked directories are recursed into and copied as
directories, symlinked files have the pointed-to contents copied. -/
theorem copytree_false_aux (rfuel : Nat) (hrf : 2 ≤ rfuel) :
    ∀ fuel : Nat,
      (∀ (fs : FS) (src dst rsrc : Path), fs.wf →
        srcShape fs src rsrc →
        ((rsrc = src ∧ dirChain fs src) ∨
          (∀ e ∈ fs.entries, strictUnderB e.1 rsrc = true →
            VolFS.entryIsLink e.2 = false)) →
        src ≠ [] → fs.lookup rsrc = some Node.dir →
        dirChain fs dst → dst ≠ [] → fs.lookup dst = none →
        underB src dst = false → underB dst src = false →
        underB rsrc dst = false → underB dst rsrc = false →
        srcLinksOK fs rsrc dst →
        descCount fs rsrc + 1 ≤ fuel →
        (∀ q u, strictUnderB q rsrc = true →
          fs.lookup q = some (Node.symlink u) →
          descCount fs u + (q.length - rsrc.length) + 1 ≤ fuel) →
        ∃ fs2 : FS,
          VolFS.copytree fuel rfuel fs src dst false = some (fs2, none) ∧
          fs2.wf ∧
          (∀ q : Path, underB q dst = false → fs2.lookup q = fs.lookup q) ∧
          (∀ e ∈ fs.entries, e ∈ fs2.entries) ∧
          (∀ e ∈ fs2.entries, e ∈ fs.entries ∨ underB e.1 dst = true) ∧
          (∀ r : Path, fs2.lookup (dst ++ r) = derefView fs rsrc r)) ∧
      (∀ (cs : List (String × Node)) (fs : FS) (src dst rsrc : Path), fs.wf →
        srcShape fs src rsrc →
        ((rsrc = src ∧ dirChain fs src) ∨
          (∀ e ∈ fs.entries, strictUnderB e.1 rsrc = true →
            VolFS.entryIsLink e.2 = false)) →
        src ≠ [] → fs.lookup rsrc = some Node.dir →
        dirChain fs dst → dst ≠ [] → fs.lookup dst = some Node.dir →
        underB src dst = false → underB dst src = false →
        underB rsrc dst = false → underB dst rsrc = false →
        srcLinksOK fs rsrc dst →
        (∀ c ∈ cs, fs.lookup (rsrc ++ [c.1]) = some c.2) →
        (∀ c ∈ cs, fs.lookup (dst ++ [c.1]) = none) →
        (cs.map (fun c => c.1)).Nodup →
        descCount fs rsrc ≤ fuel →
        (∀ q u, strictUnderB q rsrc = true →
          fs.lookup q = some (Node.symlink u) →
          descCount fs u + (q.length - rsrc.length) ≤ fuel) →
        ∃ fs2 : FS,
          VolFS.copytreeFold fuel rfuel fs src dst false cs = some (fs2, []) ∧
          fs2.wf ∧
          (∀ q : Path, (∀ c ∈ cs, underB q (dst ++ [c.1]) = false) →
            fs2.lookup q = fs.lookup q) ∧
          (∀ e ∈ fs.entries, e ∈ fs2.entries) ∧
          (∀ e ∈ fs2.entries, e ∈ fs.entries ∨ underB e.1 dst = true) ∧
          (∀ c ∈ cs, ∀ r : Path,
            fs2.lookup ((dst ++ [c.1]) ++ r) = derefView fs rsrc ([c.1] ++ r))) := by
  intro fuel
  induction fuel with
  | zero =>
    constructor
    · intro fs src dst rsrc _ _ _ _ _ _ _ _ _ _ _ _ _ hfuel _
      omega
    · intro cs fs src dst rsrc hwf _ _ _ _ _ _ _ _ _ _ _ _ hacc _ _ hdesc _
      cases cs with
      | nil =>
        exact ⟨fs, by rw [VolFS.copytreeFold], hwf, fun q _ => rfl, fun e he => he,
          fun e he => Or.inl he, fun c hc => absurd hc (List.not_mem_nil c)⟩
      | cons c rest =>
        exfalso
        have := desc_pos_of_child (hacc c (by simp))
        omega
  | succ fuel ih =>
    have hGo : ∀ (fs : FS) (src dst rsrc : Path), fs.wf →
        srcShape fs src rsrc →
        ((rsrc = src ∧ dirChain fs src) ∨
          (∀ e ∈ fs.entries, strictUnderB e.1 rsrc = true →
            VolFS.entryIsLink e.2 = false)) →
        src ≠ [] → fs.lookup rsrc = some Node.dir →
        dirChain fs dst → dst ≠ [] → fs.lookup dst = none →
        underB src dst = false → underB dst src = false →
        underB rsrc dst = false → underB dst rsrc = false →
        srcLinksOK fs rsrc dst →
        descCount fs rsrc + 1 ≤ fuel + 1 →
        (∀ q u, strictUnderB q rsrc = true →
          fs.lookup q = some (Node.symlink u) →
          descCount fs u + (q.length - rsrc.length) + 1 ≤ fuel + 1) →
        ∃ fs2 : FS,
          VolFS.copytree (fuel + 1) rfuel fs src dst false = some (fs2, none) ∧
          fs2.wf ∧
          (∀ q : Path, underB q dst = false → fs2.lookup q = fs.lookup q) ∧
          (∀ e ∈ fs.entries, e ∈ fs2.entries) ∧
          (∀ e ∈ fs2.entries, e ∈ fs.entries ∨ underB e.1 dst = true) ∧
          (∀ r : Path, fs2.lookup (dst ++ r) = derefView fs rsrc r) := by
      intro fs src dst rsrc hwf hshape hpb hs0 hrdir hchainD hd0 hdnone hsd hds
        hrd hdr hlinks hfuel hfuelS
      have hr0 : rsrc ≠ [] := (wf_parent hwf hrdir).1
      have hsymsFS : ∀ q t, strictUnderB q rsrc = true →
          fs.lookup q = some (Node.symlink t) →
          underB t dst = false ∧ underB dst t = false ∧
          (∀ q2 t2, strictUnderB q2 t = true →
            fs.lookup q2 ≠ some (Node.symlink t2)) := by
        intro q t hstr hlq
        obtain ⟨⟨n, hn, hnl⟩, h2, h3, h4⟩ :=
          hlinks (q, Node.symlink t) (mem_of_lookup_eq_some hlq) hstr t rfl
        refine ⟨h3, h4, ?_⟩
        intro q2 t2 hstr2 hlq2
        have := h2 (q2, Node.symlink t2) (mem_of_lookup_eq_some hlq2) hstr2
        exact Bool.noConfusion this
      have hrealS : FS.realize fs rfuel src = some rsrc :=
        realize_shape rfuel hrf hwf hshape hr0
          (fun s h => by
            rw [hrdir] at h
            exact Option.noConfusion h (fun h2 => Node.noConfusion h2))
      have hrd' : VolFS.scandirSnap fs rfuel src = .ok (fs.children rsrc) :=
        readdirOp_resolved rfuel hrealS hr0 hrdir
      have hmk : VolFS.makedirs fs rfuel dst =
          (⟨(dst, Node.dir) :: fs.entries⟩, none) :=
        makedirs_single (by omega) hd0 hchainD hdnone
      have hwfM : FS.wf ⟨(dst, Node.dir) :: fs.entries⟩ :=
        wf_insert_dir hwf hd0 hdnone (dirChain_parent hd0 hchainD)
      have hlookM : ∀ q : Path, q ≠ dst →
          FS.lookup ⟨(dst, Node.dir) :: fs.entries⟩ q = fs.lookup q := by
        intro q hq
        rw [lookup_insert, if_neg (fun h => hq h.symm)]
      have hagreeM : ∀ q : Path, underB q dst = false →
          FS.lookup ⟨(dst, Node.dir) :: fs.entries⟩ q = fs.lookup q :=
        fun q hq => hlookM q (ne_dst_of_not_under hq)
      have hnewM : ∀ e ∈ (⟨(dst, Node.dir) :: fs.entries⟩ : FS).entries,
          e ∈ fs.entries ∨ underB e.1 dst = true := by
        intro e he
        rcases List.mem_cons.mp he with he2 | ht
        · right
          rw [he2]
          exact underB_self _
        · exact Or.inl ht
      have hshapeM : srcShape ⟨(dst, Node.dir) :: fs.entries⟩ src rsrc :=
        srcShape_frame hagreeM hsd hrd hshape
      have hpbM : (rsrc = src ∧ dirChain ⟨(dst, Node.dir) :: fs.entries⟩ src) ∨
          (∀ e ∈ (⟨(dst, Node.dir) :: fs.entries⟩ : FS).entries,
            strictUnderB e.1 rsrc = true → VolFS.entryIsLink e.2 = false) := by
        rcases hpb with ⟨hrs, hchain⟩ | hnl
        · left
          refine ⟨hrs, ?_⟩
          intro i hi0 hil
          rw [hagreeM (src.take i)
            (not_under_dst_of_pfx (underB_take src i (by omega)) hsd)]
          exact hchain i hi0 hil
        · right
          intro e he hstr
          rcases hnewM e he with hmem | hu
          · exact hnl e hmem hstr
          · exfalso
            rcases under_comparable hu (underB_of_strict hstr) with hcc | hcc
            · rw [hcc] at hdr
              exact Bool.noConfusion hdr
            · rw [hcc] at hrd
              exact Bool.noConfusion hrd
      have hrdirM : FS.lookup ⟨(dst, Node.dir) :: fs.entries⟩ rsrc = some Node.dir := by
        rw [hagreeM rsrc hrd]
        exact hrdir
      have hchainDM : dirChain ⟨(dst, Node.dir) :: fs.entries⟩ dst := by
        intro i hi0 hil
        rw [hlookM (dst.take i) ?_]
        · exact hchainD i hi0 hil
        · intro hcon
          have := congrArg List.length hcon
          rw [List.length_take] at this
          omega
      have hddirM : FS.lookup ⟨(dst, Node.dir) :: fs.entries⟩ dst = some Node.dir := by
        rw [lookup_insert, if_pos rfl]
      have haccM : ∀ c ∈ fs.children rsrc,
          FS.lookup ⟨(dst, Node.dir) :: fs.entries⟩ (rsrc ++ [c.1]) = some c.2 := by
        intro c hc
        rw [hagreeM (rsrc ++ [c.1]) (region_extend hrd hdr [c.1]).1]
        exact children_lookup hwf.1 (show (c.1, c.2) ∈ fs.children rsrc from hc)
      have haccDM : ∀ c ∈ fs.children rsrc,
          FS.lookup ⟨(dst, Node.dir) :: fs.entries⟩ (dst ++ [c.1]) = none := by
        intro c _
        rw [hlookM (dst ++ [c.1]) (snoc_ne_self dst c.1)]
        exact wf_no_under_none hwf hd0 hdnone [c.1] (by simp)
      have hlinksM : srcLinksOK ⟨(dst, Node.dir) :: fs.entries⟩ rsrc dst :=
        srcLinksOK_frame hrd hdr hagreeM hnewM hlinks
      have hdescM : descCount ⟨(dst, Node.dir) :: fs.entries⟩ rsrc ≤ fuel := by
        have hle := @descCount_le_of_mem_subset _ fs hwfM.1 rsrc ?_
        · omega
        · intro e hmem hstr
          rcases List.mem_cons.mp hmem with he | ht
          · exfalso
            rw [he] at hstr
            have := underB_of_strict hstr
            rw [this] at hdr
            exact Bool.noConfusion hdr
          · exact ht
      have hfuelSM : ∀ q u, strictUnderB q rsrc = true →
          FS.lookup ⟨(dst, Node.dir) :: fs.entries⟩ q = some (Node.symlink u) →
          descCount ⟨(dst, Node.dir) :: fs.entries⟩ u + (q.length - rsrc.length) ≤
            fuel := by
        intro q u hstr hlq
        have hqd : underB q dst = false :=
          strictUnder_not_under_dst hrd hdr (underB_of_strict hstr)
        rw [hagreeM q hqd] at hlq
        have hb := hfuelS q u hstr hlq
        have hpair := hsymsFS q u hstr hlq
        have hdu : descCount ⟨(dst, Node.dir) :: fs.entries⟩ u ≤ descCount fs u := by
          apply descCount_le_of_mem_subset hwfM.1 u
          intro e hmem hstr2
          rcases List.mem_cons.mp hmem with he | ht
          · exfalso
            rw [he] at hstr2
            have := underB_of_strict hstr2
            rw [this] at hpair
            exact Bool.noConfusion hpair.2.1
          · exact ht
        omega
      obtain ⟨fs2, hres, hwf2, hframe2, hgrow2, hnew2, hmirror2⟩ :=
        ih.2 (fs.children rsrc) ⟨(dst, Node.dir) :: fs.entries⟩ src dst rsrc hwfM
          hshapeM hpbM hs0 hrdirM hchainDM hd0 hddirM hsd hds hrd hdr hlinksM
          haccM haccDM (children_names_nodup hwf.1 rsrc) hdescM hfuelSM
      have hframeD : ∀ q : Path, underB q dst = false →
          fs2.lookup q = fs.lookup q := by
        intro q hq
        rw [hframe2 q (fun c _ => under_dst_child_false hq)]
        exact hlookM q (ne_dst_of_not_under hq)
      have hrdir2 : fs2.lookup rsrc = some Node.dir := by
        rw [hframeD rsrc hrd]
        exact hrdir
      have hshape2 : srcShape fs2 src rsrc := srcShape_frame hframeD hsd hrd hshape
      have hreal2 : FS.realize fs2 rfuel src = some rsrc :=
        realize_shape rfuel hrf hwf2 hshape2 hr0
          (fun s h => by
            rw [hrdir2] at h
            exact Option.noConfusion h (fun h2 => Node.noConfusion h2))
      have hstatS : FS.statN fs2 rfuel src = .ok Node.dir :=
        statN_resolved rfuel hreal2 hr0 hrdir2
      have hddir2 : fs2.lookup dst = some Node.dir := by
        rw [hframe2 dst (fun c _ => underB_short (by simp))]
        exact hddirM
      have hchainD2 : dirChain fs2 dst := by
        intro i hi0 hil
        rw [hframeD (dst.take i) (underB_short (by rw [List.length_take]; omega))]
        exact hchainD i hi0 hil
      have hstatD : FS.statN fs2 rfuel dst = .ok Node.dir :=
        statN_chain_some rfuel (by omega) hd0 hchainD2 hddir2
          (fun t h => Node.noConfusion h)
      have hcs : VolFS.copystat fs2 rfuel src dst = none := by
        unfold VolFS.copystat
        rw [hstatS, utimeM_ok hstatD, chmodM_ok hstatD]
      refine ⟨fs2, ?_, hwf2, hframeD, ?_, ?_, ?_⟩
      · rw [VolFS.copytree, hrd']
        show (match VolFS.makedirs fs rfuel dst with
          | (fs1, some e) => some (fs1, some (Except.error e))
          | (fs1, none) =>
            match VolFS.copytreeFold fuel rfuel fs1 src dst false
                (fs.children rsrc) with
            | none => none
            | some (fs2, errors) =>
              let errors2 :=
                match VolFS.copystat fs2 rfuel src dst with
                | some e => errors ++ [e]
                | none => errors
              if errors2 = [] then some (fs2, none)
              else some (fs2, some (Except.ok errors2))) = some (fs2, none)
        rw [hmk]
        show (match VolFS.copytreeFold fuel rfuel ⟨(dst, Node.dir) :: fs.entries⟩
            src dst false (fs.children rsrc) with
          | none => none
          | some (fs2, errors) =>
            let errors2 :=
              match VolFS.copystat fs2 rfuel src dst with
              | some e => errors ++ [e]
              | none => errors
            if errors2 = [] then some (fs2, none)
            else some (fs2, some (Except.ok errors2))) = some (fs2, none)
        rw [hres]
        show (let errors2 :=
            match VolFS.copystat fs2 rfuel src dst with
            | some e => [] ++ [e]
            | none => ([] : List Nat)
          if errors2 = [] then some (fs2, none)
          else some (fs2, some (Except.ok errors2))) = some (fs2, none)
        rw [hcs]
        rfl
      · intro e he
        exact hgrow2 e (List.mem_cons_of_mem _ he)
      · intro e he
        rcases hnew2 e he with hM | hu
        · rcases List.mem_cons.mp hM with he2 | ht
          · right
            rw [he2]
            exact underB_self dst
          · exact Or.inl ht
        · exact Or.inr hu
      · intro r
        cases r with
        | nil =>
          rw [List.append_nil]
          show fs2.lookup dst = fs.lookup rsrc
          rw [hddir2, hrdir]
        | cons c r2 =>
          by_cases hch : ∃ nd : Node, (c, nd) ∈ fs.children rsrc
          · obtain ⟨nd, hnd⟩ := hch
            have hm := hmirror2 (c, nd) hnd r2
            rw [show dst ++ c :: r2 = (dst ++ [c]) ++ r2 from by simp, hm]
            have hag := derefView_agree hagreeM ([c] ++ r2) rsrc hrd hdr hsymsFS
            exact hag
          · have hlhs : fs2.lookup (dst ++ c :: r2) = none := by
              rw [show dst ++ c :: r2 = (dst ++ [c]) ++ r2 from by simp]
              rw [hframe2 ((dst ++ [c]) ++ r2) ?_]
              · rw [hlookM ((dst ++ [c]) ++ r2) ?_]
                · have := wf_no_under_none hwf hd0 hdnone ([c] ++ r2) (by simp)
                  rwa [← List.append_assoc] at this
                · intro hcon
                  have := congrArg List.length hcon
                  simp at this
              · intro c2 hc2
                cases h : underB ((dst ++ [c]) ++ r2) (dst ++ [c2.1])
                · rfl
                · exfalso
                  have heq : c2.1 = c :=
                    under_two_children h (underB_append (dst ++ [c]) r2)
                  exact hch ⟨c2.2, by rw [← heq]; exact hc2⟩
            have hrhs : derefView fs rsrc (c :: r2) = none := by
              have hnone : fs.lookup (rsrc ++ [c]) = none := by
                cases hl : fs.lookup (rsrc ++ [c]) with
                | none => rfl
                | some n => exact absurd ⟨n, children_mem hl⟩ hch
              rw [derefView_cons, hnone]
              show derefView fs (rsrc ++ [c]) r2 = none
              cases r2 with
              | nil => exact hnone
              | cons d m =>
                apply derefView_none_under (d :: m) (rsrc ++ [c]) ?_ (by simp)
                intro r3 hr3
                cases hl : fs.lookup ((rsrc ++ [c]) ++ r3) with
                | none => rfl
                | some n =>
                  exfalso
                  exact hch (child_of_lookup_append hwf hl)
            rw [hlhs, hrhs]
    refine ⟨hGo, ?_⟩
    intro cs
    induction cs with
    | nil =>
      intro fs src dst rsrc hwf _ _ _ _ _ _ _ _ _ _ _ _ _ _ _ _ _
      exact ⟨fs, by rw [VolFS.copytreeFold], hwf, fun q _ => rfl, fun e he => he,
        fun e he => Or.inl he, fun c hc => absurd hc (List.not_mem_nil c)⟩
    | cons c rest ihrest =>
      intro fs src dst rsrc hwf hshape hpb hs0 hrdir hchainD hd0 hddir hsd hds
        hrd hdr hlinks hacc haccD hnodup hdesc hfuelSF
      obtain ⟨name, nd⟩ := c
      have hacch : fs.lookup (rsrc ++ [name]) = some nd := hacc (name, nd) (by simp)
      have haccdh : fs.lookup (dst ++ [name]) = none := haccD (name, nd) (by simp)
      simp only [List.map_cons, List.nodup_cons] at hnodup
      have hchainDC : dirChain fs (dst ++ [name]) := dirChain_snoc hchainD hddir name
      have hregc := region_children hsd hds name
      have hregcR := region_children hrd hdr name
      have hparD : (dst ++ [name]).dropLast = [] ∨
          fs.lookup (dst ++ [name]).dropLast = some Node.dir := by
        right
        rw [List.dropLast_concat]
        exact hddir
      have hsymsFS : ∀ q t, strictUnderB q rsrc = true →
          fs.lookup q = some (Node.symlink t) →
          underB t dst = false ∧ underB dst t = false ∧
          (∀ q2 t2, strictUnderB q2 t = true →
            fs.lookup q2 ≠ some (Node.symlink t2)) := by
        intro q t hstr hlq
        obtain ⟨⟨n, hn, hnl⟩, h2, h3, h4⟩ :=
          hlinks (q, Node.symlink t) (mem_of_lookup_eq_some hlq) hstr t rfl
        refine ⟨h3, h4, ?_⟩
        intro q2 t2 hstr2 hlq2
        have := h2 (q2, Node.symlink t2) (mem_of_lookup_eq_some hlq2) hstr2
        exact Bool.noConfusion this
      have hfin : ∀ fs1 : FS, fs1.wf →
          (∀ q : Path, underB q (dst ++ [name]) = false →
            fs1.lookup q = fs.lookup q) →
          (∀ e ∈ fs.entries, e ∈ fs1.entries) →
          (∀ e ∈ fs1.entries, e ∈ fs.entries ∨ underB e.1 (dst ++ [name]) = true) →
          (∀ r : Path, fs1.lookup ((dst ++ [name]) ++ r) =
            derefView fs rsrc ([name] ++ r)) →
          ∃ fs2 : FS,
            VolFS.copytreeFold (fuel + 1) rfuel fs1 src dst false rest =
              some (fs2, []) ∧
            fs2.wf ∧
            (∀ q : Path, (∀ c2 ∈ (name, nd) :: rest,
              underB q (dst ++ [c2.1]) = false) → fs2.lookup q = fs.lookup q) ∧
            (∀ e ∈ fs.entries, e ∈ fs2.entries) ∧
            (∀ e ∈ fs2.entries, e ∈ fs.entries ∨ underB e.1 dst = true) ∧
            (∀ c2 ∈ (name, nd) :: rest, ∀ r : Path,
              fs2.lookup ((dst ++ [c2.1]) ++ r) =
                derefView fs rsrc ([c2.1] ++ r)) := by
        intro fs1 hwf1 hframe1 hgrow1 hnew1 hmirror1
        have hframe1D : ∀ q : Path, underB q dst = false →
            fs1.lookup q = fs.lookup q :=
          fun q hq => hframe1 q (under_dst_child_false hq)
        have hnew1D : ∀ e ∈ fs1.entries, e ∈ fs.entries ∨ underB e.1 dst = true :=
          fun e he => (hnew1 e he).imp (fun h => h)
            (fun h => under_dst_of_under_child h)
        have hshape1 : srcShape fs1 src rsrc := srcShape_frame hframe1D hsd hrd hshape
        have hpb1 : (rsrc = src ∧ dirChain fs1 src) ∨
            (∀ e ∈ fs1.entries, strictUnderB e.1 rsrc = true →
              VolFS.entryIsLink e.2 = false) := by
          rcases hpb with ⟨hrs, hchain⟩ | hnl
          · left
            refine ⟨hrs, ?_⟩
            intro i hi0 hil
            rw [hframe1D (src.take i)
              (not_under_dst_of_pfx (underB_take src i (by omega)) hsd)]
            exact hchain i hi0 hil
          · right
            intro e he hstr
            rcases hnew1D e he with hmem | hu
            · exact hnl e hmem hstr
            · exfalso
              rcases under_comparable hu (underB_of_strict hstr) with hcc | hcc
              · rw [hcc] at hdr
                exact Bool.noConfusion hdr
              · rw [hcc] at hrd
                exact Bool.noConfusion hrd
        have hrdir1 : fs1.lookup rsrc = some Node.dir := by
          rw [hframe1D rsrc hrd]
          exact hrdir
        have hchainD1 : dirChain fs1 dst := by
          intro i hi0 hil
          rw [hframe1D (dst.take i) (underB_short (by rw [List.length_take]; omega))]
          exact hchainD i hi0 hil
        have hddir1 : fs1.lookup dst = some Node.dir := by
          rw [hframe1 dst (underB_short (by simp))]
          exact hddir
        have hlinks1 : srcLinksOK fs1 rsrc dst :=
          srcLinksOK_frame hrd hdr hframe1D hnew1D hlinks
        have hacc1 : ∀ c2 ∈ rest, fs1.lookup (rsrc ++ [c2.1]) = some c2.2 := by
          intro c2 hc2
          rw [hframe1D (rsrc ++ [c2.1]) (region_extend hrd hdr [c2.1]).1]
          exact hacc c2 (by simp [hc2])
        have haccD1 : ∀ c2 ∈ rest, fs1.lookup (dst ++ [c2.1]) = none := by
          intro c2 hc2
          rw [hframe1 (dst ++ [c2.1]) ?_]
          · exact haccD c2 (by simp [hc2])
          · cases h : underB (dst ++ [c2.1]) (dst ++ [name])
            · rfl
            · exfalso
              apply hnodup.1
              rw [← under_two_children (underB_self (dst ++ [c2.1])) h]
              exact List.mem_map_of_mem (fun c => c.1) hc2
        have hdesc1 : descCount fs1 rsrc ≤ fuel + 1 := by
          calc descCount fs1 rsrc ≤ descCount fs rsrc := by
                apply descCount_le_of_mem_subset hwf1.1 rsrc
                intro e he hstr
                rcases hnew1D e he with h1 | hu
                · exact h1
                · exfalso
                  rcases under_comparable hu (underB_of_strict hstr) with h2 | h2
                  · rw [h2] at hdr
                    exact Bool.noConfusion hdr
                  · rw [h2] at hrd
                    exact Bool.noConfusion hrd
            _ ≤ fuel + 1 := hdesc
        have hfuelS1 : ∀ q u, strictUnderB q rsrc = true →
            fs1.lookup q = some (Node.symlink u) →
            descCount fs1 u + (q.length - rsrc.length) ≤ fuel + 1 := by
          intro q u hstr hlq
          have hqd : underB q dst = false :=
            strictUnder_not_under_dst hrd hdr (underB_of_strict hstr)
          rw [hframe1D q hqd] at hlq
          have hb := hfuelSF q u hstr hlq
          have hpair := hsymsFS q u hstr hlq
          have hdu : descCount fs1 u ≤ descCount fs u := by
            apply descCount_le_of_mem_subset hwf1.1 u
            intro e1 he1 hstr1
            rcases hnew1D e1 he1 with hmem | hu2
            · exact hmem
            · exfalso
              rcases under_comparable hu2 (underB_of_strict hstr1) with hcc | hcc
              · rw [hcc] at hpair
                exact Bool.noConfusion hpair.2.1
              · rw [hcc] at hpair
                exact Bool.noConfusion hpair.1
          omega
        obtain ⟨fs2, hres2, hwf2, hframeR, hgrowR, hnewR, hmirR⟩ :=
          ihrest fs1 src dst rsrc hwf1 hshape1 hpb1 hs0 hrdir1 hchainD1 hd0 hddir1
            hsd hds hrd hdr hlinks1 hacc1 haccD1 hnodup.2 hdesc1 hfuelS1
        refine ⟨fs2, hres2, hwf2, ?_, ?_, ?_, ?_⟩
        · intro q hq
          rw [hframeR q (fun c2 hc2 => hq c2 (by simp [hc2]))]
          exact hframe1 q (hq (name, nd) (by simp))
        · exact fun e he => hgrowR e (hgrow1 e he)
        · intro e he
          rcases hnewR e he with h1 | hu
          · rcases hnew1 e h1 with h2 | hu2
            · exact Or.inl h2
            · exact Or.inr (under_dst_of_under_child hu2)
          · exact Or.inr hu
        · intro c2 hc2 r
          rcases List.mem_cons.mp hc2 with he2 | ht
          · rw [he2]
            rw [hframeR ((dst ++ [name]) ++ r) ?_]
            · exact hmirror1 r
            · intro c3 hc3
              cases h : underB ((dst ++ [name]) ++ r) (dst ++ [c3.1])
              · rfl
              · exfalso
                apply hnodup.1
                rw [under_two_children (underB_append (dst ++ [name]) r) h]
                exact List.mem_map_of_mem (fun c => c.1) hc3
          · rw [hmirR c2 ht r]
            exact derefView_agree hframe1D ([c2.1] ++ r) rsrc hrd hdr hsymsFS
      cases nd with
      | dir =>
        have hshapeC : srcShape fs (src ++ [name]) (rsrc ++ [name]) := by
          rcases hshape with ⟨hrs, hchain⟩ | ⟨A, a, B, t, hsrc, hchA, hsym, hrs, hB⟩
          · left
            refine ⟨by rw [hrs], ?_⟩
            exact dirChain_snoc hchain (hrs ▸ hrdir) name
          · right
            refine ⟨A, a, B ++ [name], t, by rw [hsrc, List.append_assoc], hchA,
              hsym, by rw [hrs, List.append_assoc], ?_⟩
            intro i hil
            by_cases hi : i < B.length
            · rw [List.take_append_of_le_length (by omega)]
              exact hB i hi
            · have hi2 : i = B.length := by
                simp only [List.length_append, List.length_cons,
                  List.length_nil] at hil
                omega
              rw [hi2, List.take_left, ← hrs]
              exact hrdir
        have hpbC : (rsrc ++ [name] = src ++ [name] ∧
            dirChain fs (src ++ [name])) ∨
            (∀ e ∈ fs.entries, strictUnderB e.1 (rsrc ++ [name]) = true →
              VolFS.entryIsLink e.2 = false) := by
          rcases hpb with ⟨hrs, hchain⟩ | hnl
          · left
            exact ⟨by rw [hrs], dirChain_snoc hchain (hrs ▸ hrdir) name⟩
          · right
            intro e he hstr
            exact hnl e he (strictUnderB_child hstr)
        have hlinksC : srcLinksOK fs (rsrc ++ [name]) (dst ++ [name]) := by
          intro e he hstr t het
          obtain ⟨hex, h2, h3, h4⟩ := hlinks e he (strictUnderB_child hstr) t het
          exact ⟨hex, h2, under_dst_child_false h3, not_under_child_of_pairs h3 h4⟩
        have hfuelC : descCount fs (rsrc ++ [name]) + 1 ≤ fuel + 1 :=
          le_trans (desc_child_lt hwf.1 hacch) hdesc
        have hfuelSC : ∀ q u, strictUnderB q (rsrc ++ [name]) = true →
            fs.lookup q = some (Node.symlink u) →
            descCount fs u + (q.length - (rsrc ++ [name]).length) + 1 ≤ fuel + 1 := by
          intro q u hstr hlq
          have hb := hfuelSF q u (strictUnderB_child hstr) hlq
          have hlen : (rsrc ++ [name]).length = rsrc.length + 1 := by simp
          have hql : rsrc.length + 1 < q.length := by
            unfold strictUnderB at hstr
            simp only [Bool.and_eq_true, decide_eq_true_eq] at hstr
            omega
          omega
        obtain ⟨fs1, hres1, hwf1, hframe1, hgrow1, hnew1, hmirror1⟩ :=
          hGo fs (src ++ [name]) (dst ++ [name]) (rsrc ++ [name]) hwf hshapeC hpbC
            (by simp) hacch hchainDC (by simp) haccdh hregc.1 hregc.2
            hregcR.1 hregcR.2 hlinksC hfuelC hfuelSC
        have hmirror1' : ∀ r : Path, fs1.lookup ((dst ++ [name]) ++ r) =
            derefView fs rsrc ([name] ++ r) := by
          intro r
          have hstepv : derefView fs rsrc ([name] ++ r) =
              derefView fs (rsrc ++ [name]) r := by
            rw [show ([name] ++ r : List String) = name :: r from rfl,
              derefView_cons, hacch]
          exact (hmirror1 r).trans hstepv.symm
        obtain ⟨fs2, hres2, hwf2, hframe2, hgrow2, hnew2, hmir2⟩ :=
          hfin fs1 hwf1 hframe1 hgrow1 hnew1 hmirror1'
        refine ⟨fs2, ?_, hwf2, hframe2, hgrow2, hnew2, hmir2⟩
        rw [VolFS.copytreeFold]
        rw [if_neg (show ¬((false && VolFS.entryIsLink Node.dir) = true) from
          fun h => Bool.noConfusion h)]
        rw [if_pos (show VolFS.ctIsdir fs rfuel (src ++ [name]) Node.dir
          (!false) = true from rfl)]
        rw [hres1]
        show (match VolFS.copytreeFold (fuel + 1) rfuel fs1 src dst false rest with
          | none => none
          | some (fs2, errs) => some (fs2, errs)) = some (fs2, [])
        rw [hres2]
      | file cont =>
        have hshapeC : srcShape fs (src ++ [name]) (rsrc ++ [name]) := by
          rcases hshape with ⟨hrs, hchain⟩ | ⟨A, a, B, t, hsrc, hchA, hsym, hrs, hB⟩
          · left
            refine ⟨by rw [hrs], ?_⟩
            exact dirChain_snoc hchain (hrs ▸ hrdir) name
          · right
            refine ⟨A, a, B ++ [name], t, by rw [hsrc, List.append_assoc], hchA,
              hsym, by rw [hrs, List.append_assoc], ?_⟩
            intro i hil
            by_cases hi : i < B.length
            · rw [List.take_append_of_le_length (by omega)]
              exact hB i hi
            · have hi2 : i = B.length := by
                simp only [List.length_append, List.length_cons,
                  List.length_nil] at hil
                omega
              rw [hi2, List.take_left, ← hrs]
              exact hrdir
        have hrealC : FS.realize fs rfuel (src ++ [name]) = some (rsrc ++ [name]) :=
          realize_shape rfuel hrf hwf hshapeC (by simp)
            (fun s h => by
              rw [hacch] at h
              exact Option.noConfusion h (fun h2 => Node.noConfusion h2))
        have hne1 : rsrc ++ [name] ≠ dst ++ [name] :=
          fun h => ne_dst_of_not_under hrd (snoc_inj_base h)
        have hcfi : VolFS.copyFileInto fs rfuel (src ++ [name]) (dst ++ [name]) =
            .ok ⟨(dst ++ [name], Node.file cont) :: fs.entries⟩ :=
          copyFileInto_ok rfuel (by omega) hwf hrealC hacch (by simp) hchainDC
            haccdh hne1
        have hwf1 : FS.wf ⟨(dst ++ [name], Node.file cont) :: fs.entries⟩ :=
          wf_insert_any hwf (Node.file cont) (by simp) haccdh hparD
        have hframe1 : ∀ q : Path, underB q (dst ++ [name]) = false →
            FS.lookup ⟨(dst ++ [name], Node.file cont) :: fs.entries⟩ q =
              fs.lookup q := by
          intro q hq
          rw [lookup_insert, if_neg (fun h => ne_dst_of_not_under hq h.symm)]
        have hnew1 : ∀ e ∈ (⟨(dst ++ [name], Node.file cont) ::
            fs.entries⟩ : FS).entries,
            e ∈ fs.entries ∨ underB e.1 (dst ++ [name]) = true := by
          intro e he
          rcases List.mem_cons.mp he with he2 | ht
          · right
            rw [he2]
            exact underB_self _
          · exact Or.inl ht
        have hmirror1' : ∀ r : Path,
            FS.lookup ⟨(dst ++ [name], Node.file cont) :: fs.entries⟩
              ((dst ++ [name]) ++ r) = derefView fs rsrc ([name] ++ r) := by
          intro r
          cases r with
          | nil =>
            rw [List.append_nil, List.append_nil, lookup_insert, if_pos rfl]
            show some (Node.file cont) = derefView fs rsrc [name]
            rw [show ([name] : List String) = name :: ([] : List String) from rfl,
              derefView_cons, hacch]
            show some (Node.file cont) = fs.lookup (rsrc ++ [name])
            rw [hacch]
          | cons d m =>
            rw [lookup_insert, if_neg ?_]
            · rw [wf_no_under_none hwf (by simp) haccdh (d :: m) (by simp)]
              rw [show ([name] ++ d :: m : List String) = name :: (d :: m) from rfl,
                derefView_cons, hacch]
              show (none : Option Node) = derefView fs (rsrc ++ [name]) (d :: m)
              rw [derefView_under_nondir hwf hacch
                (fun h => Node.noConfusion h) (by simp)]
            · intro h
              have := congrArg List.length h
              simp at this
        obtain ⟨fs2, hres2, hwf2, hframe2, hgrow2, hnew2, hmir2⟩ :=
          hfin ⟨(dst ++ [name], Node.file cont) :: fs.entries⟩ hwf1 hframe1
            (fun e he => List.mem_cons_of_mem _ he) hnew1 hmirror1'
        refine ⟨fs2, ?_, hwf2, hframe2, hgrow2, hnew2, hmir2⟩
        rw [VolFS.copytreeFold]
        rw [if_neg (show ¬((false && VolFS.entryIsLink (Node.file cont)) = true)
          from fun h => Bool.noConfusion h)]
        rw [if_neg (show ¬(VolFS.ctIsdir fs rfuel (src ++ [name])
          (Node.file cont) (!false) = true) from fun h => Bool.noConfusion h)]
        rw [hcfi]
        show (match VolFS.copytreeFold (fuel + 1) rfuel
            ⟨(dst ++ [name], Node.file cont) :: fs.entries⟩ src dst false rest with
          | none => none
          | some (fs2, errs) => some (fs2, errs)) = some (fs2, [])
        rw [hres2]
      | symlink u =>
        have hstrC : strictUnderB (rsrc ++ [name]) rsrc = true := by
          unfold strictUnderB
          simp [underB_append]
        obtain ⟨⟨n, hn, hnl⟩, hsub, htd, hdt⟩ :=
          hlinks (rsrc ++ [name], Node.symlink u)
            (mem_of_lookup_eq_some hacch) hstrC u rfl
        rcases hpb with ⟨hrs, hchainP⟩ | hnl2
        · subst hrs
          have hnsu : ∀ s, fs.lookup u ≠ some (Node.symlink s) := by
            intro s hcon
            have h2 : n = Node.symlink s := Option.some.inj (hn.symm.trans hcon)
            rw [h2] at hnl
            exact Bool.noConfusion hnl
          have hu0 : u ≠ [] := (wf_parent hwf hn).1
          have hshapeC : srcShape fs (rsrc ++ [name]) u := by
            right
            exact ⟨rsrc, name, [], u, (List.append_nil (rsrc ++ [name])).symm,
              dirChain_snoc hchainP hrdir name, hacch,
              (List.append_nil u).symm,
              fun i hi => absurd hi (Nat.not_lt_zero i)⟩
          have hrealC : FS.realize fs rfuel (rsrc ++ [name]) = some u :=
            realize_shape rfuel hrf hwf hshapeC hu0 hnsu
          cases n with
          | symlink s => exact Bool.noConfusion hnl
          | dir =>
            have hisd : VolFS.isdir fs rfuel (rsrc ++ [name]) = true := by
              rw [isdir_resolved rfuel hrealC hu0 hn]
              rfl
            have hcti : VolFS.ctIsdir fs rfuel (rsrc ++ [name])
                (Node.symlink u) (!false) = true := by
              show (if VolFS.entryIsDir (Node.symlink u) = true then true
                else if ((!false) && VolFS.entryIsLink (Node.symlink u)) = true
                  then VolFS.isdir fs rfuel (rsrc ++ [name]) else false) = true
              rw [if_neg (fun h => Bool.noConfusion h),
                if_pos (show ((!false) && VolFS.entryIsLink (Node.symlink u)) = true
                  from rfl)]
              exact hisd
            have hlinksC : srcLinksOK fs u (dst ++ [name]) := by
              intro e he hstr t het
              exfalso
              have := hsub e he hstr
              rw [het] at this
              exact Bool.noConfusion this
            have hfuelC : descCount fs u + 1 ≤ fuel + 1 := by
              have hb := hfuelSF (rsrc ++ [name]) u hstrC hacch
              have hlen : (rsrc ++ [name]).length = rsrc.length + 1 := by simp
              omega
            have hfuelSC : ∀ q u2, strictUnderB q u = true →
                fs.lookup q = some (Node.symlink u2) →
                descCount fs u2 + (q.length - u.length) + 1 ≤ fuel + 1 := by
              intro q u2 hstr2 hlq2
              exfalso
              have := hsub (q, Node.symlink u2) (mem_of_lookup_eq_some hlq2) hstr2
              exact Bool.noConfusion this
            obtain ⟨fs1, hres1, hwf1, hframe1, hgrow1, hnew1, hmirror1⟩ :=
              hGo fs (rsrc ++ [name]) (dst ++ [name]) u hwf hshapeC
                (Or.inr hsub) (by simp) hn hchainDC (by simp) haccdh
                hregc.1 hregc.2 (under_dst_child_false htd)
                (not_under_child_of_pairs htd hdt) hlinksC hfuelC hfuelSC
            have hmirror1' : ∀ r : Path, fs1.lookup ((dst ++ [name]) ++ r) =
                derefView fs rsrc ([name] ++ r) := by
              intro r
              have hstepv : derefView fs rsrc ([name] ++ r) = derefView fs u r := by
                rw [show ([name] ++ r : List String) = name :: r from rfl,
                  derefView_cons, hacch]
              exact (hmirror1 r).trans hstepv.symm
            obtain ⟨fs2, hres2, hwf2, hframe2, hgrow2, hnew2, hmir2⟩ :=
              hfin fs1 hwf1 hframe1 hgrow1 hnew1 hmirror1'
            refine ⟨fs2, ?_, hwf2, hframe2, hgrow2, hnew2, hmir2⟩
            rw [VolFS.copytreeFold]
            rw [if_neg (show ¬((false && VolFS.entryIsLink (Node.symlink u)) = true)
              from fun h => Bool.noConfusion h)]
            rw [if_pos hcti]
            rw [hres1]
            show (match VolFS.copytreeFold (fuel + 1) rfuel fs1 rsrc dst
                false rest with
              | none => none
              | some (fs2, errs) => some (fs2, errs)) = some (fs2, [])
            rw [hres2]
          | file c2 =>
            have hisd : VolFS.isdir fs rfuel (rsrc ++ [name]) = false := by
              rw [isdir_resolved rfuel hrealC hu0 hn]
              rfl
            have hcti : VolFS.ctIsdir fs rfuel (rsrc ++ [name])
                (Node.symlink u) (!false) = false := by
              show (if VolFS.entryIsDir (Node.symlink u) = true then true
                else if ((!false) && VolFS.entryIsLink (Node.symlink u)) = true
                  then VolFS.isdir fs rfuel (rsrc ++ [name]) else false) = false
              rw [if_neg (fun h => Bool.noConfusion h),
                if_pos (show ((!false) && VolFS.entryIsLink (Node.symlink u)) = true
                  from rfl)]
              exact hisd
            have hne1 : u ≠ dst ++ [name] := by
              intro hcon
              rw [hcon, underB_append] at htd
              exact Bool.noConfusion htd
            have hcfi : VolFS.copyFileInto fs rfuel (rsrc ++ [name])
                (dst ++ [name]) =
                .ok ⟨(dst ++ [name], Node.file c2) :: fs.entries⟩ :=
              copyFileInto_ok rfuel (by omega) hwf hrealC hn (by simp) hchainDC
                haccdh hne1
            have hwf1 : FS.wf ⟨(dst ++ [name], Node.file c2) :: fs.entries⟩ :=
              wf_insert_any hwf (Node.file c2) (by simp) haccdh hparD
            have hframe1 : ∀ q : Path, underB q (dst ++ [name]) = false →
                FS.lookup ⟨(dst ++ [name], Node.file c2) :: fs.entries⟩ q =
                  fs.lookup q := by
              intro q hq
              rw [lookup_insert, if_neg (fun h => ne_dst_of_not_under hq h.symm)]
            have hnew1 : ∀ e ∈ (⟨(dst ++ [name], Node.file c2) ::
                fs.entries⟩ : FS).entries,
                e ∈ fs.entries ∨ underB e.1 (dst ++ [name]) = true := by
              intro e he
              rcases List.mem_cons.mp he with he2 | ht
              · right
                rw [he2]
                exact underB_self _
              · exact Or.inl ht
            have hmirror1' : ∀ r : Path,
                FS.lookup ⟨(dst ++ [name], Node.file c2) :: fs.entries⟩
                  ((dst ++ [name]) ++ r) = derefView fs rsrc ([name] ++ r) := by
              intro r
              cases r with
              | nil =>
                rw [List.append_nil, List.append_nil, lookup_insert, if_pos rfl]
                show some (Node.file c2) = derefView fs rsrc [name]
                rw [show ([name] : List String) = name :: ([] : List String)
                  from rfl, derefView_cons, hacch]
                show some (Node.file c2) = fs.lookup u
                rw [hn]
              | cons d m =>
                rw [lookup_insert, if_neg ?_]
                · rw [wf_no_under_none hwf (by simp) haccdh (d :: m) (by simp)]
                  rw [show ([name] ++ d :: m : List String) = name :: (d :: m)
                    from rfl, derefView_cons, hacch]
                  show (none : Option Node) = derefView fs u (d :: m)
                  rw [derefView_under_nondir hwf hn
                    (fun h => Node.noConfusion h) (by simp)]
                · intro h
                  have := congrArg List.length h
                  simp at this
            obtain ⟨fs2, hres2, hwf2, hframe2, hgrow2, hnew2, hmir2⟩ :=
              hfin ⟨(dst ++ [name], Node.file c2) :: fs.entries⟩ hwf1 hframe1
                (fun e he => List.mem_cons_of_mem _ he) hnew1 hmirror1'
            refine ⟨fs2, ?_, hwf2, hframe2, hgrow2, hnew2, hmir2⟩
            rw [VolFS.copytreeFold]
            rw [if_neg (show ¬((false && VolFS.entryIsLink (Node.symlink u)) = true)
              from fun h => Bool.noConfusion h)]
            rw [if_neg (fun h => by rw [hcti] at h; exact Bool.noConfusion h)]
            rw [hcfi]
            show (match VolFS.copytreeFold (fuel + 1) rfuel
                ⟨(dst ++ [name], Node.file c2) :: fs.entries⟩ rsrc dst
                false rest with
              | none => none
              | some (fs2, errs) => some (fs2, errs)) = some (fs2, [])
            rw [hres2]
        · exfalso
          exact Bool.noConfusion (hnl2 (rsrc ++ [name], Node.symlink u)
            (mem_of_lookup_eq_some hacch) hstrC)

/-- C8: `Volume.copytree` and the `symlinks` flag.  On a well-formed
volume with an existing source directory `src`, a fresh destination path
`dst` (absent leaf below an existing chain of parent directories,
unrelated to `src`) and enough recursion fuel: with `symlinks=True` the
call succeeds and the destination subtree becomes a raw node-for-node
mirror of the source subtree — every symbolic link found in `src` is
recreated (via the loop's `readlink` + `symlink` pair) as a symbolic link
with the identical target at the corresponding destination path, and the
contents behind those links are not copied; with `symlinks=False`,
provided every symbolic link below `src` dereferences in one hop to an
existing non-symlink node whose subtree is symlink-free and unrelated to
the destination (`srcLinksOK` — cyclic or dangling links would make the
real call diverge or fail), the call succeeds and the destination subtree
becomes the fully dereferenced view `derefView` of the source subtree: a
symlink to a directory is recursed into and copied as a directory, and a
symlink to a file has the pointed-to file's contents copied.  Both runs
leave every path outside the destination subtree untouched. -/
theorem c8_copytree (fs : FS) (cfuel rfuel : Nat) (src dst : Path)
    (hrf : 2 ≤ rfuel) (hwf : fs.wf)
    (hchainS : dirChain fs src) (hs0 : src ≠ [])
    (hsdir : fs.lookup src = some Node.dir)
    (hchainD : dirChain fs dst) (hd0 : dst ≠ [])
    (hdnone : fs.lookup dst = none)
    (hsd : underB src dst = false) (hds : underB dst src = false)
    (hfuel : descCount fs src + 1 ≤ cfuel)
    (hfuelS : ∀ q u : Path, strictUnderB q src = true →
      fs.lookup q = some (Node.symlink u) →
      descCount fs u + (q.length - src.length) + 1 ≤ cfuel)
    (hlinks : srcLinksOK fs src dst) :
    (∃ fs2 : FS,
      VolFS.copytree cfuel rfuel fs src dst true = some (fs2, none) ∧
      (∀ r : Path, fs2.lookup (dst ++ r) = fs.lookup (src ++ r)) ∧
      (∀ q : Path, underB q dst = false → fs2.lookup q = fs.lookup q)) ∧
    (∃ fs2 : FS,
      VolFS.copytree cfuel rfuel fs src dst false = some (fs2, none) ∧
      (∀ r : Path, fs2.lookup (dst ++ r) = derefView fs src r) ∧
      (∀ q : Path, underB q dst = false → fs2.lookup q = fs.lookup q)) := by
  constructor
  · obtain ⟨fs2, h1, _, h3, _, _, h6⟩ :=
      (copytree_true_aux rfuel hrf cfuel).1 fs src dst hwf hchainS hs0 hsdir
        hchainD hd0 hdnone hsd hds hfuel
    exact ⟨fs2, h1, h6, h3⟩
  · obtain ⟨fs2, h1, _, h3, _, _, h6⟩ :=
      (copytree_false_aux rfuel hrf cfuel).1 fs src dst src hwf
        (Or.inl ⟨rfl, hchainS⟩) (Or.inl ⟨rfl, hchainS⟩) hs0 hsdir hchainD hd0
        hdnone hsd hds hsd hds hlinks hfuel hfuelS
    exact ⟨fs2, h1, h6, h3⟩

/-- C8 witness: a source tree holding a regular file, a subdirectory with
a file, a symlink to an outside file and a symlink to an outside directory
is copied to a fresh destination with both settings of `symlinks`. -/
theorem c8_copytree_witness :
    (∃ fs2 : FS,
      VolFS.copytree 6 2
        ⟨[(["s"], Node.dir), (["s", "f"], Node.file [1, 2]),
          (["s", "l"], Node.symlink ["t"]), (["s", "d2"], Node.dir),
          (["s", "d2", "g"], Node.file [3]),
          (["s", "ld"], Node.symlink ["td"]), (["t"], Node.file [9, 9]),
          (["td"], Node.dir), (["td", "h"], Node.file [7])]⟩
        ["s"] ["d"] true = some (fs2, none) ∧
      (∀ r : Path, fs2.lookup (["d"] ++ r) =
        FS.lookup ⟨[(["s"], Node.dir), (["s", "f"], Node.file [1, 2]),
          (["s", "l"], Node.symlink ["t"]), (["s", "d2"], Node.dir),
          (["s", "d2", "g"], Node.file [3]),
          (["s", "ld"], Node.symlink ["td"]), (["t"], Node.file [9, 9]),
          (["td"], Node.dir), (["td", "h"], Node.file [7])]⟩ (["s"] ++ r)) ∧
      (∀ q : Path, underB q ["d"] = false → fs2.lookup q =
        FS.lookup ⟨[(["s"], Node.dir), (["s", "f"], Node.file [1, 2]),
          (["s", "l"], Node.symlink ["t"]), (["s", "d2"], Node.dir),
          (["s", "d2", "g"], Node.file [3]),
          (["s", "ld"], Node.symlink ["td"]), (["t"], Node.file [9, 9]),
          (["td"], Node.dir), (["td", "h"], Node.file [7])]⟩ q)) ∧
    (∃ fs2 : FS,
      VolFS.copytree 6 2
        ⟨[(["s"], Node.dir), (["s", "f"], Node.file [1, 2]),
          (["s", "l"], Node.symlink ["t"]), (["s", "d2"], Node.dir),
          (["s", "d2", "g"], Node.file [3]),
          (["s", "ld"], Node.symlink ["td"]), (["t"], Node.file [9, 9]),
          (["td"], Node.dir), (["td", "h"], Node.file [7])]⟩
        ["s"] ["d"] false = some (fs2, none) ∧
      (∀ r : Path, fs2.lookup (["d"] ++ r) =
        derefView ⟨[(["s"], Node.dir), (["s", "f"], Node.file [1, 2]),
          (["s", "l"], Node.symlink ["t"]), (["s", "d2"], Node.dir),
          (["s", "d2", "g"], Node.file [3]),
          (["s", "ld"], Node.symlink ["td"]), (["t"], Node.file [9, 9]),
          (["td"], Node.dir), (["td", "h"], Node.file [7])]⟩ ["s"] r) ∧
      (∀ q : Path, underB q ["d"] = false → fs2.lookup q =
        FS.lookup ⟨[(["s"], Node.dir), (["s", "f"], Node.file [1, 2]),
          (["s", "l"], Node.symlink ["t"]), (["s", "d2"], Node.dir),
          (["s", "d2", "g"], Node.file [3]),
          (["s", "ld"], Node.symlink ["td"]), (["t"], Node.file [9, 9]),
          (["td"], Node.dir), (["td", "h"], Node.file [7])]⟩ q)) := by
  apply c8_copytree
    ⟨[(["s"], Node.dir), (["s", "f"], Node.file [1, 2]),
      (["s", "l"], Node.symlink ["t"]), (["s", "d2"], Node.dir),
      (["s", "d2", "g"], Node.file [3]),
      (["s", "ld"], Node.symlink ["td"]), (["t"], Node.file [9, 9]),
      (["td"], Node.dir), (["td", "h"], Node.file [7])]⟩
    6 2 ["s"] ["d"] (by decide) ⟨by decide, by decide⟩
  · intro i hi0 hil
    simp at hil
    omega
  · decide
  · decide
  · intro i hi0 hil
    simp at hil
    omega
  · decide
  · decide
  · decide
  · decide
  · decide
  · intro q u hstr hlq
    have hmem := mem_of_lookup_eq_some hlq
    simp only [List.mem_cons, List.not_mem_nil, or_false] at hmem
    rcases hmem with h | h | h | h | h | h | h | h | h <;>
      injection h with hq hnode
    all_goals first
      | exact Node.noConfusion hnode
      | (injection hnode with hu
         subst hq
         subst hu
         decide)
  · intro e he hstr t het
    simp only [List.mem_cons, List.not_mem_nil, or_false] at he
    rcases he with h | h | h | h | h | h | h | h | h <;> subst h
    all_goals first
      | exact Node.noConfusion het
      | (injection het with ht
         subst ht
         exact ⟨⟨_, rfl, rfl⟩, by decide, by decide, by decide⟩)

end Gfapi
